import Mathlib

/-!
# Slotted heap page (`src/src/heappage.cpp`)

A shallow embedding of `HeapPage`: the page header fields, the slot directory and
the record data region, with `Init`, `InsertRecord`, `DeleteRecord`,
`RecordWithOffset`, `FirstRecord`, `NextRecord`, `GetRecord`, `ReturnRecord`,
`AvailableSpace`, `IsEmpty` and `GetNumOfRecords` translated statement by
statement.

Modelling conventions.

* Header fields, slot fields and `int` arguments are mathematical integers
  (`Int`).  Where the source mixes `int` with `size_t` (the space test of
  `InsertRecord`, the subtraction in `AvailableSpace`) the usual arithmetic
  conversions are written out with an explicit reduction modulo `2 ^ 64`.
* Memory reached through a `char*` is a function `Int → Byte` indexed by the byte
  offset from the pointer; `memcpy`/`memmove` of `n` bytes rewrite the offsets
  `dst ≤ i < dst + n`.  A negative count (undefined behaviour in C) copies nothing.
* The slot directory is the function `slots`, indexed by slot number: the cell
  `GetFirstSlotPointer() - (slotNo - 1)` is `slots slotNo`.  It is kept apart from
  the record bytes `data`; in the source both live in the one `data` array, the
  directory at its high end, and they stay apart as long as
  `freePtr + numOfSlots * sizeof(Slot) ≤ HEAPPAGE_DATA_SIZE`, which the counter
  invariant (`Counters`) gives on every reachable page.
* Where a statement about `InsertRecord` or `DeleteRecord` ranges over page states
  in which record bytes and directory entries may share bytes, the byte-level model
  (`Bytes.Page`, `Bytes.InsertRecord`, `Bytes.DeleteRecord`) is used instead: there
  the directory is read from and stored in `data` itself, the entry of slot `k` at
  byte `HEAPPAGE_DATA_SIZE - k * sizeof(Slot)`, through the field accessors of a slot
  layout (`SlotFields`), a parameter because `struct Slot` is declared in
  `heappage.h`.
* `heappage.h` is not part of the sources at hand.  The constants it declares
  (`HEAPPAGE_DATA_SIZE`, `sizeof(Slot)`, `INVALID_PAGE`) are parameters
  (`Params`); its inline helpers `SlotIsEmpty` and `SetSlotEmpty` are modelled from
  the specification.
* The compaction loop of `DeleteRecord` need not terminate, so it takes a fuel
  argument and `DeleteRecord` returns `none` when the fuel runs out.
-/

namespace HeapPageModel

/-! ## Data model -/

/-- One byte of page or record memory (a C `char`); bytes are only ever copied. -/
abbrev Byte := Nat

/-- The `Status` codes used by `HeapPage`. -/
inductive Status where
  | OK
  | DONE
  | FAIL
deriving DecidableEq, Repr

/-- A record identifier: page number and 1-based slot number. -/
structure RecordID where
  pageNo : Int
  slotNo : Int
deriving DecidableEq, Repr

/-- A slot directory entry. -/
structure Slot where
  offset : Int
  length : Int
deriving DecidableEq, Repr

/-- Constants declared in `heappage.h`, which is not among the sources: the size of
the `data` array, `sizeof(Slot)` and the invalid page sentinel. -/
structure Params where
  HEAPPAGE_DATA_SIZE : Nat
  sizeofSlot : Nat
  INVALID_PAGE : Int

/-- The largest value of a C `int`. -/
def INT_MAX : Int := 2147483647

/-- The constants fit the C types they are declared with (`int`). -/
def Params.valid (P : Params) : Prop :=
  (P.HEAPPAGE_DATA_SIZE : Int) ≤ INT_MAX ∧ (P.sizeofSlot : Int) ≤ INT_MAX

instance (P : Params) : Decidable P.valid := by
  unfold Params.valid; infer_instance

/-- The page object: header fields, slot directory and record bytes. -/
structure HeapPage where
  nextPage : Int
  prevPage : Int
  numOfSlots : Int
  pid : Int
  freePtr : Int
  freeSpace : Int
  slots : Int → Slot
  data : Int → Byte

/-- Conversion of an integer to `size_t` (64 bits): reduction modulo `2 ^ 64`. -/
def toSizeT (x : Int) : Int := x % 18446744073709551616

/-- Conversion of a `size_t` value to `int` (32 bits, two's complement). -/
def toInt (x : Int) : Int := (x + 2147483648) % 4294967296 - 2147483648

/-- The C library `memcpy`/`memmove`: the result holds, at offsets
`dstOff ≤ i < dstOff + n`, the bytes that `src` held at `srcOff + (i - dstOff)`
before the call, and the bytes of `dst` elsewhere. -/
def memcpy (dst : Int → Byte) (dstOff : Int) (src : Int → Byte) (srcOff : Int) (n : Int) :
    Int → Byte :=
  fun i => if dstOff ≤ i ∧ i < dstOff + n then src (srcOff + (i - dstOff)) else dst i

/-- Modelled from the spec: the sentinel length of an unoccupied slot, declared in the
absent `heappage.h` ("a reserved value outside the valid range of real lengths,
e.g. negative"). -/
def INVALID_SLOT : Int := -1

/-- Modelled from the spec: `SlotIsEmpty` of the absent `heappage.h`; a slot is
unoccupied when its length is the sentinel. -/
def SlotIsEmpty (s : Slot) : Bool := s.length == INVALID_SLOT

/-- Modelled from the spec: `SetSlotEmpty` of the absent `heappage.h`; marks the slot
unoccupied by storing the sentinel length. -/
def SetSlotEmpty (s : Slot) : Slot := { s with length := INVALID_SLOT }

/-- Store `s` in the directory cell of slot number `k`. -/
def setSlot (slots : Int → Slot) (k : Int) (s : Slot) : Int → Slot :=
  fun j => if j = k then s else slots j

/-- The slot numbers `1, 2, ..., numOfSlots` in the order every `for` loop of the
source visits them. -/
def slotNumbers (p : HeapPage) : List Int :=
  List.map (fun i : Nat => (i : Int) + 1) (List.range p.numOfSlots.toNat)

/-! ## Operations -/

/-- `HeapPage::Init`: resets the header; the bytes of the page are left as they are. -/
def Init (P : Params) (p : HeapPage) (pageNo : Int) : HeapPage :=
  { p with
    nextPage := P.INVALID_PAGE
    prevPage := P.INVALID_PAGE
    numOfSlots := 0
    pid := pageNo
    freePtr := 0
    freeSpace := P.HEAPPAGE_DATA_SIZE }

/-- Outcome of `InsertRecord`: status, page afterwards, and the `rid` out-parameter. -/
structure InsertResult where
  status : Status
  page : HeapPage
  rid : RecordID

/-- `HeapPage::InsertRecord`.  The first loop looks for the lowest unoccupied slot;
the space test compares in `size_t`; a found slot is refilled, otherwise slot
`numOfSlots + 1` is appended; the record is copied to `freePtr`. -/
def InsertRecord (P : Params) (p : HeapPage) (recPtr : Int → Byte) (length : Int)
    (rid : RecordID) : InsertResult :=
  let found := (slotNumbers p).find? (fun k => SlotIsEmpty (p.slots k))
  if toSizeT p.freeSpace <
      toSizeT (length + (if found.isSome then 0 else (P.sizeofSlot : Int))) then
    ⟨Status.DONE, p, rid⟩
  else
    match found with
    | some k =>
      ⟨Status.OK,
        { p with
          slots := setSlot p.slots k ⟨p.freePtr, length⟩
          data := memcpy p.data p.freePtr recPtr 0 length
          freePtr := p.freePtr + length
          freeSpace := p.freeSpace - length },
        ⟨p.pid, k⟩⟩
    | none =>
      ⟨Status.OK,
        { p with
          numOfSlots := p.numOfSlots + 1
          slots := setSlot p.slots (p.numOfSlots + 1) ⟨p.freePtr, length⟩
          data := memcpy p.data p.freePtr recPtr 0 length
          freePtr := p.freePtr + length
          freeSpace := p.freeSpace - P.sizeofSlot - length },
        ⟨p.pid, p.numOfSlots + 1⟩⟩

/-- `HeapPage::RecordWithOffset`: the lowest-numbered occupied slot whose offset is
`offset`; `nextRid` is left alone when there is none. -/
def RecordWithOffset (p : HeapPage) (offset : Int) (nextRid : RecordID) :
    Status × RecordID :=
  match (slotNumbers p).find?
      (fun k => !SlotIsEmpty (p.slots k) && decide ((p.slots k).offset = offset)) with
  | some k => (Status.OK, ⟨p.pid, k⟩)
  | none => (Status.DONE, nextRid)

/-- The `while` loop of `DeleteRecord` that closes the hole.  `delSlotNo` is the slot
being deleted (`delSlot`), `delPtr` the offset of its record computed before the
loop, `baseOffset` and `nextRid` the loop variables.  `none` when `fuel` iterations
did not reach the exit. -/
def compactLoop : Nat → HeapPage → Int → Int → Int → RecordID → Option HeapPage
  | 0, _, _, _, _, _ => none
  | fuel + 1, p, delSlotNo, delPtr, baseOffset, nextRid =>
    let delSlot := p.slots delSlotNo
    let r := RecordWithOffset p (delSlot.offset + delSlot.length + baseOffset) nextRid
    if r.1 = Status.DONE then some p
    else
      let curRid := r.2
      let moveSlot := p.slots curRid.slotNo
      let q : HeapPage :=
        { p with
          data := memcpy p.data (delPtr + baseOffset) p.data moveSlot.offset moveSlot.length
          slots := setSlot p.slots curRid.slotNo
            ⟨moveSlot.offset - delSlot.length, moveSlot.length⟩ }
      compactLoop fuel q delSlotNo delPtr (baseOffset + moveSlot.length) r.2

/-- Outcome of `DeleteRecord`: status and page afterwards. -/
structure DeleteResult where
  status : Status
  page : HeapPage

/-- `HeapPage::DeleteRecord`: validate, close the hole, give the space back, trim the
directory when the last slot was deleted, mark the slot unoccupied.  The local
`nextRid`, uninitialised in the source and written by `RecordWithOffset` before it is
read, starts as `rid`. -/
def DeleteRecord (P : Params) (fuel : Nat) (p : HeapPage) (rid : RecordID) :
    Option DeleteResult :=
  if rid.pageNo ≠ p.pid ∨ rid.slotNo > p.numOfSlots ∨ rid.slotNo < 1 then
    some ⟨Status.FAIL, p⟩
  else if SlotIsEmpty (p.slots rid.slotNo) then some ⟨Status.FAIL, p⟩
  else
    match compactLoop fuel p rid.slotNo (p.slots rid.slotNo).offset 0 rid with
    | none => none
    | some q =>
      let delSlot := q.slots rid.slotNo
      let q1 : HeapPage :=
        { q with freePtr := q.freePtr - delSlot.length
                 freeSpace := q.freeSpace + delSlot.length }
      let q2 : HeapPage :=
        if rid.slotNo = q1.numOfSlots then
          { q1 with numOfSlots := q1.numOfSlots - 1
                    freeSpace := q1.freeSpace + P.sizeofSlot }
        else q1
      some ⟨Status.OK,
        { q2 with slots := setSlot q2.slots rid.slotNo (SetSlotEmpty (q2.slots rid.slotNo)) }⟩

/-- Outcome of `FirstRecord` and `NextRecord`: status, page afterwards, and the
record-id out-parameter. -/
structure RidResult where
  status : Status
  page : HeapPage
  rid : RecordID

/-- `HeapPage::FirstRecord`: the lowest-numbered occupied slot at offset 0. -/
def FirstRecord (p : HeapPage) (rid : RecordID) : RidResult :=
  match (slotNumbers p).find?
      (fun k => !SlotIsEmpty (p.slots k) && decide ((p.slots k).offset = 0)) with
  | some k => ⟨Status.OK, p, ⟨p.pid, k⟩⟩
  | none => ⟨Status.DONE, p, rid⟩

/-- `HeapPage::NextRecord`: the lowest-numbered occupied slot whose offset is the end
of the current record. -/
def NextRecord (p : HeapPage) (curRid : RecordID) (nextRid : RecordID) : RidResult :=
  if curRid.pageNo ≠ p.pid ∨ curRid.slotNo > p.numOfSlots ∨ curRid.slotNo < 1 then
    ⟨Status.FAIL, p, nextRid⟩
  else if SlotIsEmpty (p.slots curRid.slotNo) then ⟨Status.FAIL, p, nextRid⟩
  else
    let curSlot := p.slots curRid.slotNo
    let nextOffset := curSlot.offset + curSlot.length
    match (slotNumbers p).find?
        (fun k => !SlotIsEmpty (p.slots k) && decide ((p.slots k).offset = nextOffset)) with
    | some k => ⟨Status.OK, p, ⟨p.pid, k⟩⟩
    | none => ⟨Status.DONE, p, nextRid⟩

/-- Outcome of `GetRecord`: status, page afterwards, the caller's buffer and `len`. -/
structure GetResult where
  status : Status
  page : HeapPage
  recPtr : Int → Byte
  len : Int

/-- `HeapPage::GetRecord`: copies the record into the caller's buffer `recPtr` of
capacity `len`. -/
def GetRecord (p : HeapPage) (rid : RecordID) (recPtr : Int → Byte) (len : Int) :
    GetResult :=
  if rid.pageNo ≠ p.pid ∨ rid.slotNo > p.numOfSlots ∨ rid.slotNo < 1 then
    ⟨Status.FAIL, p, recPtr, len⟩
  else
    let curSlot := p.slots rid.slotNo
    if len < curSlot.length ∨ SlotIsEmpty curSlot then ⟨Status.FAIL, p, recPtr, len⟩
    else
      ⟨Status.OK, p, memcpy recPtr 0 p.data curSlot.offset curSlot.length, curSlot.length⟩

/-- Outcome of `ReturnRecord`: status, page afterwards, the returned pointer (as an
offset into `data`) and `len`. -/
structure ReturnResult where
  status : Status
  page : HeapPage
  recPtr : Int
  len : Int

/-- `HeapPage::ReturnRecord`: hands out a pointer into the page. -/
def ReturnRecord (p : HeapPage) (rid : RecordID) (recPtr : Int) (len : Int) :
    ReturnResult :=
  if rid.pageNo ≠ p.pid ∨ rid.slotNo > p.numOfSlots ∨ rid.slotNo < 1 then
    ⟨Status.FAIL, p, recPtr, len⟩
  else
    let curSlot := p.slots rid.slotNo
    if SlotIsEmpty curSlot then ⟨Status.FAIL, p, recPtr, len⟩
    else ⟨Status.OK, p, curSlot.offset, curSlot.length⟩

/-- `HeapPage::AvailableSpace`: `std::max((int)(freeSpace - sizeof(Slot)), 0)`, the
subtraction being done in `size_t`. -/
def AvailableSpace (P : Params) (p : HeapPage) : Int :=
  max (toInt (toSizeT (p.freeSpace - P.sizeofSlot))) 0

/-- `HeapPage::IsEmpty`. -/
def IsEmpty (p : HeapPage) : Bool := decide (p.numOfSlots = 0)

/-- `HeapPage::GetNumOfRecords`: counts the occupied slots among `1..numOfSlots`. -/
def GetNumOfRecords (p : HeapPage) : Int :=
  ((slotNumbers p).countP (fun k => !SlotIsEmpty (p.slots k)) : Nat)

/-- `HeapPage::SetNextPage`. -/
def SetNextPage (p : HeapPage) (pageNo : Int) : HeapPage := { p with nextPage := pageNo }

/-- `HeapPage::SetPrevPage`. -/
def SetPrevPage (p : HeapPage) (pageNo : Int) : HeapPage := { p with prevPage := pageNo }

/-- `HeapPage::GetNextPage`. -/
def GetNextPage (p : HeapPage) : Int := p.nextPage

/-- `HeapPage::GetPrevPage`. -/
def GetPrevPage (p : HeapPage) : Int := p.prevPage

/-- `HeapPage::PageNo`. -/
def PageNo (p : HeapPage) : Int := p.pid

/-- The forward scan a caller runs with `FirstRecord` and `NextRecord`: given the
outcome `r` of the previous call, visit `r.rid` and go on with `NextRecord` while the
calls return `OK`; `DONE` ends the scan.  Returns the record identifiers visited, or
`none` when a call returned `FAIL` or `fuel` calls did not reach `DONE`. -/
def scanFrom : Nat → HeapPage → RidResult → Option (List RecordID)
  | 0, _, _ => none
  | fuel + 1, p, r =>
    match r.status with
    | Status.OK => (scanFrom fuel p (NextRecord p r.rid r.rid)).map (fun l => r.rid :: l)
    | Status.DONE => some []
    | Status.FAIL => none

/-- The whole scan, started with `FirstRecord`. -/
def scan (fuel : Nat) (p : HeapPage) : Option (List RecordID) :=
  scanFrom fuel p (FirstRecord p ⟨0, 0⟩)

/-! ## Reachable page states -/

/-- Page states reachable from `Init` by `InsertRecord` calls with records of length
`minLen ≤ length ≤ INT_MAX` and by `DeleteRecord` calls that return. -/
inductive Reachable (P : Params) (minLen : Int) : HeapPage → Prop where
  | init (p0 : HeapPage) (pageNo : Int) : Reachable P minLen (Init P p0 pageNo)
  | insert (p : HeapPage) (recPtr : Int → Byte) (length : Int) (rid : RecordID) :
      Reachable P minLen p → minLen ≤ length → length ≤ INT_MAX →
      Reachable P minLen (InsertRecord P p recPtr length rid).page
  | delete (p : HeapPage) (fuel : Nat) (rid : RecordID) (res : DeleteResult) :
      Reachable P minLen p → DeleteRecord P fuel p rid = some res →
      Reachable P minLen res.page

/-- The record identifier addresses an occupied slot of the page: matching page number,
slot number within `1..numOfSlots`, slot not marked unoccupied. -/
def ValidRid (p : HeapPage) (rid : RecordID) : Prop :=
  rid.pageNo = p.pid ∧ 1 ≤ rid.slotNo ∧ rid.slotNo ≤ p.numOfSlots ∧
    SlotIsEmpty (p.slots rid.slotNo) = false

instance (p : HeapPage) (rid : RecordID) : Decidable (ValidRid p rid) := by
  unfold ValidRid; infer_instance

/-- One `InsertRecord` call: the record pointer, the length, and the value the `rid`
out-parameter holds before the call. -/
structure InsertCall where
  recPtr : Int → Byte
  length : Int
  rid : RecordID

/-- One successful insertion: the record identifier handed out and the record that
was inserted under it. -/
structure Inserted where
  rid : RecordID
  recPtr : Int → Byte
  length : Int

/-- Run a sequence of `InsertRecord` calls; returns the final page and, for the calls
that returned `OK`, the record identifiers handed out with their records. -/
def insertAll (P : Params) : HeapPage → List InsertCall → HeapPage × List Inserted
  | p, [] => (p, [])
  | p, c :: cs =>
    let r := InsertRecord P p c.recPtr c.length c.rid
    let rest := insertAll P r.page cs
    (rest.1, if r.status = Status.OK then ⟨r.rid, c.recPtr, c.length⟩ :: rest.2 else rest.2)

/-- The record `e` is readable on page `p`: its slot is in range, holds the inserted
length, lies below `freePtr`, and the page bytes of the slot are the record's. -/
def Stored (p : HeapPage) (e : Inserted) : Prop :=
  e.rid.pageNo = p.pid ∧ 1 ≤ e.rid.slotNo ∧ e.rid.slotNo ≤ p.numOfSlots ∧
    (p.slots e.rid.slotNo).length = e.length ∧ 0 ≤ e.length ∧
    (p.slots e.rid.slotNo).offset + e.length ≤ p.freePtr ∧
    ∀ i, 0 ≤ i → i < e.length → p.data ((p.slots e.rid.slotNo).offset + i) = e.recPtr i

/-- A page on which no slot among `1..numOfSlots` is unoccupied (true as long as
nothing has been deleted). -/
def AllOccupied (p : HeapPage) : Prop :=
  0 ≤ p.numOfSlots ∧ ∀ k, 1 ≤ k → k ≤ p.numOfSlots → SlotIsEmpty (p.slots k) = false

/-- The slots of the list `l`, taken in this order, tile the byte range `[s, e)`: the
first starts at `s`, each next one where the previous ends, and the last ends at `e`. -/
def Tiles (slots : Int → Slot) : List Int → Int → Int → Prop
  | [], s, e => s = e
  | k :: ks, s, e => (slots k).offset = s ∧ Tiles slots ks (s + (slots k).length) e

/-- Layout invariant of a page whose records all have length at least 1: `l` lists
the occupied slots among `1..numOfSlots` without repetition, in the order of their
records in the data region, and these records tile `[0, freePtr)`. -/
def Layout (p : HeapPage) (l : List Int) : Prop :=
  0 ≤ p.numOfSlots ∧ l.Nodup ∧
  (∀ k, k ∈ l ↔ (1 ≤ k ∧ k ≤ p.numOfSlots ∧ SlotIsEmpty (p.slots k) = false)) ∧
  (∀ k ∈ l, 1 ≤ (p.slots k).length) ∧
  Tiles p.slots l 0 p.freePtr

/-- The sum `f 1 + ... + f n`. -/
def sumTo (f : Int → Int) : Nat → Int
  | 0 => 0
  | n + 1 => sumTo f n + f ((n : Int) + 1)

/-- The bytes a slot accounts for in the data region: its length when it is
occupied, nothing when it is not. -/
def slotBytes (s : Slot) : Int := if SlotIsEmpty s then 0 else s.length

/-- Total length of the records of the occupied slots among `1..numOfSlots`. -/
def occupiedBytes (p : HeapPage) : Int :=
  sumTo (fun k => slotBytes (p.slots k)) p.numOfSlots.toNat

/-- Counter invariant of a page whose records have non-negative length: the
directory is not negative in size, slot lengths are the sentinel or a real length,
`freePtr` is the total length of the stored records, and `freeSpace` is non-negative
and accounts for the rest of the data area. -/
def Counters (P : Params) (p : HeapPage) : Prop :=
  0 ≤ p.numOfSlots ∧
  (∀ k, 1 ≤ k → k ≤ p.numOfSlots → -1 ≤ (p.slots k).length) ∧
  p.freePtr = occupiedBytes p ∧
  0 ≤ p.freeSpace ∧
  p.freeSpace = (P.HEAPPAGE_DATA_SIZE : Int) - p.freePtr - p.numOfSlots * P.sizeofSlot

/-! ## Concrete pages used as test inputs -/

/-- Sample constants: a 100 byte data area, 4 byte slots, invalid page `-1`. -/
def sampleParams : Params := ⟨100, 4, -1⟩

/-- A page frame with arbitrary (here all-zero) contents, before `Init`. -/
def rawPage : HeapPage := ⟨0, 0, 0, 0, 0, 0, fun _ => ⟨0, 0⟩, fun _ => 0⟩

/-- Record bytes `0, 1, 2, ...` behind a caller's pointer. -/
def sampleRec : Int → Byte := fun i => i.toNat

/-- An empty caller buffer. -/
def sampleBuf : Int → Byte := fun _ => 0

/-- The page after `Init(7)`. -/
def page0 : HeapPage := Init sampleParams rawPage 7

/-- Three insertions, of a 3 byte, an empty and a 2 byte record. -/
def sampleCalls : List InsertCall :=
  [⟨sampleRec, 3, ⟨0, 0⟩⟩, ⟨sampleRec, 0, ⟨0, 0⟩⟩, ⟨sampleRec, 2, ⟨0, 0⟩⟩]

/-- The page after `Init(7)` and the insertion of a 3 byte record (slot 1). -/
def pageA : HeapPage := (InsertRecord sampleParams page0 sampleRec 3 ⟨0, 0⟩).page

/-- Then a 2 byte record (slot 2). -/
def pageAB : HeapPage := (InsertRecord sampleParams pageA sampleRec 2 ⟨0, 0⟩).page

/-- Then a 4 byte record (slot 3). -/
def pageABC : HeapPage := (InsertRecord sampleParams pageAB sampleRec 4 ⟨0, 0⟩).page

/-- Then slot 2 deleted: slots 1 and 3 occupied, slot 2 unoccupied. -/
def pageAC : HeapPage :=
  match DeleteRecord sampleParams 4 pageABC ⟨7, 2⟩ with
  | some res => res.page
  | none => pageABC

/-- The page after `Init(7)` and the insertion of one record of length 0 (slot 1). -/
def pageZ : HeapPage := (InsertRecord sampleParams page0 sampleRec 0 ⟨0, 0⟩).page

/-- Then a 2 byte record (slot 2), which also starts at offset 0. -/
def pageZA : HeapPage := (InsertRecord sampleParams pageZ sampleRec 2 ⟨0, 0⟩).page

/-- The page after `Init(7)`, insertions of a 3 byte and a 2 byte record, and the
deletion of slot 1 (slot 1 unoccupied, slot 2 occupied). -/
def pageB : HeapPage :=
  match DeleteRecord sampleParams 3 pageAB ⟨7, 1⟩ with
  | some res => res.page
  | none => pageAB

/-- Then slot 2 deleted as well: the directory is trimmed to one entry, slot 1, which
is unoccupied. -/
def pageEmptied : HeapPage :=
  match DeleteRecord sampleParams 3 pageB ⟨7, 2⟩ with
  | some res => res.page
  | none => pageB

/-- Modelled from the spec: the byte offset, within `data`, of the directory entry of
slot `k`, as `GetFirstSlotPointer() - (k - 1)` of the absent `heappage.h` computes
it ("slot 1 occupies the highest address, slot *k* is *k*−1 entries lower"): the entry
of slot `k` is the `sizeof(Slot)` bytes from `HEAPPAGE_DATA_SIZE - k * sizeof(Slot)`. -/
def slotEntryOffset (P : Params) (k : Int) : Int :=
  (P.HEAPPAGE_DATA_SIZE : Int) - k * P.sizeofSlot

/-- A page state with a negative `freeSpace` field: the page after `Init(7)` with
`freeSpace` overwritten by `-1`. -/
def pageNeg : HeapPage := { page0 with freeSpace := -1 }

/-- The page states reachable from `Init` by `InsertRecord` calls (records of
non-negative `int` length) and `DeleteRecord` calls, together with the number of
records inserted and not yet deleted: an `InsertRecord` that returns `OK` adds one, a
`DeleteRecord` that returns `OK` takes one away, every other call leaves it. -/
inductive ReachableCount (P : Params) : HeapPage → Int → Prop where
  | init (p0 : HeapPage) (pageNo : Int) : ReachableCount P (Init P p0 pageNo) 0
  | insert (p : HeapPage) (c : Int) (recPtr : Int → Byte) (length : Int) (rid : RecordID) :
      ReachableCount P p c → 0 ≤ length → length ≤ INT_MAX →
      ReachableCount P (InsertRecord P p recPtr length rid).page
        (if (InsertRecord P p recPtr length rid).status = Status.OK then c + 1 else c)
  | delete (p : HeapPage) (c : Int) (fuel : Nat) (rid : RecordID) (res : DeleteResult) :
      ReachableCount P p c → DeleteRecord P fuel p rid = some res →
      ReachableCount P res.page (if res.status = Status.OK then c - 1 else c)

/-- What a slot adds to the record count: 1 when it is occupied, 0 when it is not. -/
def slotCount (s : Slot) : Int := if SlotIsEmpty s then 0 else 1

/-- The record `"AAA"`. -/
def recAAA : Int → Byte := fun _ => 65

/-- The record `"BB"`. -/
def recBB : Int → Byte := fun _ => 66

/-- The record `"CCCC"`. -/
def recCCCC : Int → Byte := fun _ => 67

/-- The record `"E"`. -/
def recE : Int → Byte := fun _ => 69

/-- Scenario, step 1: `Init(pageNo)` on any frame `p0`, then `InsertRecord("AAA", 3)`. -/
def scenA (P : Params) (p0 : HeapPage) (pageNo : Int) : InsertResult :=
  InsertRecord P (Init P p0 pageNo) recAAA 3 ⟨0, 0⟩

/-- Scenario, step 2: `InsertRecord("BB", 2)`. -/
def scenB (P : Params) (p0 : HeapPage) (pageNo : Int) : InsertResult :=
  InsertRecord P (scenA P p0 pageNo).page recBB 2 ⟨0, 0⟩

/-- Scenario, step 3: `InsertRecord("CCCC", 4)`. -/
def scenC (P : Params) (p0 : HeapPage) (pageNo : Int) : InsertResult :=
  InsertRecord P (scenB P p0 pageNo).page recCCCC 4 ⟨0, 0⟩

/-- Scenario, step 4: `DeleteRecord` of slot 2 (four iterations of fuel). -/
def scenD (P : Params) (p0 : HeapPage) (pageNo : Int) : Option DeleteResult :=
  DeleteRecord P 4 (scenC P p0 pageNo).page ⟨pageNo, 2⟩

/-- The page after step 4. -/
def scenDPage (P : Params) (p0 : HeapPage) (pageNo : Int) : HeapPage :=
  match scenD P p0 pageNo with
  | some res => res.page
  | none => (scenC P p0 pageNo).page

/-- Scenario, step 5: `InsertRecord("E", 1)`. -/
def scenE (P : Params) (p0 : HeapPage) (pageNo : Int) : InsertResult :=
  InsertRecord P (scenDPage P p0 pageNo) recE 1 ⟨0, 0⟩

/-- Scenario, step 6: `DeleteRecord` of slot 3 (four iterations of fuel). -/
def scenF (P : Params) (p0 : HeapPage) (pageNo : Int) : Option DeleteResult :=
  DeleteRecord P 4 (scenE P p0 pageNo).page ⟨pageNo, 3⟩

/-- The page after step 6. -/
def scenFPage (P : Params) (p0 : HeapPage) (pageNo : Int) : HeapPage :=
  match scenF P p0 pageNo with
  | some res => res.page
  | none => (scenE P p0 pageNo).page

/-! ## Byte-level model: the slot directory inside `data` -/

/-- Access to the two fields of a `Slot` stored in the bytes of `data`.  `struct Slot`
is declared in `heappage.h`, which is not among the sources, so the types of its
fields and their byte layout are a parameter: `getOffset m a` and `getLength m a` read
the fields of the entry that starts at byte `a` of `m`, `setOffset m a v` and
`setLength m a v` store `v` in one field, and `fitsOffset`, `fitsLength` say which
values the types of the fields hold. -/
structure SlotFields where
  getOffset : (Int → Byte) → Int → Int
  getLength : (Int → Byte) → Int → Int
  setOffset : (Int → Byte) → Int → Int → (Int → Byte)
  setLength : (Int → Byte) → Int → Int → (Int → Byte)
  fitsOffset : Int → Prop
  fitsLength : Int → Prop

/-- What is assumed of a slot layout whose entries are `size` bytes long: an entry is
at least one byte; reading a field looks at the bytes of the entry only; storing a
field changes bytes of the entry only, gives the stored value back when the value fits
the type of the field, and leaves the other field alone; the sentinel length fits; an
offset read from memory fits, and so does every non-negative value below a fitting
one. -/
structure SlotFields.Lawful (F : SlotFields) (size : Int) : Prop where
  size_pos : 1 ≤ size
  getOffset_congr : ∀ m m' a, (∀ i, a ≤ i → i < a + size → m i = m' i) →
    F.getOffset m a = F.getOffset m' a
  getLength_congr : ∀ m m' a, (∀ i, a ≤ i → i < a + size → m i = m' i) →
    F.getLength m a = F.getLength m' a
  setOffset_frame : ∀ m a v i, ¬ (a ≤ i ∧ i < a + size) → F.setOffset m a v i = m i
  setLength_frame : ∀ m a v i, ¬ (a ≤ i ∧ i < a + size) → F.setLength m a v i = m i
  getOffset_setOffset : ∀ m a v, F.fitsOffset v → F.getOffset (F.setOffset m a v) a = v
  getLength_setLength : ∀ m a v, F.fitsLength v → F.getLength (F.setLength m a v) a = v
  getLength_setOffset : ∀ m a v, F.getLength (F.setOffset m a v) a = F.getLength m a
  getOffset_setLength : ∀ m a v, F.getOffset (F.setLength m a v) a = F.getOffset m a
  fitsLength_invalid : F.fitsLength INVALID_SLOT
  fitsOffset_get : ∀ m a, F.fitsOffset (F.getOffset m a)
  fitsOffset_down : ∀ v w, 0 ≤ v → v ≤ w → F.fitsOffset w → F.fitsOffset v

/-- The slot numbers `1, 2, ..., n` in the order every `for` loop of the source visits
them. -/
def slotRange (n : Int) : List Int :=
  List.map (fun i : Nat => (i : Int) + 1) (List.range n.toNat)

namespace Bytes

/-- The page object as the source lays it out: the header fields and the one array
`data`, which holds the record bytes from offset 0 upwards and the slot directory at
its high end. -/
structure Page where
  nextPage : Int
  prevPage : Int
  numOfSlots : Int
  pid : Int
  freePtr : Int
  freeSpace : Int
  data : Int → Byte

/-- The directory entry of slot `k` as the bytes of `data` hold it: the entry that
`GetFirstSlotPointer() - (k - 1)` points to starts at byte `slotEntryOffset P k`. -/
def slotAt (F : SlotFields) (P : Params) (data : Int → Byte) (k : Int) : Slot :=
  ⟨F.getOffset data (slotEntryOffset P k), F.getLength data (slotEntryOffset P k)⟩

/-- Outcome of `InsertRecord`: status, page afterwards, and the `rid` out-parameter. -/
structure InsertResult where
  status : Status
  page : Page
  rid : RecordID

/-- `HeapPage::InsertRecord` on the bytes of the page.  The first loop looks for the
lowest unoccupied slot; the space test compares in `size_t`; `newSlot` is the found
entry or the entry of slot `numOfSlots + 1`; `newSlot->length` and then
`newSlot->offset` are stored in `data`; the record is copied to `data +
newSlot->offset`, the offset being read back from the entry. -/
def InsertRecord (F : SlotFields) (P : Params) (p : Page) (recPtr : Int → Byte)
    (length : Int) (rid : RecordID) : InsertResult :=
  let found := (slotRange p.numOfSlots).find? (fun k => SlotIsEmpty (slotAt F P p.data k))
  if toSizeT p.freeSpace <
      toSizeT (length + (if found.isSome then 0 else (P.sizeofSlot : Int))) then
    ⟨Status.DONE, p, rid⟩
  else
    match found with
    | some k =>
      let newSlot := slotEntryOffset P k
      let d1 := F.setOffset (F.setLength p.data newSlot length) newSlot p.freePtr
      ⟨Status.OK,
        { p with
          data := memcpy d1 (F.getOffset d1 newSlot) recPtr 0 length
          freePtr := p.freePtr + length
          freeSpace := p.freeSpace - length },
        ⟨p.pid, k⟩⟩
    | none =>
      let newSlot := slotEntryOffset P (p.numOfSlots + 1)
      let d1 := F.setOffset (F.setLength p.data newSlot length) newSlot p.freePtr
      ⟨Status.OK,
        { p with
          numOfSlots := p.numOfSlots + 1
          data := memcpy d1 (F.getOffset d1 newSlot) recPtr 0 length
          freePtr := p.freePtr + length
          freeSpace := p.freeSpace - P.sizeofSlot - length },
        ⟨p.pid, p.numOfSlots + 1⟩⟩

/-- `HeapPage::RecordWithOffset` on the bytes of the page: the lowest-numbered occupied
slot whose offset is `offset`; `nextRid` is left alone when there is none. -/
def RecordWithOffset (F : SlotFields) (P : Params) (p : Page) (offset : Int)
    (nextRid : RecordID) : Status × RecordID :=
  match (slotRange p.numOfSlots).find?
      (fun k => !SlotIsEmpty (slotAt F P p.data k) &&
        decide ((slotAt F P p.data k).offset = offset)) with
  | some k => (Status.OK, ⟨p.pid, k⟩)
  | none => (Status.DONE, nextRid)

/-- The `while` loop of `DeleteRecord` on the bytes of the page.  `delSlot` is the
byte offset of the entry being deleted, `delPtr` the offset of its record computed
before the loop.  Every `delSlot->offset`, `delSlot->length`, `moveSlot->offset` and
`moveSlot->length` is read from `data` at the point where the source reads it: the
loop test before the `memmove`, the operands of `moveSlot->offset -= delSlot->length`
after it, and `moveSlot->length` of `baseOffset += moveSlot->length` after the offset
has been stored.  `none` when `fuel` iterations did not reach the exit. -/
def compactLoop (F : SlotFields) (P : Params) :
    Nat → Page → Int → Int → Int → RecordID → Option Page
  | 0, _, _, _, _, _ => none
  | fuel + 1, p, delSlot, delPtr, baseOffset, nextRid =>
    let r := RecordWithOffset F P p
      (F.getOffset p.data delSlot + F.getLength p.data delSlot + baseOffset) nextRid
    if r.1 = Status.DONE then some p
    else
      let curRid := r.2
      let moveSlot := slotEntryOffset P curRid.slotNo
      let d1 := memcpy p.data (delPtr + baseOffset) p.data
        (F.getOffset p.data moveSlot) (F.getLength p.data moveSlot)
      let d2 := F.setOffset d1 moveSlot (F.getOffset d1 moveSlot - F.getLength d1 delSlot)
      compactLoop F P fuel { p with data := d2 } delSlot delPtr
        (baseOffset + F.getLength d2 moveSlot) r.2

/-- Outcome of `DeleteRecord`: status and page afterwards. -/
structure DeleteResult where
  status : Status
  page : Page

/-- `HeapPage::DeleteRecord` on the bytes of the page: validate, close the hole, give
back `delSlot->length` as the entry holds it after the loop, trim the directory when
the last slot was deleted, store the sentinel length in the entry.  The local
`nextRid`, uninitialised in the source and written by `RecordWithOffset` before it is
read, starts as `rid`. -/
def DeleteRecord (F : SlotFields) (P : Params) (fuel : Nat) (p : Page) (rid : RecordID) :
    Option DeleteResult :=
  if rid.pageNo ≠ p.pid ∨ rid.slotNo > p.numOfSlots ∨ rid.slotNo < 1 then
    some ⟨Status.FAIL, p⟩
  else
    let delSlot := slotEntryOffset P rid.slotNo
    if SlotIsEmpty (slotAt F P p.data rid.slotNo) then some ⟨Status.FAIL, p⟩
    else
      match compactLoop F P fuel p delSlot (F.getOffset p.data delSlot) 0 rid with
      | none => none
      | some q =>
        let q1 : Page :=
          { q with freePtr := q.freePtr - F.getLength q.data delSlot
                   freeSpace := q.freeSpace + F.getLength q.data delSlot }
        let q2 : Page :=
          if rid.slotNo = q1.numOfSlots then
            { q1 with numOfSlots := q1.numOfSlots - 1
                      freeSpace := q1.freeSpace + P.sizeofSlot }
          else q1
        some ⟨Status.OK, { q2 with data := F.setLength q2.data delSlot INVALID_SLOT }⟩

end Bytes

/-! ## A sample slot layout and byte-level test pages -/

/-- The 16-bit word stored in bytes `a` and `a + 1`, low byte first. -/
def word16 (m : Int → Byte) (a : Int) : Int :=
  ((m a % 256 : Nat) : Int) + 256 * ((m (a + 1) % 256 : Nat) : Int)

/-- A 16-bit word read as a two's complement number. -/
def toInt16 (u : Int) : Int := if u < 32768 then u else u - 65536

/-- Store the low 16 bits of `v` in bytes `a` and `a + 1`, low byte first. -/
def putWord16 (m : Int → Byte) (a : Int) (v : Int) : Int → Byte :=
  fun i => if i = a then (v % 256).toNat else if i = a + 1 then (v / 256 % 256).toNat else m i

/-- A sample slot layout of four bytes: `offset` and then `length`, each a signed
16-bit number. -/
def sampleFields : SlotFields where
  getOffset := fun m a => toInt16 (word16 m a)
  getLength := fun m a => toInt16 (word16 m (a + 2))
  setOffset := fun m a v => putWord16 m a v
  setLength := fun m a v => putWord16 m (a + 2) v
  fitsOffset := fun v => -32768 ≤ v ∧ v < 32768
  fitsLength := fun v => -32768 ≤ v ∧ v < 32768

/-- Store a whole entry at byte `a`. -/
def putSlot (m : Int → Byte) (a : Int) (s : Slot) : Int → Byte :=
  sampleFields.setOffset (sampleFields.setLength m a s.length) a s.offset

/-- A record of bytes `'X'`. -/
def recX : Int → Byte := fun _ => 88

/-- A page state whose `freePtr` is at the directory: one slot, `(0, 3)`, stored in the
last four bytes of a 100-byte `data`, `freePtr = 96`, `freeSpace = 8`. -/
def overlapInsertPage : Bytes.Page :=
  ⟨-1, -1, 1, 7, 96, 8, putSlot (fun _ => 0) 96 ⟨0, 3⟩⟩

/-- An empty byte-level page 7 with a zeroed 100-byte `data`. -/
def bytesPage0 : Bytes.Page := ⟨-1, -1, 0, 7, 0, 100, fun _ => 0⟩

theorem mem_slotNumbers (p : HeapPage) (k : Int) :
    k ∈ slotNumbers p ↔ 1 ≤ k ∧ k ≤ p.numOfSlots := by
  unfold slotNumbers
  simp only [List.mem_map, List.mem_range]
  constructor
  · rintro ⟨i, hi, rfl⟩
    omega
  · intro ⟨h1, h2⟩
    exact ⟨(k - 1).toNat, by omega, by omega⟩

theorem slotIsEmpty_false_iff (s : Slot) : SlotIsEmpty s = false ↔ s.length ≠ -1 := by
  simp [SlotIsEmpty, INVALID_SLOT]

/-- The three ways `InsertRecord` can end. -/
theorem insertRecord_cases (P : Params) (p : HeapPage) (recPtr : Int → Byte) (length : Int)
    (rid : RecordID) :
    InsertRecord P p recPtr length rid = ⟨Status.DONE, p, rid⟩ ∨
    (∃ k, (slotNumbers p).find? (fun k => SlotIsEmpty (p.slots k)) = some k ∧
      InsertRecord P p recPtr length rid =
        ⟨Status.OK,
          { p with
            slots := setSlot p.slots k ⟨p.freePtr, length⟩
            data := memcpy p.data p.freePtr recPtr 0 length
            freePtr := p.freePtr + length
            freeSpace := p.freeSpace - length },
          ⟨p.pid, k⟩⟩) ∨
    ((slotNumbers p).find? (fun k => SlotIsEmpty (p.slots k)) = none ∧
      InsertRecord P p recPtr length rid =
        ⟨Status.OK,
          { p with
            numOfSlots := p.numOfSlots + 1
            slots := setSlot p.slots (p.numOfSlots + 1) ⟨p.freePtr, length⟩
            data := memcpy p.data p.freePtr recPtr 0 length
            freePtr := p.freePtr + length
            freeSpace := p.freeSpace - P.sizeofSlot - length },
          ⟨p.pid, p.numOfSlots + 1⟩⟩) := by
  unfold InsertRecord
  dsimp only
  by_cases hc : toSizeT p.freeSpace < toSizeT (length +
      (if ((slotNumbers p).find? (fun k => SlotIsEmpty (p.slots k))).isSome then 0
        else (P.sizeofSlot : Int)))
  · left
    rw [if_pos hc]
  · right
    rw [if_neg hc]
    cases hf : (slotNumbers p).find? (fun k => SlotIsEmpty (p.slots k)) with
    | none => right; exact ⟨rfl, rfl⟩
    | some k => left; exact ⟨k, rfl, rfl⟩

/-- The compaction loop touches only slot offsets and record bytes. -/
theorem compactLoop_header (fuel : Nat) :
    ∀ (p : HeapPage) (d dp b : Int) (r : RecordID) (q : HeapPage),
      compactLoop fuel p d dp b r = some q →
      q.numOfSlots = p.numOfSlots ∧ q.pid = p.pid ∧ q.freePtr = p.freePtr ∧
      q.freeSpace = p.freeSpace ∧ q.nextPage = p.nextPage ∧ q.prevPage = p.prevPage ∧
      ∀ k, (q.slots k).length = (p.slots k).length := by
  induction fuel with
  | zero => intro p d dp b r q h; simp [compactLoop] at h
  | succ n ih =>
    intro p d dp b r q h
    rw [compactLoop] at h
    dsimp only at h
    split at h
    · cases h
      exact ⟨rfl, rfl, rfl, rfl, rfl, rfl, fun _ => rfl⟩
    · obtain ⟨h1, h2, h3, h4, h5, h6, h7⟩ := ih _ _ _ _ _ _ h
      refine ⟨h1, h2, h3, h4, h5, h6, fun k => ?_⟩
      rw [h7 k]
      simp only [setSlot]
      split
      · next hk => rw [hk]
      · rfl

/-- `DeleteRecord` fails exactly on an invalid record identifier, before the loop. -/
theorem deleteRecord_invalid (P : Params) (fuel : Nat) (p : HeapPage) (rid : RecordID)
    (h : ¬ ValidRid p rid) : DeleteRecord P fuel p rid = some ⟨Status.FAIL, p⟩ := by
  unfold DeleteRecord
  by_cases h1 : rid.pageNo ≠ p.pid ∨ rid.slotNo > p.numOfSlots ∨ rid.slotNo < 1
  · rw [if_pos h1]
  · rw [if_neg h1]
    have h2 : SlotIsEmpty (p.slots rid.slotNo) = true := by
      by_contra hne
      apply h
      simp only [ne_eq, gt_iff_lt, not_or, not_not, not_lt] at h1
      exact ⟨h1.1, h1.2.2, h1.2.1, by simpa using hne⟩
    rw [if_pos h2]

/-- On a valid record identifier `DeleteRecord` runs the loop and then finishes. -/
theorem deleteRecord_valid (P : Params) (fuel : Nat) (p : HeapPage) (rid : RecordID)
    (h : ValidRid p rid) :
    DeleteRecord P fuel p rid =
      (compactLoop fuel p rid.slotNo (p.slots rid.slotNo).offset 0 rid).map (fun q =>
        ⟨Status.OK,
          { q with
            freePtr := q.freePtr - (q.slots rid.slotNo).length
            freeSpace := (if rid.slotNo = q.numOfSlots
              then q.freeSpace + (q.slots rid.slotNo).length + P.sizeofSlot
              else q.freeSpace + (q.slots rid.slotNo).length)
            numOfSlots := (if rid.slotNo = q.numOfSlots then q.numOfSlots - 1
              else q.numOfSlots)
            slots := setSlot q.slots rid.slotNo (SetSlotEmpty (q.slots rid.slotNo)) }⟩) := by
  obtain ⟨h1, h2, h3, h4⟩ := h
  unfold DeleteRecord
  rw [if_neg (by omega), h4]
  simp only [Bool.false_eq_true, if_false]
  cases compactLoop fuel p rid.slotNo (p.slots rid.slotNo).offset 0 rid with
  | none => rfl
  | some q =>
    simp only [Option.map_some']
    by_cases hq : rid.slotNo = q.numOfSlots
    · simp only [hq, if_true]
    · simp only [hq, if_false]

/-! ## C4: space conservation -/

/-- C4 (space conservation): in every state reached from `Init` by `InsertRecord` and
`DeleteRecord` calls, successful or not, `freeSpace = HEAPPAGE_DATA_SIZE - freePtr -
numOfSlots * sizeof(Slot)`. -/
theorem space_conservation (P : Params) (minLen : Int) (p : HeapPage)
    (h : Reachable P minLen p) :
    p.freeSpace = (P.HEAPPAGE_DATA_SIZE : Int) - p.freePtr - p.numOfSlots * P.sizeofSlot := by
  induction h with
  | init p0 pageNo => simp [Init]
  | insert p recPtr length rid _ _ _ ih =>
    rcases insertRecord_cases P p recPtr length rid with h | ⟨k, _, h⟩ | ⟨_, h⟩
    · rw [h]
      exact ih
    · rw [h]
      dsimp only
      linarith
    · rw [h]
      dsimp only
      linarith
  | delete p fuel rid res _ hd ih =>
    by_cases hv : ValidRid p rid
    · rw [deleteRecord_valid P fuel p rid hv] at hd
      cases hq : compactLoop fuel p rid.slotNo (p.slots rid.slotNo).offset 0 rid with
      | none => rw [hq] at hd; cases hd
      | some q =>
        rw [hq] at hd
        obtain ⟨h1, _, h3, h4, _, _, _⟩ := compactLoop_header _ _ _ _ _ _ _ hq
        simp only [Option.map_some', Option.some.injEq] at hd
        subst hd
        dsimp only
        rw [h1, h3, h4]
        split <;> linarith
    · rw [deleteRecord_invalid P fuel p rid hv] at hd
      cases hd
      exact ih

/-- C4 witness: the page after `Init(7)` and one insertion of a 3 byte record. -/
theorem space_conservation_witness :
    (InsertRecord sampleParams page0 sampleRec 3 ⟨0, 0⟩).page.freeSpace =
      (sampleParams.HEAPPAGE_DATA_SIZE : Int) -
        (InsertRecord sampleParams page0 sampleRec 3 ⟨0, 0⟩).page.freePtr -
        (InsertRecord sampleParams page0 sampleRec 3 ⟨0, 0⟩).page.numOfSlots *
          sampleParams.sizeofSlot :=
  space_conservation sampleParams 0 _
    (Reachable.insert _ sampleRec 3 ⟨0, 0⟩ (Reachable.init rawPage 7) (by decide) (by decide))

/-! ## C8: atomic failure -/

/-- C8 (atomic failure): from any page state and for any arguments, an `InsertRecord`
that returns `DONE`, and a `DeleteRecord`, `GetRecord`, `ReturnRecord` or `NextRecord`
that returns `FAIL`, hands back the page it was given (and leaves its out-parameters
as they were). -/
theorem atomic_failure (P : Params) (p : HeapPage) :
    (∀ recPtr length rid, (InsertRecord P p recPtr length rid).status = Status.DONE →
      InsertRecord P p recPtr length rid = ⟨Status.DONE, p, rid⟩) ∧
    (∀ fuel rid res, DeleteRecord P fuel p rid = some res → res.status = Status.FAIL →
      res = ⟨Status.FAIL, p⟩) ∧
    (∀ rid recPtr len, (GetRecord p rid recPtr len).status = Status.FAIL →
      GetRecord p rid recPtr len = ⟨Status.FAIL, p, recPtr, len⟩) ∧
    (∀ rid recPtr len, (ReturnRecord p rid recPtr len).status = Status.FAIL →
      ReturnRecord p rid recPtr len = ⟨Status.FAIL, p, recPtr, len⟩) ∧
    (∀ curRid nextRid, (NextRecord p curRid nextRid).status = Status.FAIL →
      NextRecord p curRid nextRid = ⟨Status.FAIL, p, nextRid⟩) := by
  refine ⟨?_, ?_, ?_, ?_, ?_⟩
  · intro recPtr length rid hs
    rcases insertRecord_cases P p recPtr length rid with h | ⟨k, _, h⟩ | ⟨_, h⟩
    · exact h
    · rw [h] at hs; cases hs
    · rw [h] at hs; cases hs
  · intro fuel rid res hd hs
    by_cases hv : ValidRid p rid
    · rw [deleteRecord_valid P fuel p rid hv] at hd
      cases hq : compactLoop fuel p rid.slotNo (p.slots rid.slotNo).offset 0 rid with
      | none => rw [hq] at hd; cases hd
      | some q =>
        rw [hq] at hd
        simp only [Option.map_some', Option.some.injEq] at hd
        subst hd
        cases hs
    · rw [deleteRecord_invalid P fuel p rid hv] at hd
      cases hd
      rfl
  · intro rid recPtr len hs
    unfold GetRecord at hs ⊢
    dsimp only at hs ⊢
    split
    · rfl
    · next h1 =>
      rw [if_neg h1] at hs
      split
      · rfl
      · next h2 => rw [if_neg h2] at hs; cases hs
  · intro rid recPtr len hs
    unfold ReturnRecord at hs ⊢
    dsimp only at hs ⊢
    split
    · rfl
    · next h1 =>
      rw [if_neg h1] at hs
      split
      · rfl
      · next h2 => rw [if_neg h2] at hs; cases hs
  · intro curRid nextRid hs
    unfold NextRecord at hs ⊢
    dsimp only at hs ⊢
    split
    · rfl
    · next h1 =>
      rw [if_neg h1] at hs
      split
      · rfl
      · next h2 =>
        rw [if_neg h2] at hs
        split at hs <;> cases hs

/-- C8 witness: on the freshly initialised page a 200 byte record does not fit, and
slot 1 does not exist; both calls hand the page back. -/
theorem atomic_failure_witness :
    InsertRecord sampleParams page0 sampleRec 200 ⟨0, 0⟩ = ⟨Status.DONE, page0, ⟨0, 0⟩⟩ ∧
    GetRecord page0 ⟨7, 1⟩ sampleBuf 10 = ⟨Status.FAIL, page0, sampleBuf, 10⟩ :=
  ⟨(atomic_failure sampleParams page0).1 sampleRec 200 ⟨0, 0⟩ (by decide),
   (atomic_failure sampleParams page0).2.2.1 ⟨7, 1⟩ sampleBuf 10 (by decide)⟩

/-! ## C9 and C10: record identifier validation and the `GetRecord` contract -/

/-- A record identifier is valid exactly when none of the four rejection conditions
of the source holds. -/
theorem not_validRid_iff (p : HeapPage) (rid : RecordID) :
    ¬ ValidRid p rid ↔
      (rid.pageNo ≠ p.pid ∨ rid.slotNo < 1 ∨ rid.slotNo > p.numOfSlots ∨
        SlotIsEmpty (p.slots rid.slotNo) = true) := by
  unfold ValidRid
  constructor
  · intro h
    by_contra hc
    simp only [ne_eq, gt_iff_lt, not_or, not_not, not_lt, Bool.not_eq_true] at hc
    exact h ⟨hc.1, hc.2.1, hc.2.2.1, hc.2.2.2⟩
  · rintro (h | h | h | h) ⟨h1, h2, h3, h4⟩
    · exact h h1
    · omega
    · omega
    · rw [h4] at h; cases h

/-- `ReturnRecord` on a valid record identifier. -/
theorem returnRecord_valid (p : HeapPage) (rid : RecordID) (recPtr len : Int)
    (h : ValidRid p rid) :
    ReturnRecord p rid recPtr len =
      ⟨Status.OK, p, (p.slots rid.slotNo).offset, (p.slots rid.slotNo).length⟩ := by
  obtain ⟨h1, h2, h3, h4⟩ := h
  unfold ReturnRecord
  rw [if_neg (by omega)]
  simp [h4]

/-- `ReturnRecord` on an invalid record identifier. -/
theorem returnRecord_invalid (p : HeapPage) (rid : RecordID) (recPtr len : Int)
    (h : ¬ ValidRid p rid) :
    ReturnRecord p rid recPtr len = ⟨Status.FAIL, p, recPtr, len⟩ := by
  unfold ReturnRecord
  by_cases h1 : rid.pageNo ≠ p.pid ∨ rid.slotNo > p.numOfSlots ∨ rid.slotNo < 1
  · rw [if_pos h1]
  · rw [if_neg h1]
    have h2 : SlotIsEmpty (p.slots rid.slotNo) = true := by
      by_contra hne
      apply h
      simp only [ne_eq, gt_iff_lt, not_or, not_not, not_lt] at h1
      exact ⟨h1.1, h1.2.2, h1.2.1, by simpa using hne⟩
    simp [h2]

/-- `NextRecord` on an invalid record identifier. -/
theorem nextRecord_invalid (p : HeapPage) (curRid nextRid : RecordID)
    (h : ¬ ValidRid p curRid) :
    NextRecord p curRid nextRid = ⟨Status.FAIL, p, nextRid⟩ := by
  unfold NextRecord
  by_cases h1 : curRid.pageNo ≠ p.pid ∨ curRid.slotNo > p.numOfSlots ∨ curRid.slotNo < 1
  · rw [if_pos h1]
  · rw [if_neg h1]
    have h2 : SlotIsEmpty (p.slots curRid.slotNo) = true := by
      by_contra hne
      apply h
      simp only [ne_eq, gt_iff_lt, not_or, not_not, not_lt] at h1
      exact ⟨h1.1, h1.2.2, h1.2.1, by simpa using hne⟩
    simp [h2]

/-- `NextRecord` on a valid record identifier looks up the offset just past the
current record. -/
theorem nextRecord_valid (p : HeapPage) (curRid nextRid : RecordID)
    (h : ValidRid p curRid) :
    NextRecord p curRid nextRid =
      match (slotNumbers p).find? (fun k => !SlotIsEmpty (p.slots k) &&
          decide ((p.slots k).offset =
            (p.slots curRid.slotNo).offset + (p.slots curRid.slotNo).length)) with
      | some k => ⟨Status.OK, p, ⟨p.pid, k⟩⟩
      | none => ⟨Status.DONE, p, nextRid⟩ := by
  obtain ⟨h1, h2, h3, h4⟩ := h
  unfold NextRecord
  rw [if_neg (by omega)]
  simp [h4]

/-- `GetRecord` on an invalid record identifier. -/
theorem getRecord_invalid (p : HeapPage) (rid : RecordID) (recPtr : Int → Byte) (len : Int)
    (h : ¬ ValidRid p rid) :
    GetRecord p rid recPtr len = ⟨Status.FAIL, p, recPtr, len⟩ := by
  unfold GetRecord
  by_cases h1 : rid.pageNo ≠ p.pid ∨ rid.slotNo > p.numOfSlots ∨ rid.slotNo < 1
  · rw [if_pos h1]
  · rw [if_neg h1]
    have h2 : SlotIsEmpty (p.slots rid.slotNo) = true := by
      by_contra hne
      apply h
      simp only [ne_eq, gt_iff_lt, not_or, not_not, not_lt] at h1
      exact ⟨h1.1, h1.2.2, h1.2.1, by simpa using hne⟩
    simp [h2]

/-- `GetRecord` on a valid record identifier: the capacity test decides. -/
theorem getRecord_valid (p : HeapPage) (rid : RecordID) (recPtr : Int → Byte) (len : Int)
    (h : ValidRid p rid) :
    GetRecord p rid recPtr len =
      if len < (p.slots rid.slotNo).length then ⟨Status.FAIL, p, recPtr, len⟩
      else ⟨Status.OK, p,
        memcpy recPtr 0 p.data (p.slots rid.slotNo).offset (p.slots rid.slotNo).length,
        (p.slots rid.slotNo).length⟩ := by
  obtain ⟨h1, h2, h3, h4⟩ := h
  unfold GetRecord
  rw [if_neg (by omega)]
  simp [h4]

/-- C9 (invalid identifier is rejected, and only it): on any page state, each of
`DeleteRecord(rid)`, `ReturnRecord(rid)` and `NextRecord(rid)` returns `FAIL` if and
only if `rid.pageNo` differs from `pid`, or `rid.slotNo < 1`, or
`rid.slotNo > numOfSlots`, or the addressed slot is unoccupied. -/
theorem fail_iff_invalid_rid (P : Params) (p : HeapPage) (rid : RecordID) :
    (∀ fuel, (∃ res, DeleteRecord P fuel p rid = some res ∧ res.status = Status.FAIL) ↔
      (rid.pageNo ≠ p.pid ∨ rid.slotNo < 1 ∨ rid.slotNo > p.numOfSlots ∨
        SlotIsEmpty (p.slots rid.slotNo) = true)) ∧
    (∀ recPtr len, (ReturnRecord p rid recPtr len).status = Status.FAIL ↔
      (rid.pageNo ≠ p.pid ∨ rid.slotNo < 1 ∨ rid.slotNo > p.numOfSlots ∨
        SlotIsEmpty (p.slots rid.slotNo) = true)) ∧
    (∀ nextRid, (NextRecord p rid nextRid).status = Status.FAIL ↔
      (rid.pageNo ≠ p.pid ∨ rid.slotNo < 1 ∨ rid.slotNo > p.numOfSlots ∨
        SlotIsEmpty (p.slots rid.slotNo) = true)) := by
  rw [← not_validRid_iff]
  refine ⟨fun fuel => ?_, fun recPtr len => ?_, fun nextRid => ?_⟩
  · by_cases hv : ValidRid p rid
    · rw [deleteRecord_valid P fuel p rid hv]
      constructor
      · rintro ⟨res, hres, hs⟩
        cases hq : compactLoop fuel p rid.slotNo (p.slots rid.slotNo).offset 0 rid with
        | none => rw [hq] at hres; cases hres
        | some q =>
          rw [hq] at hres
          simp only [Option.map_some', Option.some.injEq] at hres
          subst hres
          cases hs
      · intro h
        exact absurd hv h
    · rw [deleteRecord_invalid P fuel p rid hv]
      exact ⟨fun _ => hv, fun _ => ⟨_, rfl, rfl⟩⟩
  · by_cases hv : ValidRid p rid
    · rw [returnRecord_valid p rid recPtr len hv]
      exact ⟨fun h => (by cases h), fun h => absurd hv h⟩
    · rw [returnRecord_invalid p rid recPtr len hv]
      exact ⟨fun _ => hv, fun _ => rfl⟩
  · by_cases hv : ValidRid p rid
    · rw [nextRecord_valid p rid nextRid hv]
      constructor
      · intro h
        split at h <;> cases h
      · intro h
        exact absurd hv h
    · rw [nextRecord_invalid p rid nextRid hv]
      exact ⟨fun _ => hv, fun _ => rfl⟩

/-- C9 witness: on the freshly initialised page slot 1 is beyond `numOfSlots`, and
`ReturnRecord` fails on it. -/
theorem fail_iff_invalid_rid_witness :
    (ReturnRecord page0 ⟨7, 1⟩ 0 0).status = Status.FAIL :=
  ((fail_iff_invalid_rid sampleParams page0 ⟨7, 1⟩).2.1 0 0).2 (by decide)

/-- C10 (`GetRecord` buffer contract): on any page state, for a valid record
identifier `GetRecord` with capacity `len` returns `FAIL` when `len` is smaller than
the stored length, and otherwise returns `OK`, sets `len` to the stored length and
writes the record's bytes, and nothing else, to the caller's buffer; for an invalid
record identifier it returns `FAIL` whatever `len` is.  The page is never changed. -/
theorem getRecord_contract (p : HeapPage) (rid : RecordID) (recPtr : Int → Byte)
    (len : Int) :
    (ValidRid p rid → len < (p.slots rid.slotNo).length →
      GetRecord p rid recPtr len = ⟨Status.FAIL, p, recPtr, len⟩) ∧
    (ValidRid p rid → (p.slots rid.slotNo).length ≤ len →
      (GetRecord p rid recPtr len).status = Status.OK ∧
      (GetRecord p rid recPtr len).page = p ∧
      (GetRecord p rid recPtr len).len = (p.slots rid.slotNo).length ∧
      (∀ i, 0 ≤ i → i < (p.slots rid.slotNo).length →
        (GetRecord p rid recPtr len).recPtr i = p.data ((p.slots rid.slotNo).offset + i)) ∧
      (∀ i, ¬ (0 ≤ i ∧ i < (p.slots rid.slotNo).length) →
        (GetRecord p rid recPtr len).recPtr i = recPtr i)) ∧
    (¬ ValidRid p rid → GetRecord p rid recPtr len = ⟨Status.FAIL, p, recPtr, len⟩) := by
  refine ⟨fun hv hlt => ?_, fun hv hle => ?_, fun hv => getRecord_invalid p rid recPtr len hv⟩
  · rw [getRecord_valid p rid recPtr len hv, if_pos hlt]
  · rw [getRecord_valid p rid recPtr len hv, if_neg (by omega)]
    refine ⟨rfl, rfl, rfl, fun i h0 h1 => ?_, fun i hi => ?_⟩
    · simp only [memcpy]
      rw [if_pos (by omega)]
      congr 1
      omega
    · simp only [memcpy]
      rw [if_neg (by omega)]

/-- C10 witness: on the page holding the 3 byte record `0, 1, 2` in slot 1, a
capacity of 2 is refused and a capacity of 5 is accepted. -/
theorem getRecord_contract_witness :
    (GetRecord (InsertRecord sampleParams page0 sampleRec 3 ⟨0, 0⟩).page ⟨7, 1⟩
      sampleBuf 2) =
      ⟨Status.FAIL, (InsertRecord sampleParams page0 sampleRec 3 ⟨0, 0⟩).page, sampleBuf, 2⟩ ∧
    (GetRecord (InsertRecord sampleParams page0 sampleRec 3 ⟨0, 0⟩).page ⟨7, 1⟩
      sampleBuf 5).status = Status.OK :=
  ⟨(getRecord_contract _ ⟨7, 1⟩ sampleBuf 2).1 (by decide) (by decide),
   ((getRecord_contract _ ⟨7, 1⟩ sampleBuf 5).2.1 (by decide) (by decide)).1⟩


/-! ## C1: round trip -/

/-- One insertion on a page without unoccupied slots keeps every stored record
readable and, when it succeeds, stores the new one. -/
theorem insertRecord_stored (P : Params) (p : HeapPage) (c : InsertCall)
    (hp : AllOccupied p) (hlen : 0 ≤ c.length) :
    AllOccupied (InsertRecord P p c.recPtr c.length c.rid).page ∧
    (∀ e, Stored p e → Stored (InsertRecord P p c.recPtr c.length c.rid).page e) ∧
    ((InsertRecord P p c.recPtr c.length c.rid).status = Status.OK →
      Stored (InsertRecord P p c.recPtr c.length c.rid).page
        ⟨(InsertRecord P p c.recPtr c.length c.rid).rid, c.recPtr, c.length⟩) := by
  obtain ⟨hn, hocc⟩ := hp
  rcases insertRecord_cases P p c.recPtr c.length c.rid with h | ⟨k, hk, _⟩ | ⟨_, h⟩
  · rw [h]
    exact ⟨⟨hn, hocc⟩, fun e he => he, fun hs => by cases hs⟩
  · exfalso
    have hmem := List.mem_of_find?_eq_some hk
    have hemp := List.find?_some hk
    rw [mem_slotNumbers] at hmem
    rw [hocc k hmem.1 hmem.2] at hemp
    cases hemp
  · rw [h]
    refine ⟨⟨?_, ?_⟩, ?_, ?_⟩
    · dsimp only
      omega
    · intro k h1 h2
      dsimp only at h2 ⊢
      simp only [setSlot]
      split
      · rw [slotIsEmpty_false_iff]
        dsimp only
        omega
      · next hne => exact hocc k h1 (by omega)
    · rintro e ⟨e1, e2, e3, e4, e5, e6, e7⟩
      have hne : e.rid.slotNo ≠ p.numOfSlots + 1 := by omega
      refine ⟨e1, e2, ?_, ?_, e5, ?_, ?_⟩
      · dsimp only
        omega
      · dsimp only
        simp only [setSlot, if_neg hne]
        exact e4
      · dsimp only
        simp only [setSlot, if_neg hne]
        omega
      · intro i h0 h1
        dsimp only
        simp only [setSlot, if_neg hne, memcpy]
        rw [if_neg (by omega)]
        exact e7 i h0 h1
    · intro _
      refine ⟨rfl, ?_, ?_, ?_, hlen, ?_, ?_⟩
      · dsimp only
        omega
      · dsimp only
        omega
      · dsimp only
        simp [setSlot]
      · dsimp only
        simp [setSlot]
      · intro i h0 h1
        dsimp only at h1 ⊢
        simp only [setSlot, if_true, memcpy]
        rw [if_pos (by omega)]
        congr 1
        omega

/-- A run of insertions keeps every stored record readable and stores each record it
hands out an identifier for. -/
theorem insertAll_stored (P : Params) (cs : List InsertCall) :
    ∀ p : HeapPage, AllOccupied p → (∀ c ∈ cs, 0 ≤ c.length) →
      (∀ e, Stored p e → Stored (insertAll P p cs).1 e) ∧
      (∀ e ∈ (insertAll P p cs).2, Stored (insertAll P p cs).1 e) := by
  induction cs with
  | nil =>
    intro p _ _
    exact ⟨fun e he => he, fun e he => by simp [insertAll] at he⟩
  | cons c cs ih =>
    intro p hp hlen
    obtain ⟨h1, h2, h3⟩ := insertRecord_stored P p c hp (hlen c (List.mem_cons_self _ _))
    obtain ⟨i1, i2⟩ := ih _ h1 (fun c' hc' => hlen c' (List.mem_cons_of_mem _ hc'))
    simp only [insertAll]
    refine ⟨fun e he => i1 e (h2 e he), fun e he => ?_⟩
    split at he
    · next hs =>
      rcases List.mem_cons.mp he with rfl | he'
      · exact i1 _ (h3 hs)
      · exact i2 e he'
    · exact i2 e he

/-- A stored record is returned by `GetRecord` whenever the buffer is large enough. -/
theorem getRecord_of_stored (p : HeapPage) (e : Inserted) (he : Stored p e)
    (buf : Int → Byte) (cap : Int) (hcap : e.length ≤ cap) :
    (GetRecord p e.rid buf cap).status = Status.OK ∧
    (GetRecord p e.rid buf cap).len = e.length ∧
    ∀ i, 0 ≤ i → i < e.length → (GetRecord p e.rid buf cap).recPtr i = e.recPtr i := by
  obtain ⟨e1, e2, e3, e4, e5, e6, e7⟩ := he
  have hv : ValidRid p e.rid := by
    refine ⟨e1, e2, e3, ?_⟩
    rw [slotIsEmpty_false_iff]
    omega
  rw [getRecord_valid p e.rid buf cap hv, if_neg (by omega)]
  refine ⟨rfl, e4, fun i h0 h1 => ?_⟩
  simp only [memcpy]
  rw [if_pos (by omega)]
  rw [← e7 i h0 h1]
  congr 1
  omega

/-- C1 (round trip): run any sequence of `InsertRecord` calls (records of length
`0 ≤ length`) on a page freshly reset by `Init`.  Afterwards, for every record
identifier handed out by a call that returned `OK`, `GetRecord` with a buffer at
least as long as the record returns `OK`, sets `len` to the inserted length and
copies out exactly the inserted bytes.  (The sequence is arbitrary, so this holds
after each call of a longer sequence.) -/
theorem insert_get_roundtrip (P : Params) (p0 : HeapPage) (pageNo : Int)
    (calls : List InsertCall) (hlen : ∀ c ∈ calls, 0 ≤ c.length)
    (e : Inserted) (he : e ∈ (insertAll P (Init P p0 pageNo) calls).2)
    (buf : Int → Byte) (cap : Int) (hcap : e.length ≤ cap) :
    (GetRecord (insertAll P (Init P p0 pageNo) calls).1 e.rid buf cap).status = Status.OK ∧
    (GetRecord (insertAll P (Init P p0 pageNo) calls).1 e.rid buf cap).len = e.length ∧
    ∀ i, 0 ≤ i → i < e.length →
      (GetRecord (insertAll P (Init P p0 pageNo) calls).1 e.rid buf cap).recPtr i =
        e.recPtr i := by
  have hinit : AllOccupied (Init P p0 pageNo) := by
    refine ⟨by simp [Init], fun k h1 h2 => ?_⟩
    simp only [Init] at h2
    omega
  exact getRecord_of_stored _ e ((insertAll_stored P calls _ hinit hlen).2 e he) buf cap hcap

/-- C1 witness: three insertions on the page after `Init(7)`; the first record is read
back from slot 1. -/
theorem insert_get_roundtrip_witness :
    (GetRecord (insertAll sampleParams page0 sampleCalls).1 ⟨7, 1⟩ sampleBuf 5).status =
      Status.OK ∧
    (GetRecord (insertAll sampleParams page0 sampleCalls).1 ⟨7, 1⟩ sampleBuf 5).len = 3 ∧
    ∀ i, 0 ≤ i → i < 3 →
      (GetRecord (insertAll sampleParams page0 sampleCalls).1 ⟨7, 1⟩ sampleBuf 5).recPtr i =
        sampleRec i :=
  insert_get_roundtrip sampleParams rawPage 7 sampleCalls
    (by
      intro c hc
      simp only [sampleCalls, List.mem_cons, List.mem_singleton, List.not_mem_nil,
        or_false] at hc
      rcases hc with rfl | rfl | rfl <;> decide)
    ⟨⟨7, 1⟩, sampleRec, 3⟩ (List.mem_cons_self _ _) sampleBuf 5 (by decide)


/-! ## Tiling of the data region -/

theorem tiles_congr (slots slots' : Int → Slot) (l : List Int) :
    ∀ s e, (∀ k ∈ l, slots' k = slots k) → Tiles slots l s e → Tiles slots' l s e := by
  induction l with
  | nil => intro s e _ h; exact h
  | cons k ks ih =>
    intro s e hk h
    obtain ⟨h1, h2⟩ := h
    have hk' := hk k (List.mem_cons_self _ _)
    refine ⟨by rw [hk']; exact h1, ?_⟩
    rw [hk']
    exact ih _ _ (fun j hj => hk j (List.mem_cons_of_mem _ hj)) h2

theorem tiles_append (slots : Int → Slot) (l1 l2 : List Int) :
    ∀ s e, Tiles slots (l1 ++ l2) s e ↔ ∃ m, Tiles slots l1 s m ∧ Tiles slots l2 m e := by
  induction l1 with
  | nil =>
    intro s e
    simp only [List.nil_append, Tiles]
    exact ⟨fun h => ⟨s, rfl, h⟩, fun ⟨m, hm, h⟩ => hm ▸ h⟩
  | cons k ks ih =>
    intro s e
    simp only [List.cons_append, Tiles]
    constructor
    · rintro ⟨h1, h2⟩
      obtain ⟨m, hm1, hm2⟩ := (ih _ _).mp h2
      exact ⟨m, ⟨h1, hm1⟩, hm2⟩
    · rintro ⟨m, ⟨h1, hm1⟩, hm2⟩
      exact ⟨h1, (ih _ _).mpr ⟨m, hm1, hm2⟩⟩

theorem tiles_bounds (slots : Int → Slot) (l : List Int) :
    ∀ s e, (∀ k ∈ l, 0 ≤ (slots k).length) → Tiles slots l s e →
      s ≤ e ∧ ∀ k ∈ l, s ≤ (slots k).offset ∧ (slots k).offset + (slots k).length ≤ e := by
  induction l with
  | nil =>
    intro s e _ h
    simp only [Tiles] at h
    exact ⟨by omega, fun k hk => by cases hk⟩
  | cons k ks ih =>
    intro s e hlen h
    obtain ⟨h1, h2⟩ := h
    have hk := hlen k (List.mem_cons_self _ _)
    obtain ⟨i1, i2⟩ := ih _ _ (fun j hj => hlen j (List.mem_cons_of_mem _ hj)) h2
    refine ⟨by omega, fun j hj => ?_⟩
    rcases List.mem_cons.mp hj with rfl | hj'
    · omega
    · have := i2 j hj'
      omega

theorem tiles_shift (slots slots' : Int → Slot) (L : Int) (l : List Int) :
    ∀ s e, (∀ k ∈ l, slots' k = ⟨(slots k).offset - L, (slots k).length⟩) →
      Tiles slots l s e → Tiles slots' l (s - L) (e - L) := by
  induction l with
  | nil =>
    intro s e _ h
    simp only [Tiles] at h ⊢
    omega
  | cons k ks ih =>
    intro s e hk h
    obtain ⟨h1, h2⟩ := h
    have hk' := hk k (List.mem_cons_self _ _)
    refine ⟨by rw [hk']; dsimp only; omega, ?_⟩
    have := ih _ _ (fun j hj => hk j (List.mem_cons_of_mem _ hj)) h2
    rw [hk']
    dsimp only
    have e1 : s - L + (slots k).length = s + (slots k).length - L := by omega
    rw [e1]
    exact this

/-- Two different slots of a tiling with positive lengths have disjoint byte ranges. -/
theorem tiles_disjoint (slots : Int → Slot) (l : List Int) :
    ∀ s e, l.Nodup → (∀ k ∈ l, 0 ≤ (slots k).length) → Tiles slots l s e →
      ∀ i ∈ l, ∀ j ∈ l, i ≠ j →
        (slots i).offset + (slots i).length ≤ (slots j).offset ∨
        (slots j).offset + (slots j).length ≤ (slots i).offset := by
  induction l with
  | nil => intro s e _ _ _ i hi; cases hi
  | cons k ks ih =>
    intro s e hnd hlen h i hi j hj hij
    obtain ⟨h1, h2⟩ := h
    have hks : ∀ x ∈ ks, 0 ≤ (slots x).length := fun x hx => hlen x (List.mem_cons_of_mem _ hx)
    obtain ⟨_, b2⟩ := tiles_bounds slots ks _ _ hks h2
    rcases List.mem_cons.mp hi with rfl | hi'
    · rcases List.mem_cons.mp hj with rfl | hj'
      · exact absurd rfl hij
      · left
        have := b2 j hj'
        omega
    · rcases List.mem_cons.mp hj with rfl | hj'
      · right
        have := b2 i hi'
        omega
      · exact ih _ _ (List.nodup_cons.mp hnd).2 hks h2 i hi' j hj' hij

/-- Every byte of a tiled range lies in the range of one of the slots, and conversely. -/
theorem tiles_cover (slots : Int → Slot) (l : List Int) :
    ∀ s e, (∀ k ∈ l, 0 ≤ (slots k).length) → Tiles slots l s e →
      ∀ x, (s ≤ x ∧ x < e) ↔
        ∃ k ∈ l, (slots k).offset ≤ x ∧ x < (slots k).offset + (slots k).length := by
  induction l with
  | nil =>
    intro s e _ h x
    simp only [Tiles] at h
    constructor
    · intro hx; omega
    · rintro ⟨k, hk, _⟩; cases hk
  | cons k ks ih =>
    intro s e hlen h x
    obtain ⟨h1, h2⟩ := h
    have hks : ∀ y ∈ ks, 0 ≤ (slots y).length := fun y hy => hlen y (List.mem_cons_of_mem _ hy)
    have hk := hlen k (List.mem_cons_self _ _)
    obtain ⟨b1, _⟩ := tiles_bounds slots ks _ _ hks h2
    have := ih _ _ hks h2 x
    constructor
    · intro hx
      by_cases hc : x < s + (slots k).length
      · exact ⟨k, List.mem_cons_self _ _, by omega, by omega⟩
      · obtain ⟨j, hj, hj2⟩ := this.mp ⟨by omega, hx.2⟩
        exact ⟨j, List.mem_cons_of_mem _ hj, hj2⟩
    · rintro ⟨j, hj, hj1, hj2⟩
      rcases List.mem_cons.mp hj with rfl | hj'
      · omega
      · have := this.mpr ⟨j, hj', hj1, hj2⟩
        omega

/-! ## Lookup by offset -/

theorem find?_unique {α : Type} (f : α → Bool) (l : List α) (m : α)
    (hm : m ∈ l) (hf : f m = true) (hu : ∀ x ∈ l, f x = true → x = m) :
    l.find? f = some m := by
  induction l with
  | nil => cases hm
  | cons a as ih =>
    rw [List.find?_cons]
    cases hfa : f a with
    | true =>
      have := hu a (List.mem_cons_self _ _) hfa
      simp [this]
    | false =>
      dsimp only
      rcases List.mem_cons.mp hm with rfl | hm'
      · rw [hf] at hfa; cases hfa
      · exact ih hm' (fun x hx => hu x (List.mem_cons_of_mem _ hx))

/-- `RecordWithOffset` returns `DONE` when no occupied slot has the offset. -/
theorem recordWithOffset_none (p : HeapPage) (off : Int) (r : RecordID)
    (h : ∀ k ∈ slotNumbers p, SlotIsEmpty (p.slots k) = false → (p.slots k).offset ≠ off) :
    RecordWithOffset p off r = (Status.DONE, r) := by
  unfold RecordWithOffset
  have : (slotNumbers p).find?
      (fun k => !SlotIsEmpty (p.slots k) && decide ((p.slots k).offset = off)) = none := by
    rw [List.find?_eq_none]
    intro k hk
    simp only [Bool.and_eq_true, Bool.not_eq_true', decide_eq_true_eq, not_and]
    exact h k hk
  rw [this]

/-- `RecordWithOffset` finds the one occupied slot that has the offset. -/
theorem recordWithOffset_some (p : HeapPage) (off : Int) (r : RecordID) (m : Int)
    (hm : m ∈ slotNumbers p) (hocc : SlotIsEmpty (p.slots m) = false)
    (hoff : (p.slots m).offset = off)
    (hu : ∀ k ∈ slotNumbers p, SlotIsEmpty (p.slots k) = false →
      (p.slots k).offset = off → k = m) :
    RecordWithOffset p off r = (Status.OK, ⟨p.pid, m⟩) := by
  unfold RecordWithOffset
  have : (slotNumbers p).find?
      (fun k => !SlotIsEmpty (p.slots k) && decide ((p.slots k).offset = off)) = some m := by
    apply find?_unique _ _ _ hm
    · simp [hocc, hoff]
    · intro k hk hf
      simp only [Bool.and_eq_true, Bool.not_eq_true', decide_eq_true_eq] at hf
      exact hu k hk hf.1 hf.2
  rw [this]


/-! ## The compaction loop -/

/-- Specification of the compaction loop.  `rest` lists the records that still have
to be moved, in the order they lie in the data region starting at the search offset;
every other occupied slot lies below the search offset.  With more fuel than records
to move the loop ends, and whenever it ends it has moved exactly the slots of `rest`
down by `L` bytes, with their bytes. -/
theorem compactLoop_spec (d dp L : Int) (hL : 0 ≤ L) :
    ∀ (rest : List Int) (fuel : Nat) (p : HeapPage) (b : Int) (r : RecordID) (e : Int),
      (p.slots d).offset = dp → (p.slots d).length = L → 0 ≤ b →
      d ∉ rest → rest.Nodup →
      (∀ k ∈ rest, k ∈ slotNumbers p ∧ SlotIsEmpty (p.slots k) = false ∧
        1 ≤ (p.slots k).length) →
      Tiles p.slots rest (dp + L + b) e →
      (∀ k ∈ slotNumbers p, SlotIsEmpty (p.slots k) = false → k ∉ rest →
        (p.slots k).offset < dp + L + b) →
      (rest.length < fuel → ∃ q, compactLoop fuel p d dp b r = some q) ∧
      (∀ q, compactLoop fuel p d dp b r = some q →
        q.numOfSlots = p.numOfSlots ∧ q.pid = p.pid ∧ q.freePtr = p.freePtr ∧
        q.freeSpace = p.freeSpace ∧
        (∀ k, q.slots k =
          if k ∈ rest then ⟨(p.slots k).offset - L, (p.slots k).length⟩ else p.slots k) ∧
        (∀ i, q.data i = if dp + b ≤ i ∧ i < e - L then p.data (i + L) else p.data i)) := by
  intro rest
  induction rest with
  | nil =>
    intro fuel p b r e hdo hdl hb _ _ _ ht hbehind
    simp only [Tiles] at ht
    have hnone : RecordWithOffset p ((p.slots d).offset + (p.slots d).length + b) r =
        (Status.DONE, r) := by
      apply recordWithOffset_none
      intro k hk hocc
      have := hbehind k hk hocc (List.not_mem_nil _)
      omega
    cases fuel with
    | zero =>
      refine ⟨fun h => absurd h (by simp), fun q hq => ?_⟩
      simp [compactLoop] at hq
    | succ f =>
      have hrun : compactLoop (f + 1) p d dp b r = some p := by
        rw [compactLoop]
        dsimp only
        rw [hnone]
        simp
      refine ⟨fun _ => ⟨p, hrun⟩, fun q hq => ?_⟩
      rw [hrun] at hq
      cases hq
      refine ⟨rfl, rfl, rfl, rfl, fun k => by simp, fun i => ?_⟩
      rw [if_neg (by omega)]
  | cons m rest ih =>
    intro fuel p b r e hdo hdl hb hd hnd hmem ht hbehind
    obtain ⟨ht1, ht2⟩ := ht
    obtain ⟨hm1, hm2, hm3⟩ := hmem m (List.mem_cons_self _ _)
    have hmrest : m ∉ rest := (List.nodup_cons.mp hnd).1
    have hdm : d ≠ m := fun h => hd (h ▸ List.mem_cons_self _ _)
    have hrestlen : ∀ k ∈ rest, 0 ≤ (p.slots k).length := fun k hk => by
      have := (hmem k (List.mem_cons_of_mem _ hk)).2.2
      omega
    have hsome : RecordWithOffset p ((p.slots d).offset + (p.slots d).length + b) r =
        (Status.OK, ⟨p.pid, m⟩) := by
      apply recordWithOffset_some p _ r m hm1 hm2 (by rw [ht1, hdo, hdl])
      intro k hk hocc hoff
      by_contra hkm
      by_cases hkr : k ∈ rest
      · have := ((tiles_bounds p.slots rest _ _ hrestlen ht2).2 k hkr).1
        omega
      · have := hbehind k hk hocc (by
          intro hc
          rcases List.mem_cons.mp hc with h | h
          · exact hkm h
          · exact hkr h)
        omega
    cases fuel with
    | zero =>
      refine ⟨fun h => absurd h (by simp), fun q hq => ?_⟩
      simp [compactLoop] at hq
    | succ f =>
      have hstep : compactLoop (f + 1) p d dp b r =
          compactLoop f
            { p with
              data := memcpy p.data (dp + b) p.data (p.slots m).offset (p.slots m).length
              slots := setSlot p.slots m
                ⟨(p.slots m).offset - (p.slots d).length, (p.slots m).length⟩ }
            d dp (b + (p.slots m).length) ⟨p.pid, m⟩ := by
        rw [compactLoop]
        dsimp only
        rw [hsome]
        simp
      have hslot : ∀ k, k ≠ m →
          setSlot p.slots m ⟨(p.slots m).offset - (p.slots d).length, (p.slots m).length⟩ k =
            p.slots k := fun k hk => by simp [setSlot, hk]
      have hslotm :
          setSlot p.slots m ⟨(p.slots m).offset - (p.slots d).length, (p.slots m).length⟩ m =
            ⟨(p.slots m).offset - L, (p.slots m).length⟩ := by simp [setSlot, hdl]
      obtain ⟨i1, i2⟩ := ih f
        { p with
          data := memcpy p.data (dp + b) p.data (p.slots m).offset (p.slots m).length
          slots := setSlot p.slots m
            ⟨(p.slots m).offset - (p.slots d).length, (p.slots m).length⟩ }
        (b + (p.slots m).length) ⟨p.pid, m⟩ e
        (by dsimp only; rw [hslot d hdm]; exact hdo)
        (by dsimp only; rw [hslot d hdm]; exact hdl)
        (by omega)
        (fun h => hd (List.mem_cons_of_mem _ h))
        (List.nodup_cons.mp hnd).2
        (by
          intro k hk
          have hkm : k ≠ m := fun h => hmrest (h ▸ hk)
          dsimp only
          rw [hslot k hkm]
          exact hmem k (List.mem_cons_of_mem _ hk))
        (by
          have e1 : dp + L + (b + (p.slots m).length) = dp + L + b + (p.slots m).length := by
            omega
          rw [e1]
          apply tiles_congr p.slots _ rest _ _ _ ht2
          intro k hk
          exact hslot k (fun h => hmrest (h ▸ hk)))
        (by
          intro k hk hocc hkr
          dsimp only at hocc ⊢
          by_cases hkm : k = m
          · subst hkm
            rw [hslotm]
            dsimp only
            omega
          · rw [hslot k hkm] at hocc ⊢
            have := hbehind k hk hocc (by
              intro hc
              rcases List.mem_cons.mp hc with h | h
              · exact hkm h
              · exact hkr h)
            omega)
      rw [hstep]
      refine ⟨fun hlen => i1 (by simpa using hlen), fun q hq => ?_⟩
      obtain ⟨q1, q2, q3, q4, q5, q6⟩ := i2 q hq
      have hebound := (tiles_bounds p.slots rest _ _ hrestlen ht2).1
      refine ⟨q1, q2, q3, q4, fun k => ?_, fun i => ?_⟩
      · rw [q5 k]
        dsimp only
        by_cases hkm : k = m
        · subst hkm
          rw [if_neg hmrest, if_pos (List.mem_cons_self _ _), hslotm]
        · rw [hslot k hkm]
          by_cases hkr : k ∈ rest
          · rw [if_pos hkr, if_pos (List.mem_cons_of_mem _ hkr)]
          · rw [if_neg hkr, if_neg (by
              intro hc
              rcases List.mem_cons.mp hc with h | h
              · exact hkm h
              · exact hkr h)]
      · rw [q6 i]
        dsimp only
        simp only [memcpy]
        by_cases c1 : dp + (b + (p.slots m).length) ≤ i ∧ i < e - L
        · rw [if_pos c1, if_neg (by omega), if_pos (by omega)]
        · rw [if_neg c1]
          by_cases c2 : dp + b ≤ i ∧ i < dp + b + (p.slots m).length
          · rw [if_pos c2, if_pos (by omega)]
            congr 1
            omega
          · rw [if_neg c2, if_neg (by omega)]


/-! ## Deleting from a page with the layout invariant -/

/-- Effect of `DeleteRecord` on a page with the layout invariant, for a valid record
identifier.  With `pre` the records lying before the deleted one and `post` those
after it: the call returns once the fuel exceeds the number of records after it, and
whenever it returns it returns `OK`, having moved the slots of `post` and their bytes
down by the deleted length and marked the deleted slot unoccupied. -/
theorem deleteRecord_effect (P : Params) (p : HeapPage) (l : List Int) (hl : Layout p l)
    (rid : RecordID) (hv : ValidRid p rid) :
    ∃ pre post, l = pre ++ rid.slotNo :: post ∧
      Tiles p.slots pre 0 (p.slots rid.slotNo).offset ∧
      Tiles p.slots post ((p.slots rid.slotNo).offset + (p.slots rid.slotNo).length)
        p.freePtr ∧
      (∀ fuel, post.length < fuel → ∃ res, DeleteRecord P fuel p rid = some res) ∧
      (∀ fuel res, DeleteRecord P fuel p rid = some res →
        res.status = Status.OK ∧ res.page.pid = p.pid ∧
        res.page.numOfSlots =
          (if rid.slotNo = p.numOfSlots then p.numOfSlots - 1 else p.numOfSlots) ∧
        res.page.freePtr = p.freePtr - (p.slots rid.slotNo).length ∧
        (∀ k, res.page.slots k =
          if k = rid.slotNo then ⟨(p.slots k).offset, -1⟩
          else if k ∈ post then
            ⟨(p.slots k).offset - (p.slots rid.slotNo).length, (p.slots k).length⟩
          else p.slots k) ∧
        (∀ i, res.page.data i =
          if (p.slots rid.slotNo).offset ≤ i ∧
              i < p.freePtr - (p.slots rid.slotNo).length
          then p.data (i + (p.slots rid.slotNo).length) else p.data i)) := by
  obtain ⟨_, hnd, hmem, hlen, htiles⟩ := hl
  have hdl : rid.slotNo ∈ l := (hmem _).mpr ⟨hv.2.1, hv.2.2.1, hv.2.2.2⟩
  obtain ⟨pre, post, rfl⟩ := List.append_of_mem hdl
  have hnd' := List.nodup_middle.mp hnd
  obtain ⟨hdnot, hndpp⟩ := List.nodup_cons.mp hnd'
  have hdpre : rid.slotNo ∉ pre := fun h => hdnot (List.mem_append_left _ h)
  have hdpost : rid.slotNo ∉ post := fun h => hdnot (List.mem_append_right _ h)
  have hdisj := (List.nodup_append.mp hndpp).2.2
  obtain ⟨m, htpre, hm, htpost⟩ := (tiles_append p.slots pre (rid.slotNo :: post) 0 _).mp htiles
  subst hm
  have hL : 1 ≤ (p.slots rid.slotNo).length := hlen _ hdl
  have hprelen : ∀ k ∈ pre, 0 ≤ (p.slots k).length := fun k hk => by
    have := hlen k (List.mem_append_left _ hk)
    omega
  have hspec := fun fuel => compactLoop_spec rid.slotNo (p.slots rid.slotNo).offset
    (p.slots rid.slotNo).length (by omega) post fuel p 0 rid p.freePtr rfl rfl (le_refl 0)
    hdpost (List.nodup_append.mp hndpp).2.1
    (by
      intro k hk
      have hkl : k ∈ pre ++ rid.slotNo :: post :=
        List.mem_append_right _ (List.mem_cons_of_mem _ hk)
      have := (hmem k).mp hkl
      exact ⟨(mem_slotNumbers p k).mpr ⟨this.1, this.2.1⟩, this.2.2, hlen k hkl⟩)
    (by rw [add_zero]; exact htpost)
    (by
      intro k hk hocc hkpost
      have hk' := (mem_slotNumbers p k).mp hk
      have hkl := (hmem k).mpr ⟨hk'.1, hk'.2, hocc⟩
      rcases List.mem_append.mp hkl with h | h
      · have := ((tiles_bounds p.slots pre _ _ hprelen htpre).2 k h).2
        have := hlen k hkl
        omega
      · rcases List.mem_cons.mp h with h | h
        · rw [h]
          omega
        · exact absurd h hkpost)
  refine ⟨pre, post, rfl, htpre, htpost, fun fuel hf => ?_, fun fuel res hres => ?_⟩
  · obtain ⟨q, hq⟩ := (hspec fuel).1 hf
    rw [deleteRecord_valid P fuel p rid hv, hq]
    exact ⟨_, rfl⟩
  · rw [deleteRecord_valid P fuel p rid hv] at hres
    cases hq : compactLoop fuel p rid.slotNo (p.slots rid.slotNo).offset 0 rid with
    | none => rw [hq] at hres; cases hres
    | some q =>
      rw [hq] at hres
      simp only [Option.map_some', Option.some.injEq] at hres
      subst hres
      obtain ⟨q1, q2, q3, q4, q5, q6⟩ := (hspec fuel).2 q hq
      have hqd : q.slots rid.slotNo = p.slots rid.slotNo := by
        rw [q5, if_neg hdpost]
      refine ⟨rfl, q2, ?_, ?_, fun k => ?_, fun i => ?_⟩
      · dsimp only
        rw [q1]
      · dsimp only
        rw [q3, hqd]
      · dsimp only
        simp only [setSlot]
        by_cases hk : k = rid.slotNo
        · rw [if_pos hk, if_pos hk, hqd, hk]
          rfl
        · rw [if_neg hk, if_neg hk, q5]
      · dsimp only
        rw [q6]
        simp only [add_zero]


/-- `DeleteRecord` keeps the layout invariant: the deleted slot leaves the list. -/
theorem deleteRecord_layout (P : Params) (p : HeapPage) (l : List Int) (hl : Layout p l)
    (rid : RecordID) (hv : ValidRid p rid) (fuel : Nat) (res : DeleteResult)
    (hres : DeleteRecord P fuel p rid = some res) :
    ∃ l', Layout res.page l' := by
  obtain ⟨pre, post, rfl, htpre, htpost, _, heff⟩ := deleteRecord_effect P p _ hl rid hv
  obtain ⟨_, _, hn, hfp, hslots, _⟩ := heff fuel res hres
  obtain ⟨h0, hnd, hmem, hlen, _⟩ := hl
  have hnd' := List.nodup_middle.mp hnd
  obtain ⟨hdnot, hndpp⟩ := List.nodup_cons.mp hnd'
  have hdisj := (List.nodup_append.mp hndpp).2.2
  have hne : ∀ k ∈ pre ++ post, k ≠ rid.slotNo := fun k hk h => hdnot (h ▸ hk)
  have hsl : ∀ k, k ≠ rid.slotNo → (res.page.slots k).length = (p.slots k).length := by
    intro k hk
    rw [hslots k, if_neg hk]
    split <;> rfl
  refine ⟨pre ++ post, ?_, hndpp, fun k => ?_, fun k hk => ?_, ?_⟩
  · rw [hn]
    have := hv.2.1
    split <;> omega
  · constructor
    · intro hk
      have hkd := hne k hk
      have hkl : k ∈ pre ++ rid.slotNo :: post := by
        rcases List.mem_append.mp hk with h | h
        · exact List.mem_append_left _ h
        · exact List.mem_append_right _ (List.mem_cons_of_mem _ h)
      obtain ⟨h1, h2, h3⟩ := (hmem k).mp hkl
      refine ⟨h1, ?_, ?_⟩
      · rw [hn]
        split <;> omega
      · rw [slotIsEmpty_false_iff] at h3 ⊢
        rw [hsl k hkd]
        exact h3
    · rintro ⟨h1, h2, h3⟩
      have hkd : k ≠ rid.slotNo := by
        intro h
        rw [hslots k, if_pos h] at h3
        simp [SlotIsEmpty, INVALID_SLOT] at h3
      have h2' : k ≤ p.numOfSlots := by
        rw [hn] at h2
        split at h2 <;> omega
      have h3' : SlotIsEmpty (p.slots k) = false := by
        rw [slotIsEmpty_false_iff] at h3 ⊢
        rw [← hsl k hkd]
        exact h3
      have hkl := (hmem k).mpr ⟨h1, h2', h3'⟩
      rcases List.mem_append.mp hkl with h | h
      · exact List.mem_append_left _ h
      · rcases List.mem_cons.mp h with h | h
        · exact absurd h hkd
        · exact List.mem_append_right _ h
  · rw [hsl k (hne k hk)]
    apply hlen
    rcases List.mem_append.mp hk with h | h
    · exact List.mem_append_left _ h
    · exact List.mem_append_right _ (List.mem_cons_of_mem _ h)
  · rw [tiles_append]
    refine ⟨(p.slots rid.slotNo).offset, ?_, ?_⟩
    · apply tiles_congr p.slots _ pre _ _ _ htpre
      intro k hk
      rw [hslots k, if_neg (hne k (List.mem_append_left _ hk)),
        if_neg (fun h => hdisj hk h)]
    · have := tiles_shift p.slots res.page.slots (p.slots rid.slotNo).length post _ _
        (by
          intro k hk
          rw [hslots k, if_neg (hne k (List.mem_append_right _ hk)), if_pos hk])
        htpost
      rw [hfp]
      simpa using this

/-- `InsertRecord` of a record of length at least 1 keeps the layout invariant: on
success the new slot is appended to the list. -/
theorem insertRecord_layout (P : Params) (p : HeapPage) (l : List Int) (hl : Layout p l)
    (recPtr : Int → Byte) (length : Int) (rid : RecordID) (hlen1 : 1 ≤ length) :
    ∃ l', Layout (InsertRecord P p recPtr length rid).page l' := by
  obtain ⟨h0, hnd, hmem, hlen, htiles⟩ := hl
  have key : ∀ (n' s : Int),
      (s ∉ l) → 1 ≤ s → s ≤ n' →
      (∀ k, k ≠ s → ((1 ≤ k ∧ k ≤ n') ↔ (1 ≤ k ∧ k ≤ p.numOfSlots))) →
      Layout
        { p with
          numOfSlots := n'
          slots := setSlot p.slots s ⟨p.freePtr, length⟩
          data := memcpy p.data p.freePtr recPtr 0 length
          freePtr := p.freePtr + length
          freeSpace := p.freeSpace - length } (l ++ [s]) := by
    intro n' s hs h1 h2 hrange
    have hslot : ∀ k, k ≠ s → setSlot p.slots s ⟨p.freePtr, length⟩ k = p.slots k :=
      fun k hk => by simp [setSlot, hk]
    have hslots : setSlot p.slots s ⟨p.freePtr, length⟩ s = ⟨p.freePtr, length⟩ := by
      simp [setSlot]
    have hks : ∀ k ∈ l, k ≠ s := fun k hk h => hs (h ▸ hk)
    refine ⟨by dsimp only; omega, ?_, fun k => ?_, fun k hk => ?_, ?_⟩
    · rw [List.nodup_append]
      refine ⟨hnd, List.nodup_singleton s, ?_⟩
      intro a ha hb
      rw [List.mem_singleton] at hb
      exact hs (hb ▸ ha)
    · dsimp only
      by_cases hk : k = s
      · subst hk
        rw [hslots]
        simp only [List.mem_append, List.mem_singleton, or_true, true_iff]
        refine ⟨h1, h2, ?_⟩
        rw [slotIsEmpty_false_iff]
        dsimp only
        omega
      · rw [hslot k hk]
        simp only [List.mem_append, List.mem_singleton, hk, or_false]
        rw [hmem k]
        constructor
        · rintro ⟨a, b, c⟩
          exact ⟨a, ((hrange k hk).mpr ⟨a, b⟩).2, c⟩
        · rintro ⟨a, b, c⟩
          exact ⟨a, ((hrange k hk).mp ⟨a, b⟩).2, c⟩
    · dsimp only
      rcases List.mem_append.mp hk with h | h
      · rw [hslot k (hks k h)]
        exact hlen k h
      · rw [List.mem_singleton] at h
        rw [h, hslots]
        exact hlen1
    · dsimp only
      rw [tiles_append]
      refine ⟨p.freePtr, ?_, ?_⟩
      · exact tiles_congr p.slots _ l _ _ (fun k hk => hslot k (hks k hk)) htiles
      · simp only [Tiles, hslots, and_self]
  rcases insertRecord_cases P p recPtr length rid with h | ⟨k, hk, h⟩ | ⟨hnone, h⟩
  · rw [h]
    exact ⟨l, h0, hnd, hmem, hlen, htiles⟩
  · rw [h]
    have hkmem := (mem_slotNumbers p k).mp (List.mem_of_find?_eq_some hk)
    have hkemp : SlotIsEmpty (p.slots k) = true := by
      have := List.find?_some hk
      exact this
    refine ⟨l ++ [k], key p.numOfSlots k ?_ hkmem.1 hkmem.2 (fun _ _ => Iff.rfl)⟩
    intro hkl
    have := ((hmem k).mp hkl).2.2
    rw [this] at hkemp
    cases hkemp
  · rw [h]
    have hk := key (p.numOfSlots + 1) (p.numOfSlots + 1) (by
        intro hkl
        have := ((hmem _).mp hkl).2.1
        omega) (by omega) (le_refl _) (by
        intro k hk
        constructor
        · rintro ⟨a, b⟩
          exact ⟨a, by omega⟩
        · rintro ⟨a, b⟩
          exact ⟨a, by omega⟩)
    refine ⟨l ++ [p.numOfSlots + 1], ?_⟩
    obtain ⟨k0, k1, k2, k3, k4⟩ := hk
    exact ⟨k0, k1, k2, k3, k4⟩

/-- Every page reached from `Init` by insertions of records of length at least 1 and
by deletions has the layout invariant. -/
theorem reachable_layout (P : Params) (p : HeapPage) (h : Reachable P 1 p) :
    ∃ l, Layout p l := by
  induction h with
  | init p0 pageNo =>
    refine ⟨[], le_refl _, List.nodup_nil, fun k => ?_, fun k hk => (by cases hk), ?_⟩
    · simp only [Init, List.not_mem_nil, false_iff]
      omega
    · simp [Tiles, Init]
  | insert p recPtr length rid _ h1 _ ih =>
    obtain ⟨l, hl⟩ := ih
    exact insertRecord_layout P p l hl recPtr length rid h1
  | delete p fuel rid res _ hd ih =>
    obtain ⟨l, hl⟩ := ih
    by_cases hv : ValidRid p rid
    · exact deleteRecord_layout P p l hl rid hv fuel res hd
    · rw [deleteRecord_invalid P fuel p rid hv] at hd
      cases hd
      exact ⟨l, hl⟩


/-- The list of a layout is no longer than the slot directory. -/
theorem layout_length_le (p : HeapPage) (l : List Int) (hl : Layout p l) :
    l.length ≤ p.numOfSlots.toNat := by
  obtain ⟨_, hnd, hmem, _, _⟩ := hl
  have hsub : l ⊆ slotNumbers p := by
    intro k hk
    have := (hmem k).mp hk
    exact (mem_slotNumbers p k).mpr ⟨this.1, this.2.1⟩
  have := (List.subperm_of_subset hnd hsub).length_le
  simpa [slotNumbers] using this

/-- Record identifiers are equal when both components are. -/
theorem recordID_ext (a b : RecordID) (h1 : a.pageNo = b.pageNo) (h2 : a.slotNo = b.slotNo) :
    a = b := by
  cases a
  cases b
  simp only [RecordID.mk.injEq]
  exact ⟨h1, h2⟩

/-! ## C3: contiguity -/

/-- C3 (contiguity invariant): on every page reached from `Init` by `InsertRecord`
calls with records of length at least 1 and by `DeleteRecord` calls, the byte ranges
`[offset, offset + length)` of any two different occupied slots do not overlap (one
ends before the other starts, so no byte lies in both), and a byte offset lies in
`[0, freePtr)` exactly when it lies in the range of some occupied slot. -/
theorem contiguity (P : Params) (p : HeapPage) (h : Reachable P 1 p) :
    (∀ i j, 1 ≤ i → i ≤ p.numOfSlots → SlotIsEmpty (p.slots i) = false →
      1 ≤ j → j ≤ p.numOfSlots → SlotIsEmpty (p.slots j) = false → i ≠ j →
      ((p.slots i).offset + (p.slots i).length ≤ (p.slots j).offset ∨
        (p.slots j).offset + (p.slots j).length ≤ (p.slots i).offset) ∧
      ∀ x, ¬ (((p.slots i).offset ≤ x ∧ x < (p.slots i).offset + (p.slots i).length) ∧
        ((p.slots j).offset ≤ x ∧ x < (p.slots j).offset + (p.slots j).length))) ∧
    (∀ x, (0 ≤ x ∧ x < p.freePtr) ↔
      ∃ k, 1 ≤ k ∧ k ≤ p.numOfSlots ∧ SlotIsEmpty (p.slots k) = false ∧
        (p.slots k).offset ≤ x ∧ x < (p.slots k).offset + (p.slots k).length) := by
  obtain ⟨l, _, hnd, hmem, hlen, htiles⟩ := reachable_layout P p h
  have hlen0 : ∀ k ∈ l, 0 ≤ (p.slots k).length := fun k hk => by
    have := hlen k hk
    omega
  constructor
  · intro i j i1 i2 i3 j1 j2 j3 hij
    have hi := (hmem i).mpr ⟨i1, i2, i3⟩
    have hj := (hmem j).mpr ⟨j1, j2, j3⟩
    have hd := tiles_disjoint p.slots l _ _ hnd hlen0 htiles i hi j hj hij
    refine ⟨hd, fun x hx => ?_⟩
    omega
  · intro x
    rw [tiles_cover p.slots l _ _ hlen0 htiles x]
    constructor
    · rintro ⟨k, hk, hx⟩
      obtain ⟨k1, k2, k3⟩ := (hmem k).mp hk
      exact ⟨k, k1, k2, k3, hx⟩
    · rintro ⟨k, k1, k2, k3, hx⟩
      exact ⟨k, (hmem k).mpr ⟨k1, k2, k3⟩, hx⟩

/-! ## C2: identity stability under delete -/

/-- C2 (identity stability under delete): on every page reached from `Init` by
`InsertRecord` calls with records of length at least 1 and by `DeleteRecord` calls,
for two distinct valid record identifiers `d` and `r`: `DeleteRecord(d)` returns
(more fuel than `numOfSlots` is enough), and whenever it returns it returns `OK`,
`r` is still valid, and `GetRecord(r)` behaves as before the delete for every buffer
and capacity: same status, same `len`, same bytes in the caller's buffer. -/
theorem identity_stability (P : Params) (p : HeapPage) (h : Reachable P 1 p)
    (d r : RecordID) (hd : ValidRid p d) (hr : ValidRid p r) (hne : d ≠ r) :
    (∀ fuel, p.numOfSlots.toNat < fuel → ∃ res, DeleteRecord P fuel p d = some res) ∧
    (∀ fuel res, DeleteRecord P fuel p d = some res →
      res.status = Status.OK ∧ ValidRid res.page r ∧
      (res.page.slots r.slotNo).length = (p.slots r.slotNo).length ∧
      ∀ buf cap,
        (GetRecord res.page r buf cap).status = (GetRecord p r buf cap).status ∧
        (GetRecord res.page r buf cap).len = (GetRecord p r buf cap).len ∧
        ∀ i, (GetRecord res.page r buf cap).recPtr i = (GetRecord p r buf cap).recPtr i) := by
  obtain ⟨l, hl⟩ := reachable_layout P p h
  have hll := layout_length_le p l hl
  obtain ⟨pre, post, rfl, htpre, htpost, hterm, heff⟩ := deleteRecord_effect P p l hl d hd
  obtain ⟨_, hnd, hmem, hlen, _⟩ := hl
  refine ⟨fun fuel hf => hterm fuel ?_, fun fuel res hres => ?_⟩
  · simp only [List.length_append, List.length_cons] at hll
    omega
  · obtain ⟨hs, hpid, hn, hfp, hslots, hdata⟩ := heff fuel res hres
    have hrd : r.slotNo ≠ d.slotNo := fun hc =>
      hne (recordID_ext d r (by rw [hd.1, hr.1]) hc.symm)
    have hrl : r.slotNo ∈ pre ++ d.slotNo :: post := (hmem _).mpr ⟨hr.2.1, hr.2.2.1, hr.2.2.2⟩
    have hnd' := List.nodup_middle.mp hnd
    have hdisj := (List.nodup_append.mp (List.nodup_cons.mp hnd').2).2.2
    have hL : 1 ≤ (p.slots d.slotNo).length :=
      hlen _ (List.mem_append_right _ (List.mem_cons_self _ _))
    have hrlen : 1 ≤ (p.slots r.slotNo).length := hlen _ hrl
    have hlenr : (res.page.slots r.slotNo).length = (p.slots r.slotNo).length := by
      rw [hslots, if_neg hrd]
      split <;> rfl
    have hvr : ValidRid res.page r := by
      refine ⟨by rw [hpid]; exact hr.1, hr.2.1, ?_, ?_⟩
      · rw [hn]
        have := hr.2.2.1
        split <;> omega
      · rw [slotIsEmpty_false_iff, hlenr]
        omega
    have hbytes : ∀ i, 0 ≤ i → i < (p.slots r.slotNo).length →
        res.page.data ((res.page.slots r.slotNo).offset + i) =
          p.data ((p.slots r.slotNo).offset + i) := by
      intro i i0 i1
      rw [hdata, hslots, if_neg hrd]
      rcases List.mem_append.mp hrl with hin | hin
      · have hb := ((tiles_bounds p.slots pre _ _ (fun k hk => by
          have := hlen k (List.mem_append_left _ hk)
          omega) htpre).2 _ hin).2
        rw [if_neg (fun hc => hdisj hin hc), if_neg (by omega)]
      · rcases List.mem_cons.mp hin with hin | hin
        · exact absurd hin hrd
        · have hb := (tiles_bounds p.slots post _ _ (fun k hk => by
            have := hlen k (List.mem_append_right _ (List.mem_cons_of_mem _ hk))
            omega) htpost).2 _ hin
          rw [if_pos hin]
          dsimp only
          rw [if_pos (by omega)]
          congr 1
          omega
    refine ⟨hs, hvr, hlenr, fun buf cap => ?_⟩
    rw [getRecord_valid _ r buf cap hvr, getRecord_valid p r buf cap hr, hlenr]
    by_cases hc : cap < (p.slots r.slotNo).length
    · rw [if_pos hc, if_pos hc]
      exact ⟨rfl, rfl, fun _ => rfl⟩
    · rw [if_neg hc, if_neg hc]
      refine ⟨rfl, rfl, fun i => ?_⟩
      simp only [memcpy]
      by_cases hi : 0 ≤ i ∧ i < 0 + (p.slots r.slotNo).length
      · rw [if_pos hi, if_pos hi]
        have := hbytes i hi.1 (by omega)
        simpa using this
      · rw [if_neg hi, if_neg hi]


/-! ## Counters of a page with records of non-negative length -/

theorem sumTo_congr (f g : Int → Int) (n : Nat)
    (h : ∀ k : Int, 1 ≤ k → k ≤ n → f k = g k) : sumTo f n = sumTo g n := by
  induction n with
  | zero => rfl
  | succ n ih =>
    simp only [sumTo]
    rw [ih (fun k h1 h2 => h k h1 (by push_cast; omega)),
      h ((n : Int) + 1) (by omega) (by push_cast; omega)]

theorem sumTo_update (f g : Int → Int) (d : Int) (n : Nat) (h1 : 1 ≤ d) (h2 : d ≤ n)
    (h : ∀ k, k ≠ d → g k = f k) : sumTo g n = sumTo f n - f d + g d := by
  induction n with
  | zero => simp at h2; omega
  | succ n ih =>
    simp only [sumTo]
    by_cases hd : d = (n : Int) + 1
    · rw [sumTo_congr g f n (fun k _ k2 => h k (by omega)), hd]
      omega
    · rw [ih (by push_cast at h2; omega), h ((n : Int) + 1) (fun hc => hd hc.symm)]
      omega

theorem sumTo_nonneg (f : Int → Int) (n : Nat)
    (h : ∀ k : Int, 1 ≤ k → k ≤ n → 0 ≤ f k) : 0 ≤ sumTo f n := by
  induction n with
  | zero => simp [sumTo]
  | succ n ih =>
    simp only [sumTo]
    have := ih (fun k h1 h2 => h k h1 (by push_cast; omega))
    have := h ((n : Int) + 1) (by omega) (by push_cast; omega)
    omega

theorem toSizeT_eq (x : Int) (h0 : 0 ≤ x) (h1 : x < 18446744073709551616) :
    toSizeT x = x := by
  unfold toSizeT
  omega

/-- `InsertRecord` returns `OK` exactly when the space test, done in `size_t`, lets
it through. -/
theorem insertRecord_ok_iff (P : Params) (p : HeapPage) (recPtr : Int → Byte) (length : Int)
    (rid : RecordID) :
    (InsertRecord P p recPtr length rid).status = Status.OK ↔
      ¬ (toSizeT p.freeSpace < toSizeT (length +
        (if ((slotNumbers p).find? (fun k => SlotIsEmpty (p.slots k))).isSome then 0
          else (P.sizeofSlot : Int)))) := by
  unfold InsertRecord
  dsimp only
  generalize (slotNumbers p).find? (fun k => SlotIsEmpty (p.slots k)) = found
  cases found with
  | none =>
    simp only [Option.isSome_none, Bool.false_eq_true, if_false]
    by_cases hc : toSizeT p.freeSpace < toSizeT (length + (P.sizeofSlot : Int))
    · simp [hc]
    · simp [hc]
  | some k =>
    simp only [Option.isSome_some, if_true, add_zero]
    by_cases hc : toSizeT p.freeSpace < toSizeT length
    · simp [hc]
    · simp [hc]

/-- On a page with the counter invariant `freePtr` is non-negative and `freeSpace`
is at most the size of the data area. -/
theorem counters_bounds (P : Params) (p : HeapPage) (h : Counters P p) :
    0 ≤ p.freePtr ∧ p.freeSpace ≤ P.HEAPPAGE_DATA_SIZE := by
  obtain ⟨h0, hl, hfp, hfs, hc⟩ := h
  have hfp0 : 0 ≤ p.freePtr := by
    rw [hfp]
    apply sumTo_nonneg
    intro k k1 k2
    have := hl k k1 (by omega)
    unfold slotBytes
    split
    · exact le_refl 0
    · next hne =>
      have : (p.slots k).length ≠ -1 := by
        rw [← slotIsEmpty_false_iff]
        simpa using hne
      omega
  have : 0 ≤ p.numOfSlots * (P.sizeofSlot : Int) := mul_nonneg h0 (by omega)
  exact ⟨hfp0, by omega⟩

/-- `InsertRecord` of a record of non-negative `int` length keeps the counter
invariant. -/
theorem insertRecord_counters (P : Params) (hP : P.valid) (p : HeapPage)
    (h : Counters P p) (recPtr : Int → Byte) (length : Int) (rid : RecordID)
    (hlen0 : 0 ≤ length) (hlen1 : length ≤ INT_MAX) :
    Counters P (InsertRecord P p recPtr length rid).page := by
  obtain ⟨hb1, hb2⟩ := counters_bounds P p h
  obtain ⟨h0, hl, hfp, hfs, hc⟩ := h
  obtain ⟨hP1, hP2⟩ := hP
  have hok := insertRecord_ok_iff P p recPtr length rid
  unfold INT_MAX at *
  rcases insertRecord_cases P p recPtr length rid with hr | ⟨k, hk, hr⟩ | ⟨hnone, hr⟩
  · rw [hr]
    exact ⟨h0, hl, hfp, hfs, hc⟩
  · rw [hr] at hok ⊢
    rw [hk] at hok
    simp only [Option.isSome_some, if_true, true_iff, not_lt, add_zero] at hok
    rw [toSizeT_eq _ hfs (by omega), toSizeT_eq _ hlen0 (by omega)] at hok
    have hkmem := (mem_slotNumbers p k).mp (List.mem_of_find?_eq_some hk)
    have hkemp : SlotIsEmpty (p.slots k) = true := by
      have := List.find?_some hk
      exact this
    refine ⟨h0, fun j j1 j2 => ?_, ?_, ?_, ?_⟩
    · dsimp only at j2 ⊢
      simp only [setSlot]
      split
      · dsimp only
        omega
      · exact hl j j1 j2
    · dsimp only
      unfold occupiedBytes
      dsimp only
      rw [sumTo_update (fun j => slotBytes (p.slots j)) _ k p.numOfSlots.toNat hkmem.1
        (by omega) (fun j hj => by simp [setSlot, hj])]
      have e1 : slotBytes (p.slots k) = 0 := by simp [slotBytes, hkemp]
      have e2 : slotBytes (setSlot p.slots k ⟨p.freePtr, length⟩ k) = length := by
        simp only [setSlot, if_true, slotBytes, SlotIsEmpty, INVALID_SLOT]
        rw [if_neg (by simp; omega)]
      rw [e1, e2, hfp]
      unfold occupiedBytes
      omega
    · dsimp only
      omega
    · dsimp only
      linarith
  · rw [hr] at hok ⊢
    rw [hnone] at hok
    simp only [Option.isSome_none, Bool.false_eq_true, if_false, true_iff, not_lt] at hok
    rw [toSizeT_eq _ hfs (by omega), toSizeT_eq _ (by omega) (by omega)] at hok
    have hn1 : (p.numOfSlots + 1).toNat = p.numOfSlots.toNat + 1 := by omega
    refine ⟨by dsimp only; omega, fun j j1 j2 => ?_, ?_, ?_, ?_⟩
    · dsimp only at j2 ⊢
      simp only [setSlot]
      split
      · dsimp only
        omega
      · next hne => exact hl j j1 (by omega)
    · dsimp only
      unfold occupiedBytes
      dsimp only
      rw [hn1]
      simp only [sumTo]
      rw [sumTo_congr _ (fun j => slotBytes (p.slots j)) p.numOfSlots.toNat
        (fun j j1 j2 => by
          have : j ≠ p.numOfSlots + 1 := by omega
          simp [setSlot, this])]
      have e0 : ((p.numOfSlots.toNat : Int) + 1) = p.numOfSlots + 1 := by omega
      have e2 : slotBytes (setSlot p.slots (p.numOfSlots + 1) ⟨p.freePtr, length⟩
          ((p.numOfSlots.toNat : Int) + 1)) = length := by
        rw [e0]
        simp only [setSlot, if_true, slotBytes, SlotIsEmpty, INVALID_SLOT]
        rw [if_neg (by simp; omega)]
      rw [e2, hfp]
      unfold occupiedBytes
      omega
    · dsimp only
      omega
    · dsimp only
      linarith


/-- `DeleteRecord` keeps the counter invariant. -/
theorem deleteRecord_counters (P : Params) (p : HeapPage) (h : Counters P p)
    (fuel : Nat) (rid : RecordID) (res : DeleteResult)
    (hres : DeleteRecord P fuel p rid = some res) : Counters P res.page := by
  by_cases hv : ValidRid p rid
  · rw [deleteRecord_valid P fuel p rid hv] at hres
    cases hq : compactLoop fuel p rid.slotNo (p.slots rid.slotNo).offset 0 rid with
    | none => rw [hq] at hres; cases hres
    | some q =>
      rw [hq] at hres
      simp only [Option.map_some', Option.some.injEq] at hres
      subst hres
      obtain ⟨q1, _, q3, q4, _, _, q7⟩ := compactLoop_header _ _ _ _ _ _ _ hq
      obtain ⟨h0, hl, hfp, hfs, hc⟩ := h
      obtain ⟨_, v1, v2, v3⟩ := hv
      have hL : 0 ≤ (p.slots rid.slotNo).length := by
        have := hl _ v1 v2
        have := (slotIsEmpty_false_iff _).mp v3
        omega
      have hbytes : ∀ k, k ≠ rid.slotNo →
          slotBytes (setSlot q.slots rid.slotNo (SetSlotEmpty (q.slots rid.slotNo)) k) =
            slotBytes (p.slots k) := by
        intro k hk
        simp only [setSlot, if_neg hk, slotBytes, SlotIsEmpty, q7 k]
      have hbytesd :
          slotBytes (setSlot q.slots rid.slotNo (SetSlotEmpty (q.slots rid.slotNo))
            rid.slotNo) = 0 := by
        simp [setSlot, slotBytes, SlotIsEmpty, SetSlotEmpty]
      have hbd : slotBytes (p.slots rid.slotNo) = (p.slots rid.slotNo).length := by
        simp [slotBytes, v3]
      refine ⟨?_, fun k k1 k2 => ?_, ?_, ?_, ?_⟩
      · dsimp only
        rw [q1]
        split <;> omega
      · dsimp only at k2 ⊢
        rw [q1] at k2
        simp only [setSlot]
        split
        · simp [SetSlotEmpty, INVALID_SLOT]
        · rw [q7 k]
          exact hl k k1 (by split at k2 <;> omega)
      · dsimp only
        rw [q3, q7, hfp]
        unfold occupiedBytes
        dsimp only
        rw [q1]
        by_cases hlast : rid.slotNo = p.numOfSlots
        · rw [if_pos hlast]
          have e1 : p.numOfSlots.toNat = (p.numOfSlots - 1).toNat + 1 := by omega
          have e2 : (((p.numOfSlots - 1).toNat : Int) + 1) = rid.slotNo := by omega
          rw [sumTo_congr _ (fun k => slotBytes (p.slots k)) (p.numOfSlots - 1).toNat
            (fun k k1 k2 => hbytes k (by omega))]
          rw [e1]
          simp only [sumTo]
          rw [e2, hbd]
          omega
        · rw [if_neg hlast]
          rw [sumTo_update (fun k => slotBytes (p.slots k)) _ rid.slotNo p.numOfSlots.toNat
            v1 (by omega) hbytes]
          rw [hbytesd, hbd]
          omega
      · dsimp only
        rw [q1, q4, q7]
        split <;> omega
      · dsimp only
        rw [q1, q3, q4, q7]
        split <;> linarith
  · rw [deleteRecord_invalid P fuel p rid hv] at hres
    cases hres
    exact h

/-- Every page reached from `Init` by insertions of records of non-negative `int`
length and by deletions has the counter invariant. -/
theorem reachable_counters (P : Params) (hP : P.valid) (p : HeapPage)
    (h : Reachable P 0 p) : Counters P p := by
  induction h with
  | init p0 pageNo =>
    refine ⟨le_refl _, fun k k1 k2 => ?_, ?_, ?_, ?_⟩
    · simp only [Init] at k2
      omega
    · simp [Init, occupiedBytes, sumTo]
    · simp [Init]
    · simp [Init]
  | insert p recPtr length rid _ h0 h1 ih =>
    exact insertRecord_counters P hP p ih recPtr length rid h0 h1
  | delete p fuel rid res _ hd ih =>
    exact deleteRecord_counters P p ih fuel rid res hd

/-- A page reachable with records of length at least `m` is reachable with records
of length at least `m'` for every `m' ≤ m`. -/
theorem reachable_mono (P : Params) (m m' : Int) (hm : m' ≤ m) (p : HeapPage)
    (h : Reachable P m p) : Reachable P m' p := by
  induction h with
  | init p0 pageNo => exact Reachable.init p0 pageNo
  | insert p recPtr length rid _ h0 h1 ih =>
    exact Reachable.insert p recPtr length rid ih (by omega) h1
  | delete p fuel rid res _ hd ih =>
    exact Reachable.delete p fuel rid res ih hd

/-- On a page with the counter invariant `AvailableSpace` is
`max (freeSpace - sizeof(Slot)) 0`: the conversions do not wrap. -/
theorem availableSpace_eq (P : Params) (hP : P.valid) (p : HeapPage) (h : Counters P p) :
    AvailableSpace P p = max (p.freeSpace - P.sizeofSlot) 0 := by
  obtain ⟨_, hb⟩ := counters_bounds P p h
  obtain ⟨_, _, _, hfs, _⟩ := h
  obtain ⟨hP1, hP2⟩ := hP
  unfold INT_MAX at *
  unfold AvailableSpace toSizeT toInt
  omega

/-! ## C5: exhaustion -/

/-- C5 (exhaustion, amended): on every page reached from `Init` by `InsertRecord`
calls (records of non-negative `int` length) and `DeleteRecord` calls, a record whose
length is greater than `AvailableSpace()` makes `InsertRecord` return `DONE` and hand
the page back unchanged, provided no slot among `1..numOfSlots` is unoccupied or the
length is also greater than `freeSpace`. -/
theorem exhaustion (P : Params) (hP : P.valid) (p : HeapPage) (h : Reachable P 0 p)
    (recPtr : Int → Byte) (length : Int) (rid : RecordID) (hlen : length ≤ INT_MAX)
    (hgt : AvailableSpace P p < length)
    (hcase : (∀ k, 1 ≤ k → k ≤ p.numOfSlots → SlotIsEmpty (p.slots k) = false) ∨
      p.freeSpace < length) :
    InsertRecord P p recPtr length rid = ⟨Status.DONE, p, rid⟩ := by
  have hcnt := reachable_counters P hP p h
  rw [availableSpace_eq P hP p hcnt] at hgt
  obtain ⟨_, hb⟩ := counters_bounds P p hcnt
  obtain ⟨_, _, _, hfs, _⟩ := hcnt
  have hguard := insertRecord_ok_iff P p recPtr length rid
  have hP' := hP
  obtain ⟨hP1, hP2⟩ := hP'
  unfold INT_MAX at *
  have hfail : (InsertRecord P p recPtr length rid).status ≠ Status.OK := by
    rw [Ne, hguard, not_not]
    rw [toSizeT_eq _ hfs (by omega)]
    cases hf : (slotNumbers p).find? (fun k => SlotIsEmpty (p.slots k)) with
    | none =>
      simp only [Option.isSome_none, Bool.false_eq_true, if_false]
      rw [toSizeT_eq _ (by omega) (by omega)]
      omega
    | some k =>
      simp only [Option.isSome_some, if_true, add_zero]
      rw [toSizeT_eq _ (by omega) (by omega)]
      rcases hcase with hall | hlt
      · exfalso
        have hkmem := (mem_slotNumbers p k).mp (List.mem_of_find?_eq_some hf)
        have hkemp : SlotIsEmpty (p.slots k) = true := by
          have := List.find?_some hf
          exact this
        rw [hall k hkmem.1 hkmem.2] at hkemp
        cases hkemp
      · exact hlt
  rcases insertRecord_cases P p recPtr length rid with hr | ⟨k, _, hr⟩ | ⟨_, hr⟩
  · exact hr
  · rw [hr] at hfail
    exact absurd rfl hfail
  · rw [hr] at hfail
    exact absurd rfl hfail


/-! ## Sample pages are reachable -/

theorem pageABC_reachable (m : Int) (hm : m ≤ 2) : Reachable sampleParams m pageABC := by
  unfold pageABC pageAB pageA page0
  refine Reachable.insert _ _ _ _ (Reachable.insert _ _ _ _ (Reachable.insert _ _ _ _
    (Reachable.init rawPage 7) ?_ ?_) ?_ ?_) ?_ ?_ <;> first | omega | decide

theorem pageAC_reachable (m : Int) (hm : m ≤ 2) : Reachable sampleParams m pageAC := by
  unfold pageAC
  cases h : DeleteRecord sampleParams 4 pageABC ⟨7, 2⟩ with
  | none => exact pageABC_reachable m hm
  | some res => exact Reachable.delete _ _ _ _ (pageABC_reachable m hm) h

theorem pageZA_reachable : Reachable sampleParams 0 pageZA := by
  unfold pageZA pageZ page0
  refine Reachable.insert _ _ _ _ (Reachable.insert _ _ _ _
    (Reachable.init rawPage 7) ?_ ?_) ?_ ?_ <;> decide

theorem pageZ_reachable : Reachable sampleParams 0 pageZ := by
  unfold pageZ page0
  exact Reachable.insert _ _ _ _ (Reachable.init rawPage 7) (by decide) (by decide)

/-! ## Witnesses and counterexamples on the sample pages -/

/-- C3 witness: the page with records of 3 and 4 bytes in slots 1 and 3 and slot 2
deleted; byte 5 lies below `freePtr` exactly when an occupied slot holds it. -/
theorem contiguity_witness :
    (0 ≤ (5 : Int) ∧ 5 < pageAC.freePtr) ↔
      ∃ k, 1 ≤ k ∧ k ≤ pageAC.numOfSlots ∧ SlotIsEmpty (pageAC.slots k) = false ∧
        (pageAC.slots k).offset ≤ 5 ∧ 5 < (pageAC.slots k).offset + (pageAC.slots k).length :=
  (contiguity sampleParams pageAC (pageAC_reachable 1 (by decide))).2 5

/-- C2 witness: on the page with three records, deleting slot 2 returns and leaves
slot 3 valid with its length. -/
theorem identity_stability_witness :
    (∃ res, DeleteRecord sampleParams 4 pageABC ⟨7, 2⟩ = some res) ∧
    (∀ fuel res, DeleteRecord sampleParams fuel pageABC ⟨7, 2⟩ = some res →
      res.status = Status.OK ∧ ValidRid res.page ⟨7, 3⟩ ∧
      (res.page.slots 3).length = (pageABC.slots 3).length) :=
  ⟨(identity_stability sampleParams pageABC (pageABC_reachable 1 (by decide))
      ⟨7, 2⟩ ⟨7, 3⟩ (by decide) (by decide) (by decide)).1 4 (by decide),
   fun fuel res h =>
    let r := (identity_stability sampleParams pageABC (pageABC_reachable 1 (by decide))
      ⟨7, 2⟩ ⟨7, 3⟩ (by decide) (by decide) (by decide)).2 fuel res h
    ⟨r.1, r.2.1, r.2.2.1⟩⟩

/-- C5 counterexample: on the reachable page with slot 2 unoccupied, `freeSpace` is
81 and `AvailableSpace()` is 77; a record of 80 bytes is longer than
`AvailableSpace()`, yet `InsertRecord` returns `OK` and moves `freePtr` from 7 to 87. -/
theorem exhaustion_counterexample :
    Reachable sampleParams 0 pageAC ∧
    AvailableSpace sampleParams pageAC < 80 ∧
    (InsertRecord sampleParams pageAC sampleRec 80 ⟨0, 0⟩).status = Status.OK ∧
    pageAC.freePtr = 7 ∧
    (InsertRecord sampleParams pageAC sampleRec 80 ⟨0, 0⟩).page.freePtr = 87 :=
  ⟨pageAC_reachable 0 (by decide), by decide, by decide, by decide, by decide⟩

/-- C5 witness: on the page with three records and no unoccupied slot,
`AvailableSpace()` is 75 and a record of 76 bytes is refused. -/
theorem exhaustion_witness :
    InsertRecord sampleParams pageABC sampleRec 76 ⟨0, 0⟩ =
      ⟨Status.DONE, pageABC, ⟨0, 0⟩⟩ :=
  exhaustion sampleParams (by decide) pageABC (pageABC_reachable 0 (by decide))
    sampleRec 76 ⟨0, 0⟩ (by decide) (by decide)
    (Or.inl (fun k h1 h2 => by
      have h3 : pageABC.numOfSlots = 3 := by decide
      rw [h3] at h2
      have : k = 1 ∨ k = 2 ∨ k = 3 := by omega
      rcases this with rfl | rfl | rfl <;> decide))

/-! ## C6 and C7: records of length 0 -/

/-- C6 (failing input): after `Init(7)`, an insertion of a record of length 0 and an
insertion of a 2 byte record, slots 1 and 2 are both occupied and both at offset 0.
`FirstRecord` returns slot 1, and `NextRecord` of slot 1 returns `OK` with slot 1
again: the scan never reaches slot 2 and never gets `DONE`, however many calls it
makes. -/
theorem iteration_stuck_on_empty_record :
    Reachable sampleParams 0 pageZA ∧
    ValidRid pageZA ⟨7, 1⟩ ∧ ValidRid pageZA ⟨7, 2⟩ ∧
    (FirstRecord pageZA ⟨0, 0⟩).status = Status.OK ∧
    (FirstRecord pageZA ⟨0, 0⟩).rid = ⟨7, 1⟩ ∧
    (NextRecord pageZA ⟨7, 1⟩ ⟨0, 0⟩).status = Status.OK ∧
    (NextRecord pageZA ⟨7, 1⟩ ⟨0, 0⟩).rid = ⟨7, 1⟩ ∧
    ∀ fuel, scan fuel pageZA = none := by
  refine ⟨pageZA_reachable, by decide, by decide, by decide, by decide, by decide,
    by decide, fun fuel => ?_⟩
  have hfirst : FirstRecord pageZA ⟨0, 0⟩ = ⟨Status.OK, pageZA, ⟨7, 1⟩⟩ := rfl
  have hnext : NextRecord pageZA ⟨7, 1⟩ ⟨7, 1⟩ = ⟨Status.OK, pageZA, ⟨7, 1⟩⟩ := rfl
  unfold scan
  rw [hfirst]
  induction fuel with
  | zero => rfl
  | succ n ih =>
    simp only [scanFrom]
    rw [hnext, ih]
    rfl

/-- The compaction loop never ends when the slot being deleted has length 0 and is
itself the slot `RecordWithOffset` finds at its offset: each iteration "moves" the
slot onto itself and searches the same offset again. -/
theorem compactLoop_stuck (p : HeapPage) (d dp : Int) (hlen : (p.slots d).length = 0)
    (hfind : ∀ r, RecordWithOffset p (p.slots d).offset r = (Status.OK, ⟨p.pid, d⟩)) :
    ∀ (fuel : Nat) (r : RecordID), compactLoop fuel p d dp 0 r = none := by
  intro fuel
  induction fuel with
  | zero => intro r; rfl
  | succ n ih =>
    intro r
    rw [compactLoop]
    dsimp only
    rw [hlen]
    simp only [add_zero]
    rw [hfind r]
    simp only [reduceCtorEq, if_false, sub_zero]
    have hq : ({ p with
        data := memcpy p.data dp p.data (p.slots d).offset (p.slots d).length
        slots := setSlot p.slots d ⟨(p.slots d).offset, (p.slots d).length⟩ } : HeapPage) = p := by
      have h1 : memcpy p.data dp p.data (p.slots d).offset (p.slots d).length = p.data := by
        funext i
        simp only [memcpy, hlen]
        rw [if_neg (by omega)]
      have h2 : setSlot p.slots d ⟨(p.slots d).offset, (p.slots d).length⟩ = p.slots := by
        funext j
        simp only [setSlot]
        split
        · next hj => rw [hj]
        · rfl
      rw [h1, h2]
    rw [hq, hlen]
    exact ih _

/-- C7 (failing input): after `Init(7)` and the insertion of one record of length 0,
`DeleteRecord` of that record (slot 1) does not return, whatever the fuel. -/
theorem deleteRecord_diverges_on_empty_record :
    Reachable sampleParams 0 pageZ ∧ ValidRid pageZ ⟨7, 1⟩ ∧
    ∀ fuel, DeleteRecord sampleParams fuel pageZ ⟨7, 1⟩ = none := by
  refine ⟨pageZ_reachable, by decide, fun fuel => ?_⟩
  rw [deleteRecord_valid sampleParams fuel pageZ ⟨7, 1⟩ (by decide)]
  rw [compactLoop_stuck pageZ 1 _ (by decide) (fun r => rfl) fuel _]
  rfl


/-! ## Scans and deletions on pages whose records have length at least 1 -/

/-- On a page with the layout invariant, the lookup of the offset at which the list
splits finds the first slot of the second part, or nothing when that part is empty. -/
theorem layout_find (p : HeapPage) (a b : List Int) (t : Int) (hl : Layout p (a ++ b))
    (ha : Tiles p.slots a 0 t) (hb : Tiles p.slots b t p.freePtr) :
    (slotNumbers p).find?
      (fun k => !SlotIsEmpty (p.slots k) && decide ((p.slots k).offset = t)) = b.head? := by
  obtain ⟨_, hnd, hmem, hlen, _⟩ := hl
  have halen : ∀ k ∈ a, 0 ≤ (p.slots k).length := fun k hk => by
    have := hlen k (List.mem_append_left _ hk)
    omega
  have hbelow : ∀ k ∈ a, (p.slots k).offset < t := fun k hk => by
    have := ((tiles_bounds p.slots a _ _ halen ha).2 k hk).2
    have := hlen k (List.mem_append_left _ hk)
    omega
  cases b with
  | nil =>
    simp only [Tiles] at hb
    rw [List.head?_nil, List.find?_eq_none]
    intro k hk
    simp only [Bool.and_eq_true, Bool.not_eq_true', decide_eq_true_eq, not_and]
    intro hocc
    have hk' := (mem_slotNumbers p k).mp hk
    have hkl := (hmem k).mpr ⟨hk'.1, hk'.2, hocc⟩
    rw [List.append_nil] at hkl
    have := hbelow k hkl
    omega
  | cons m rest =>
    obtain ⟨hm, hrest⟩ := hb
    have hml : m ∈ a ++ m :: rest := List.mem_append_right _ (List.mem_cons_self _ _)
    obtain ⟨m1, m2, m3⟩ := (hmem m).mp hml
    rw [List.head?_cons]
    apply find?_unique _ _ _ ((mem_slotNumbers p m).mpr ⟨m1, m2⟩)
    · simp [m3, hm]
    · intro k hk hf
      simp only [Bool.and_eq_true, Bool.not_eq_true', decide_eq_true_eq] at hf
      have hk' := (mem_slotNumbers p k).mp hk
      have hkl := (hmem k).mpr ⟨hk'.1, hk'.2, hf.1⟩
      rcases List.mem_append.mp hkl with h | h
      · have := hbelow k h
        omega
      · rcases List.mem_cons.mp h with h | h
        · exact h
        · have hrlen : ∀ j ∈ rest, 0 ≤ (p.slots j).length := fun j hj => by
            have := hlen j (List.mem_append_right _ (List.mem_cons_of_mem _ hj))
            omega
          have := ((tiles_bounds p.slots rest _ _ hrlen hrest).2 k h).1
          have := hlen m hml
          omega

/-- On a page with the layout invariant the scan, once it has reached the split of
the list, visits the slots of the second part in order and then ends with `DONE`. -/
theorem scanFrom_layout (p : HeapPage) (r0 : RecordID) :
    ∀ (b a : List Int) (t : Int) (fuel : Nat), Layout p (a ++ b) →
      Tiles p.slots a 0 t → Tiles p.slots b t p.freePtr → b.length < fuel →
      scanFrom fuel p
        (match b.head? with
          | some k => ⟨Status.OK, p, ⟨p.pid, k⟩⟩
          | none => ⟨Status.DONE, p, r0⟩) =
        some (b.map (fun k => ⟨p.pid, k⟩)) := by
  intro b
  induction b generalizing r0 with
  | nil =>
    intro a t fuel _ _ _ hf
    cases fuel with
    | zero => simp at hf
    | succ f => simp [scanFrom]
  | cons m rest ih =>
    intro a t fuel hl ha hb hf
    cases fuel with
    | zero => simp at hf
    | succ f =>
      obtain ⟨hm, hrest⟩ := hb
      have hl' : Layout p ((a ++ [m]) ++ rest) := by simpa using hl
      have ha' : Tiles p.slots (a ++ [m]) 0 (t + (p.slots m).length) := by
        rw [tiles_append]
        exact ⟨t, ha, hm, rfl⟩
      have hml : m ∈ a ++ m :: rest := List.mem_append_right _ (List.mem_cons_self _ _)
      obtain ⟨m1, m2, m3⟩ := (hl.2.2.1 m).mp hml
      have hv : ValidRid p ⟨p.pid, m⟩ := ⟨rfl, m1, m2, m3⟩
      have hnext : NextRecord p ⟨p.pid, m⟩ ⟨p.pid, m⟩ =
          (match rest.head? with
            | some k => ⟨Status.OK, p, ⟨p.pid, k⟩⟩
            | none => ⟨Status.DONE, p, ⟨p.pid, m⟩⟩) := by
        rw [nextRecord_valid p _ _ hv]
        dsimp only
        rw [hm, layout_find p (a ++ [m]) rest _ hl' ha' hrest]
      simp only [List.head?_cons, scanFrom, List.map_cons]
      rw [hnext, ih ⟨p.pid, m⟩ (a ++ [m]) _ f hl' ha' hrest (by simpa using hf)]
      rfl

/-- Offsets grow strictly along a tiling by records of length at least 1. -/
theorem tiles_pairwise (slots : Int → Slot) (l : List Int) :
    ∀ s e, (∀ k ∈ l, 1 ≤ (slots k).length) → Tiles slots l s e →
      l.Pairwise (fun i j => (slots i).offset < (slots j).offset) := by
  induction l with
  | nil => intro s e _ _; exact List.Pairwise.nil
  | cons k ks ih =>
    intro s e hlen h
    obtain ⟨h1, h2⟩ := h
    have hks : ∀ x ∈ ks, 1 ≤ (slots x).length := fun x hx => hlen x (List.mem_cons_of_mem _ hx)
    refine List.Pairwise.cons (fun j hj => ?_) (ih _ _ hks h2)
    have := ((tiles_bounds slots ks _ _ (fun x hx => by
      have := hks x hx
      omega) h2).2 j hj).1
    have := hlen k (List.mem_cons_self _ _)
    omega

/-- With records of length at least 1 the scan is complete: on every page reached
from `Init` by such insertions and by deletions, `FirstRecord` followed by
`NextRecord` visits every occupied slot exactly once, in strictly ascending offset
order, and then gets `DONE`. -/
theorem scan_complete (P : Params) (p : HeapPage) (h : Reachable P 1 p) (fuel : Nat)
    (hf : p.numOfSlots.toNat < fuel) :
    ∃ l : List Int, scan fuel p = some (l.map (fun k => ⟨p.pid, k⟩)) ∧ l.Nodup ∧
      (∀ k, k ∈ l ↔ (1 ≤ k ∧ k ≤ p.numOfSlots ∧ SlotIsEmpty (p.slots k) = false)) ∧
      l.Pairwise (fun i j => (p.slots i).offset < (p.slots j).offset) := by
  obtain ⟨l, hl⟩ := reachable_layout P p h
  have hll := layout_length_le p l hl
  have hl' : Layout p ([] ++ l) := by simpa using hl
  have ht : Tiles p.slots l 0 p.freePtr := hl.2.2.2.2
  refine ⟨l, ?_, hl.2.1, hl.2.2.1, tiles_pairwise p.slots l _ _ hl.2.2.2.1 ht⟩
  unfold scan
  have hfirst : FirstRecord p ⟨0, 0⟩ =
      (match l.head? with
        | some k => ⟨Status.OK, p, ⟨p.pid, k⟩⟩
        | none => ⟨Status.DONE, p, ⟨0, 0⟩⟩) := by
    unfold FirstRecord
    rw [layout_find p [] l 0 hl' rfl ht]
  rw [hfirst]
  exact scanFrom_layout p ⟨0, 0⟩ l [] 0 fuel hl' rfl ht (by omega)

/-- With records of length at least 1 `DeleteRecord` always returns: more fuel than
`numOfSlots` is enough, for every record identifier. -/
theorem deleteRecord_returns (P : Params) (p : HeapPage) (h : Reachable P 1 p)
    (rid : RecordID) (fuel : Nat) (hf : p.numOfSlots.toNat < fuel) :
    ∃ res, DeleteRecord P fuel p rid = some res := by
  by_cases hv : ValidRid p rid
  · obtain ⟨l, hl⟩ := reachable_layout P p h
    have hll := layout_length_le p l hl
    obtain ⟨pre, post, rfl, _, _, hterm, _⟩ := deleteRecord_effect P p l hl rid hv
    simp only [List.length_append, List.length_cons] at hll
    exact hterm fuel (by omega)
  · exact ⟨_, deleteRecord_invalid P fuel p rid hv⟩


/-! ## C14: `Init` is a full reset -/

/-- C14 (`Init` is a full reset): whatever the page held before and for every page id,
after `Init` `PageNo()` is that id, `GetNextPage()` and `GetPrevPage()` are
`INVALID_PAGE`, `numOfSlots = 0`, `freePtr = 0`, `freeSpace = HEAPPAGE_DATA_SIZE`,
`IsEmpty()` is true, `GetNumOfRecords()` is 0 and `FirstRecord` returns `DONE`; an
`InsertRecord` that returns `DONE` leaves this state as it is, and one that returns
`OK` returns slot number 1 and stores the record at offset 0. -/
theorem init_full_reset (P : Params) (p0 : HeapPage) (pageNo : Int) :
    PageNo (Init P p0 pageNo) = pageNo ∧
    GetNextPage (Init P p0 pageNo) = P.INVALID_PAGE ∧
    GetPrevPage (Init P p0 pageNo) = P.INVALID_PAGE ∧
    (Init P p0 pageNo).numOfSlots = 0 ∧
    (Init P p0 pageNo).freePtr = 0 ∧
    (Init P p0 pageNo).freeSpace = P.HEAPPAGE_DATA_SIZE ∧
    IsEmpty (Init P p0 pageNo) = true ∧
    GetNumOfRecords (Init P p0 pageNo) = 0 ∧
    (∀ rid, FirstRecord (Init P p0 pageNo) rid = ⟨Status.DONE, Init P p0 pageNo, rid⟩) ∧
    (∀ recPtr length rid,
      (InsertRecord P (Init P p0 pageNo) recPtr length rid).status = Status.DONE →
      (InsertRecord P (Init P p0 pageNo) recPtr length rid).page = Init P p0 pageNo) ∧
    (∀ recPtr length rid,
      (InsertRecord P (Init P p0 pageNo) recPtr length rid).status = Status.OK →
      (InsertRecord P (Init P p0 pageNo) recPtr length rid).rid = ⟨pageNo, 1⟩ ∧
      (InsertRecord P (Init P p0 pageNo) recPtr length rid).page.slots 1 = ⟨0, length⟩ ∧
      (InsertRecord P (Init P p0 pageNo) recPtr length rid).page.numOfSlots = 1) := by
  have hnum : slotNumbers (Init P p0 pageNo) = [] := by
    simp [slotNumbers, Init]
  refine ⟨rfl, rfl, rfl, rfl, rfl, rfl, ?_, ?_, ?_, ?_, ?_⟩
  · simp [IsEmpty, Init]
  · simp [GetNumOfRecords, hnum]
  · intro rid
    simp [FirstRecord, hnum]
  · intro recPtr length rid hs
    rcases insertRecord_cases P (Init P p0 pageNo) recPtr length rid with h | ⟨k, _, h⟩ | ⟨_, h⟩
    · rw [h]
    · rw [h] at hs; cases hs
    · rw [h] at hs; cases hs
  · intro recPtr length rid hs
    rcases insertRecord_cases P (Init P p0 pageNo) recPtr length rid with h | ⟨k, hk, _⟩ | ⟨_, h⟩
    · rw [h] at hs; cases hs
    · rw [hnum] at hk
      simp at hk
    · rw [h]
      simp [Init, setSlot]

/-- C14 witness: a frame that held three records is reset with `Init(9)`; the next
insertion of a 3 byte record succeeds and gets slot 1. -/
theorem init_full_reset_witness :
    (InsertRecord sampleParams (Init sampleParams pageABC 9) sampleRec 3 ⟨0, 0⟩).rid =
      ⟨9, 1⟩ ∧
    (InsertRecord sampleParams (Init sampleParams pageABC 9) sampleRec 3 ⟨0, 0⟩).page.slots 1 =
      ⟨0, 3⟩ ∧
    (InsertRecord sampleParams (Init sampleParams pageABC 9) sampleRec 3 ⟨0, 0⟩).page.numOfSlots
      = 1 :=
  (init_full_reset sampleParams pageABC 9).2.2.2.2.2.2.2.2.2.2 sampleRec 3 ⟨0, 0⟩ (by decide)

/-! ## C19: what a successful `DeleteRecord` leaves behind -/

/-- A `DeleteRecord` that returns `OK`: the header fields and the slot directory
afterwards, in terms of the page before. -/
theorem deleteRecord_ok (P : Params) (fuel : Nat) (p : HeapPage) (rid : RecordID)
    (res : DeleteResult) (h : DeleteRecord P fuel p rid = some res)
    (hOK : res.status = Status.OK) :
    ValidRid p rid ∧ res.page.pid = p.pid ∧
    res.page.freePtr = p.freePtr - (p.slots rid.slotNo).length ∧
    res.page.numOfSlots =
      (if rid.slotNo = p.numOfSlots then p.numOfSlots - 1 else p.numOfSlots) ∧
    res.page.freeSpace =
      (if rid.slotNo = p.numOfSlots
        then p.freeSpace + (p.slots rid.slotNo).length + P.sizeofSlot
        else p.freeSpace + (p.slots rid.slotNo).length) ∧
    (res.page.slots rid.slotNo).length = -1 ∧
    (∀ k, k ≠ rid.slotNo → (res.page.slots k).length = (p.slots k).length) := by
  by_cases hv : ValidRid p rid
  · rw [deleteRecord_valid P fuel p rid hv] at h
    cases hq : compactLoop fuel p rid.slotNo (p.slots rid.slotNo).offset 0 rid with
    | none => rw [hq] at h; cases h
    | some q =>
      rw [hq] at h
      simp only [Option.map_some', Option.some.injEq] at h
      subst h
      obtain ⟨q1, q2, q3, q4, _, _, q7⟩ := compactLoop_header _ _ _ _ _ _ _ hq
      refine ⟨hv, q2, ?_, ?_, ?_, ?_, fun k hk => ?_⟩
      · dsimp only
        rw [q3, q7]
      · dsimp only
        rw [q1]
      · dsimp only
        rw [q1, q4, q7]
      · simp [setSlot, SetSlotEmpty, INVALID_SLOT]
      · dsimp only
        simp only [setSlot, if_neg hk]
        exact q7 k
  · rw [deleteRecord_invalid P fuel p rid hv] at h
    cases h
    cases hOK

/-- C19 (use after delete is rejected): from any page state, once `DeleteRecord(rid)`
has returned `OK`, an immediate `DeleteRecord(rid)`, `GetRecord(rid)`,
`ReturnRecord(rid)` or `NextRecord(rid)` returns `FAIL` and hands the page back
unchanged, whether the directory was trimmed or the slot was marked unoccupied. -/
theorem use_after_delete (P : Params) (fuel : Nat) (p : HeapPage) (rid : RecordID)
    (res : DeleteResult) (h : DeleteRecord P fuel p rid = some res)
    (hOK : res.status = Status.OK) :
    (∀ fuel', DeleteRecord P fuel' res.page rid = some ⟨Status.FAIL, res.page⟩) ∧
    (∀ recPtr len, GetRecord res.page rid recPtr len = ⟨Status.FAIL, res.page, recPtr, len⟩) ∧
    (∀ recPtr len,
      ReturnRecord res.page rid recPtr len = ⟨Status.FAIL, res.page, recPtr, len⟩) ∧
    (∀ nextRid, NextRecord res.page rid nextRid = ⟨Status.FAIL, res.page, nextRid⟩) := by
  obtain ⟨_, _, _, _, _, hemp, _⟩ := deleteRecord_ok P fuel p rid res h hOK
  have hinv : ¬ ValidRid res.page rid := by
    rintro ⟨_, _, _, h4⟩
    rw [slotIsEmpty_false_iff] at h4
    exact h4 hemp
  exact ⟨fun fuel' => deleteRecord_invalid P fuel' res.page rid hinv,
    fun recPtr len => getRecord_invalid res.page rid recPtr len hinv,
    fun recPtr len => returnRecord_invalid res.page rid recPtr len hinv,
    fun nextRid => nextRecord_invalid res.page rid nextRid hinv⟩


/-- The deletion of slot 2 from the page with three records returns `OK` and gives
`pageAC`. -/
theorem delete_pageABC : DeleteRecord sampleParams 4 pageABC ⟨7, 2⟩ =
    some ⟨Status.OK, pageAC⟩ := rfl

/-- C19 witness: after slot 2 was deleted, `GetRecord` of slot 2 fails. -/
theorem use_after_delete_witness :
    GetRecord pageAC ⟨7, 2⟩ sampleBuf 10 = ⟨Status.FAIL, pageAC, sampleBuf, 10⟩ :=
  (use_after_delete sampleParams 4 pageABC ⟨7, 2⟩ ⟨Status.OK, pageAC⟩
    delete_pageABC rfl).2.1 sampleBuf 10

/-! ## C12: `IsEmpty` -/

theorem pageEmptied_reachable : Reachable sampleParams 1 pageEmptied := by
  have hAB : Reachable sampleParams 1 pageAB := by
    unfold pageAB pageA page0
    refine Reachable.insert _ _ _ _ (Reachable.insert _ _ _ _
      (Reachable.init rawPage 7) ?_ ?_) ?_ ?_ <;> decide
  have hB : Reachable sampleParams 1 pageB := by
    unfold pageB
    cases h : DeleteRecord sampleParams 3 pageAB ⟨7, 1⟩ with
    | none => exact hAB
    | some res => exact Reachable.delete _ _ _ _ hAB h
  unfold pageEmptied
  cases h : DeleteRecord sampleParams 3 pageB ⟨7, 2⟩ with
  | none => exact hB
  | some res => exact Reachable.delete _ _ _ _ hB h

/-- C12 (failing input): after `Init(7)`, insertions of a 3 byte and a 2 byte record
(slots 1 and 2), `DeleteRecord` of slot 1 and then of slot 2, both returning `OK`, the
page holds no record: `GetNumOfRecords()` is 0 and the one slot left in the directory
is unoccupied.  Yet `numOfSlots` is 1, so `IsEmpty()` returns false. -/
theorem isEmpty_false_on_empty_page :
    Reachable sampleParams 1 pageEmptied ∧
    DeleteRecord sampleParams 3 pageAB ⟨7, 1⟩ = some ⟨Status.OK, pageB⟩ ∧
    DeleteRecord sampleParams 3 pageB ⟨7, 2⟩ = some ⟨Status.OK, pageEmptied⟩ ∧
    GetNumOfRecords pageEmptied = 0 ∧
    pageEmptied.numOfSlots = 1 ∧
    SlotIsEmpty (pageEmptied.slots 1) = true ∧
    IsEmpty pageEmptied = false :=
  ⟨pageEmptied_reachable, rfl, rfl, by decide, by decide, by decide, by decide⟩


/-! ## C13: `AvailableSpace` -/

/-- `AvailableSpace` is `max (freeSpace - sizeof(Slot)) 0` whenever the difference is
an `int`: the conversions to `size_t` and back do not lose it. -/
theorem availableSpace_of_int (P : Params) (p : HeapPage)
    (h0 : -2147483648 ≤ p.freeSpace - P.sizeofSlot)
    (h1 : p.freeSpace - P.sizeofSlot ≤ 2147483647) :
    AvailableSpace P p = max (p.freeSpace - P.sizeofSlot) 0 := by
  unfold AvailableSpace toSizeT toInt
  omega

/-- C13 (`AvailableSpace` is a safe lower bound): `AvailableSpace()` equals
`max(freeSpace - sizeof(Slot), 0)` (on every page where that difference is an `int`,
so on every reachable page), and on every page reached from `Init` by `InsertRecord`
and `DeleteRecord` calls an `InsertRecord` of a record of length `n` with
`1 ≤ n ≤ AvailableSpace()` returns `OK`, whether or not an unoccupied slot exists. -/
theorem availableSpace_safe (P : Params) (hP : P.valid) (p : HeapPage)
    (h : Reachable P 0 p) :
    (∀ q : HeapPage, -2147483648 ≤ q.freeSpace - P.sizeofSlot →
      q.freeSpace - P.sizeofSlot ≤ 2147483647 →
      AvailableSpace P q = max (q.freeSpace - P.sizeofSlot) 0) ∧
    AvailableSpace P p = max (p.freeSpace - P.sizeofSlot) 0 ∧
    ∀ recPtr n rid, 1 ≤ n → n ≤ AvailableSpace P p →
      (InsertRecord P p recPtr n rid).status = Status.OK := by
  have hcnt := reachable_counters P hP p h
  have hav := availableSpace_eq P hP p hcnt
  obtain ⟨_, hb⟩ := counters_bounds P p hcnt
  obtain ⟨_, _, _, hfs, _⟩ := hcnt
  have hP' := hP
  obtain ⟨hP1, hP2⟩ := hP'
  unfold INT_MAX at hP1 hP2
  refine ⟨fun q h0 h1 => availableSpace_of_int P q h0 h1, hav, fun recPtr n rid hn1 hn2 => ?_⟩
  rw [hav] at hn2
  rw [insertRecord_ok_iff, toSizeT_eq _ hfs (by omega)]
  cases (slotNumbers p).find? (fun k => SlotIsEmpty (p.slots k)) with
  | none =>
    simp only [Option.isSome_none, Bool.false_eq_true, if_false]
    rw [toSizeT_eq _ (by omega) (by omega)]
    omega
  | some k =>
    simp only [Option.isSome_some, if_true, add_zero]
    rw [toSizeT_eq _ (by omega) (by omega)]
    omega

/-- C13 witness: on the page with slot 2 unoccupied `AvailableSpace()` is 77, and a
record of 77 bytes is inserted. -/
theorem availableSpace_safe_witness :
    AvailableSpace sampleParams pageAC = 77 ∧
    (InsertRecord sampleParams pageAC sampleRec 77 ⟨0, 0⟩).status = Status.OK :=
  ⟨by decide,
   (availableSpace_safe sampleParams (by decide) pageAC
      (pageAC_reachable 0 (by decide))).2.2 sampleRec 77 ⟨0, 0⟩ (by decide) (by decide)⟩

/-! ## C20: the data region and the slot directory -/

/-- C20 (data region and slot directory never collide): on every page reached from
`Init` by `InsertRecord` calls with records of non-negative length and by
`DeleteRecord` calls, `freeSpace ≥ 0` and
`freePtr + numOfSlots * sizeof(Slot) ≤ HEAPPAGE_DATA_SIZE`; and when `InsertRecord`
writes a record (returns `OK`), every byte offset it writes, `freePtr ≤ x <
freePtr + length`, lies below the directory entry of every slot of the page
afterwards, the new one included. -/
theorem no_collision (P : Params) (hP : P.valid) (p : HeapPage) (h : Reachable P 0 p) :
    0 ≤ p.freeSpace ∧ 0 ≤ p.freePtr ∧
    p.freePtr + p.numOfSlots * P.sizeofSlot ≤ P.HEAPPAGE_DATA_SIZE ∧
    ∀ recPtr length rid, 0 ≤ length → length ≤ INT_MAX →
      (InsertRecord P p recPtr length rid).status = Status.OK →
      ∀ x, p.freePtr ≤ x → x < p.freePtr + length →
        ∀ j, 1 ≤ j → j ≤ (InsertRecord P p recPtr length rid).page.numOfSlots →
          x < slotEntryOffset P j := by
  have hcnt := reachable_counters P hP p h
  obtain ⟨hfp0, _⟩ := counters_bounds P p hcnt
  refine ⟨hcnt.2.2.2.1, hfp0, ?_, ?_⟩
  · have := hcnt.2.2.2.1
    have := hcnt.2.2.2.2
    omega
  · intro recPtr length rid hl0 hl1 hs x hx0 hx1 j hj1 hj2
    have hcnt' := reachable_counters P hP _ (Reachable.insert p recPtr length rid h hl0 hl1)
    have h1 := hcnt'.2.2.2.1
    have h2 := hcnt'.2.2.2.2
    have hfp : (InsertRecord P p recPtr length rid).page.freePtr = p.freePtr + length := by
      rcases insertRecord_cases P p recPtr length rid with hr | ⟨k, _, hr⟩ | ⟨_, hr⟩
      · rw [hr] at hs; cases hs
      · rw [hr]
      · rw [hr]
    rw [hfp] at h2
    have hmul : j * (P.sizeofSlot : Int) ≤
        (InsertRecord P p recPtr length rid).page.numOfSlots * (P.sizeofSlot : Int) :=
      mul_le_mul_of_nonneg_right hj2 (by omega)
    unfold slotEntryOffset
    omega

/-- C20 witness: on the page with three records (`freePtr = 9`), a further 4 byte
record is written at offsets 9..12; offset 12 lies below the directory entry of the
new slot 4, which starts at offset 84. -/
theorem no_collision_witness : (12 : Int) < slotEntryOffset sampleParams 4 :=
  (no_collision sampleParams (by decide) pageABC (pageABC_reachable 0 (by decide))).2.2.2
    sampleRec 4 ⟨0, 0⟩ (by decide) (by decide) (by decide) 12 (by decide) (by decide)
    4 (by decide) (by decide)


/-! ## C16: when `InsertRecord` inserts -/

/-- The first hit of a search through `1, 2, ..., m` is the lowest number that
satisfies the test. -/
theorem find?_oneTo (f : Int → Bool) (m : Nat) :
    ∀ k, (List.map (fun i : Nat => (i : Int) + 1) (List.range m)).find? f = some k →
      f k = true ∧ 1 ≤ k ∧ k ≤ m ∧ ∀ j, 1 ≤ j → j < k → f j = false := by
  induction m with
  | zero => intro k hk; simp at hk
  | succ m ih =>
    intro k hk
    rw [List.range_succ, List.map_append, List.find?_append] at hk
    cases hA : (List.map (fun i : Nat => (i : Int) + 1) (List.range m)).find? f with
    | some k' =>
      rw [hA] at hk
      simp only [Option.or_some, Option.some.injEq] at hk
      subst hk
      obtain ⟨h1, h2, h3, h4⟩ := ih k' hA
      exact ⟨h1, h2, by push_cast; omega, h4⟩
    | none =>
      rw [hA] at hk
      simp only [Option.none_or, List.map_cons, List.map_nil, List.find?_cons] at hk
      rw [List.find?_eq_none] at hA
      cases hf : f ((m : Int) + 1) with
      | false => rw [hf] at hk; simp at hk
      | true =>
        rw [hf] at hk
        simp only [Option.some.injEq] at hk
        subst hk
        refine ⟨hf, by omega, by push_cast; omega, fun j j1 j2 => ?_⟩
        have hj : j ∈ List.map (fun i : Nat => (i : Int) + 1) (List.range m) := by
          simp only [List.mem_map, List.mem_range]
          exact ⟨(j - 1).toNat, by omega, by omega⟩
        simpa using hA j hj

/-- The slot that the first loop of `InsertRecord` finds is the lowest-numbered
unoccupied slot among `1..numOfSlots`. -/
theorem find_empty_lowest (p : HeapPage) (k : Int)
    (h : (slotNumbers p).find? (fun k => SlotIsEmpty (p.slots k)) = some k) :
    1 ≤ k ∧ k ≤ p.numOfSlots ∧ SlotIsEmpty (p.slots k) = true ∧
      ∀ j, 1 ≤ j → j < k → SlotIsEmpty (p.slots j) = false := by
  obtain ⟨h1, h2, h3, h4⟩ := find?_oneTo (fun k => SlotIsEmpty (p.slots k)) _ k h
  exact ⟨h2, by omega, h1, h4⟩

/-- The first loop of `InsertRecord` finds nothing exactly when no slot among
`1..numOfSlots` is unoccupied. -/
theorem find_empty_none (p : HeapPage) :
    (slotNumbers p).find? (fun k => SlotIsEmpty (p.slots k)) = none ↔
      ∀ j, 1 ≤ j → j ≤ p.numOfSlots → SlotIsEmpty (p.slots j) = false := by
  rw [List.find?_eq_none]
  constructor
  · intro h j j1 j2
    simpa using h j ((mem_slotNumbers p j).mpr ⟨j1, j2⟩)
  · intro h j hj
    have := (mem_slotNumbers p j).mp hj
    simp [h j this.1 this.2]

/-- C16 (insert fails exactly on lack of space, amended): on every page state whose
`freeSpace` is a non-negative `int`, for every record of `int` length `n ≥ 0`,
`InsertRecord` returns `DONE` if and only if `freeSpace < n + k`, where `k = 0` when
some slot among `1..numOfSlots` is unoccupied and `k = sizeof(Slot)` when none is; in
every other case it returns `OK`. -/
theorem insert_done_iff (P : Params) (hP : P.valid) (p : HeapPage)
    (hfs0 : 0 ≤ p.freeSpace) (hfs1 : p.freeSpace ≤ INT_MAX)
    (recPtr : Int → Byte) (n : Int) (rid : RecordID) (hn0 : 0 ≤ n) (hn1 : n ≤ INT_MAX) :
    ((∃ j, 1 ≤ j ∧ j ≤ p.numOfSlots ∧ SlotIsEmpty (p.slots j) = true) →
      ((InsertRecord P p recPtr n rid).status = Status.DONE ↔ p.freeSpace < n) ∧
      (¬ p.freeSpace < n → (InsertRecord P p recPtr n rid).status = Status.OK)) ∧
    ((¬ ∃ j, 1 ≤ j ∧ j ≤ p.numOfSlots ∧ SlotIsEmpty (p.slots j) = true) →
      ((InsertRecord P p recPtr n rid).status = Status.DONE ↔
        p.freeSpace < n + P.sizeofSlot) ∧
      (¬ p.freeSpace < n + P.sizeofSlot →
        (InsertRecord P p recPtr n rid).status = Status.OK)) := by
  obtain ⟨hP1, hP2⟩ := hP
  unfold INT_MAX at *
  have hok := insertRecord_ok_iff P p recPtr n rid
  have hdone : (InsertRecord P p recPtr n rid).status = Status.DONE ↔
      ¬ (InsertRecord P p recPtr n rid).status = Status.OK := by
    rcases insertRecord_cases P p recPtr n rid with h | ⟨k, _, h⟩ | ⟨_, h⟩ <;> rw [h] <;> simp
  rw [toSizeT_eq _ hfs0 (by omega)] at hok
  constructor
  · rintro ⟨j, j1, j2, j3⟩
    have hsome : ((slotNumbers p).find? (fun k => SlotIsEmpty (p.slots k))).isSome = true := by
      rw [List.find?_isSome]
      exact ⟨j, (mem_slotNumbers p j).mpr ⟨j1, j2⟩, j3⟩
    rw [hsome] at hok
    simp only [if_true, add_zero] at hok
    rw [toSizeT_eq _ hn0 (by omega)] at hok
    refine ⟨?_, fun h => hok.mpr h⟩
    rw [hdone, hok, not_not]
  · intro hno
    have hnone : ((slotNumbers p).find? (fun k => SlotIsEmpty (p.slots k))).isSome = false := by
      rw [Bool.eq_false_iff, Ne, List.find?_isSome]
      rintro ⟨j, hj, hj3⟩
      have := (mem_slotNumbers p j).mp hj
      exact hno ⟨j, this.1, this.2, hj3⟩
    rw [hnone] at hok
    simp only [Bool.false_eq_true, if_false] at hok
    rw [toSizeT_eq _ (by omega) (by omega)] at hok
    refine ⟨?_, fun h => hok.mpr h⟩
    rw [hdone, hok, not_not]

/-- C16 witness: on the page with three records, no slot unoccupied and
`freeSpace = 79`, a record of 76 bytes is refused (`79 < 76 + 4`). -/
theorem insert_done_iff_witness :
    (InsertRecord sampleParams pageABC sampleRec 76 ⟨0, 0⟩).status = Status.DONE ↔
      pageABC.freeSpace < 76 + (sampleParams.sizeofSlot : Int) :=
  ((insert_done_iff sampleParams (by decide) pageABC (by decide) (by decide)
    sampleRec 76 ⟨0, 0⟩ (by decide) (by decide)).2 (by
      rintro ⟨j, j1, j2, j3⟩
      have h3 : pageABC.numOfSlots = 3 := by decide
      rw [h3] at j2
      have : j = 1 ∨ j = 2 ∨ j = 3 := by omega
      rcases this with rfl | rfl | rfl <;> revert j3 <;> decide)).1

/-- C16 counterexample: a page state with `numOfSlots = 0` (no slot unoccupied) and
`freeSpace = -1`, and a record of length 1.  `freeSpace < 1 + sizeof(Slot)` holds, yet
`InsertRecord` returns `OK`: the test `freeSpace < length + sizeof(Slot)` is made in
`size_t`, where `-1` is the largest value. -/
theorem insert_done_iff_counterexample :
    pageNeg.numOfSlots = 0 ∧ pageNeg.freeSpace = -1 ∧
    pageNeg.freeSpace < 1 + (sampleParams.sizeofSlot : Int) ∧
    (InsertRecord sampleParams pageNeg sampleRec 1 ⟨0, 0⟩).status = Status.OK :=
  ⟨by decide, by decide, by decide, by decide⟩


/-! ## C18: the record count -/

/-- `GetNumOfRecords` adds up the occupied slots among `1..numOfSlots`. -/
theorem getNumOfRecords_eq_sumTo (p : HeapPage) :
    GetNumOfRecords p = sumTo (fun k => slotCount (p.slots k)) p.numOfSlots.toNat := by
  unfold GetNumOfRecords slotNumbers
  generalize p.numOfSlots.toNat = m
  induction m with
  | zero => simp [sumTo]
  | succ m ih =>
    rw [List.range_succ, List.map_append, List.countP_append]
    simp only [List.map_cons, List.map_nil, List.countP_singleton, sumTo]
    push_cast
    rw [ih]
    congr 1
    unfold slotCount
    cases SlotIsEmpty (p.slots ((m : Int) + 1)) <;> simp

/-- The slot numbers visited by the loops are `1..numOfSlots`, each once. -/
theorem slotNumbers_nodup (p : HeapPage) : (slotNumbers p).Nodup := by
  unfold slotNumbers
  apply List.Nodup.map _ (List.nodup_range _)
  intro a b hab
  simp only [add_left_inj, Nat.cast_inj] at hab
  exact hab

/-- `GetNumOfRecords` is the number of occupied slots among `1..numOfSlots`. -/
theorem getNumOfRecords_eq_card (p : HeapPage) :
    GetNumOfRecords p =
      (((Finset.Icc 1 p.numOfSlots).filter
        (fun k => SlotIsEmpty (p.slots k) = false)).card : Int) := by
  have hfin : (slotNumbers p).toFinset = Finset.Icc 1 p.numOfSlots := by
    ext k
    rw [List.mem_toFinset, mem_slotNumbers, Finset.mem_Icc]
  unfold GetNumOfRecords
  rw [List.countP_eq_length_filter,
    ← List.toFinset_card_of_nodup ((slotNumbers_nodup p).filter _), List.toFinset_filter, hfin]
  congr 2
  ext k
  simp

/-- The directory never has a negative number of entries on a reachable page. -/
theorem reachable_numOfSlots_nonneg (P : Params) (m : Int) (p : HeapPage)
    (h : Reachable P m p) : 0 ≤ p.numOfSlots := by
  induction h with
  | init p0 pageNo => simp [Init]
  | insert p recPtr length rid _ _ _ ih =>
    rcases insertRecord_cases P p recPtr length rid with h | ⟨k, _, h⟩ | ⟨_, h⟩
    · rw [h]; exact ih
    · rw [h]; exact ih
    · rw [h]
      dsimp only
      omega
  | delete p fuel rid res _ hd ih =>
    by_cases hok : res.status = Status.OK
    · obtain ⟨hv, _, _, hn, _⟩ := deleteRecord_ok P fuel p rid res hd hok
      rw [hn]
      have := hv.2.1
      have := hv.2.2.1
      split <;> omega
    · by_cases hv : ValidRid p rid
      · exfalso
        rw [deleteRecord_valid P fuel p rid hv] at hd
        cases hq : compactLoop fuel p rid.slotNo (p.slots rid.slotNo).offset 0 rid with
        | none => rw [hq] at hd; cases hd
        | some q =>
          rw [hq] at hd
          simp only [Option.map_some', Option.some.injEq] at hd
          subst hd
          exact hok rfl
      · rw [deleteRecord_invalid P fuel p rid hv] at hd
        cases hd
        exact ih

/-- An `InsertRecord` that returns `OK` adds one to the record count. -/
theorem insertRecord_count (P : Params) (p : HeapPage) (recPtr : Int → Byte) (length : Int)
    (rid : RecordID) (hn : 0 ≤ p.numOfSlots) (hlen : 0 ≤ length)
    (hOK : (InsertRecord P p recPtr length rid).status = Status.OK) :
    GetNumOfRecords (InsertRecord P p recPtr length rid).page = GetNumOfRecords p + 1 := by
  rw [getNumOfRecords_eq_sumTo, getNumOfRecords_eq_sumTo]
  have hnew : ∀ s : Int, slotCount (setSlot p.slots s ⟨p.freePtr, length⟩ s) = 1 := by
    intro s
    simp only [setSlot, if_true, slotCount, SlotIsEmpty, INVALID_SLOT]
    rw [if_neg (by simp; omega)]
  rcases insertRecord_cases P p recPtr length rid with h | ⟨k, hk, h⟩ | ⟨_, h⟩
  · rw [h] at hOK
    cases hOK
  · rw [h]
    obtain ⟨k1, k2, k3, _⟩ := find_empty_lowest p k hk
    dsimp only
    rw [sumTo_update (fun j => slotCount (p.slots j)) _ k p.numOfSlots.toNat k1 (by omega)
      (fun j hj => by simp [setSlot, hj])]
    have e1 : slotCount (p.slots k) = 0 := by simp [slotCount, k3]
    rw [hnew, e1]
    omega
  · rw [h]
    dsimp only
    have hn1 : (p.numOfSlots + 1).toNat = p.numOfSlots.toNat + 1 := by omega
    rw [hn1]
    simp only [sumTo]
    rw [sumTo_congr _ (fun j => slotCount (p.slots j)) p.numOfSlots.toNat
      (fun j j1 j2 => by
        have : j ≠ p.numOfSlots + 1 := by omega
        simp [setSlot, this])]
    have e0 : ((p.numOfSlots.toNat : Int) + 1) = p.numOfSlots + 1 := by omega
    rw [e0, hnew]

/-- A `DeleteRecord` that returns `OK` takes one from the record count. -/
theorem deleteRecord_count (P : Params) (fuel : Nat) (p : HeapPage) (rid : RecordID)
    (res : DeleteResult) (h : DeleteRecord P fuel p rid = some res)
    (hOK : res.status = Status.OK) :
    GetNumOfRecords res.page = GetNumOfRecords p - 1 := by
  obtain ⟨⟨_, v1, v2, v3⟩, _, _, hn, _, hemp, hothers⟩ := deleteRecord_ok P fuel p rid res h hOK
  rw [getNumOfRecords_eq_sumTo, getNumOfRecords_eq_sumTo]
  have hsame : ∀ k, k ≠ rid.slotNo →
      slotCount (res.page.slots k) = slotCount (p.slots k) := by
    intro k hk
    simp only [slotCount, SlotIsEmpty, hothers k hk]
  have hd0 : slotCount (res.page.slots rid.slotNo) = 0 := by
    simp [slotCount, SlotIsEmpty, INVALID_SLOT, hemp]
  have hd1 : slotCount (p.slots rid.slotNo) = 1 := by
    simp [slotCount, v3]
  rw [hn]
  by_cases hlast : rid.slotNo = p.numOfSlots
  · rw [if_pos hlast]
    have e1 : p.numOfSlots.toNat = (p.numOfSlots - 1).toNat + 1 := by omega
    have e2 : (((p.numOfSlots - 1).toNat : Int) + 1) = rid.slotNo := by omega
    rw [sumTo_congr _ (fun k => slotCount (p.slots k)) (p.numOfSlots - 1).toNat
      (fun k k1 k2 => hsame k (by omega))]
    rw [e1]
    simp only [sumTo]
    rw [e2, hd1]
    omega
  · rw [if_neg hlast]
    rw [sumTo_update (fun k => slotCount (p.slots k)) _ rid.slotNo p.numOfSlots.toNat
      v1 (by omega) hsame]
    rw [hd0, hd1]
    omega

/-- Forgetting the count of a counted reachable page. -/
theorem reachableCount_reachable (P : Params) (p : HeapPage) (c : Int)
    (h : ReachableCount P p c) : Reachable P 0 p := by
  induction h with
  | init p0 pageNo => exact Reachable.init p0 pageNo
  | insert p c recPtr length rid _ h0 h1 ih => exact Reachable.insert p recPtr length rid ih h0 h1
  | delete p c fuel rid res _ hd ih => exact Reachable.delete p fuel rid res ih hd

/-- C18 (record count tracks inserts and deletes): on every page reached from `Init`
by `InsertRecord` and `DeleteRecord` calls, `GetNumOfRecords()` equals the number of
occupied slots among `1..numOfSlots`; it grows by exactly 1 on an `InsertRecord` that
returns `OK`, shrinks by exactly 1 on a `DeleteRecord` that returns `OK`, and is
unchanged by a call that fails; hence it equals `c`, the number of records inserted
and not yet deleted. -/
theorem record_count (P : Params) (p : HeapPage) (c : Int) (h : ReachableCount P p c) :
    GetNumOfRecords p = c ∧
    GetNumOfRecords p =
      (((Finset.Icc 1 p.numOfSlots).filter
        (fun k => SlotIsEmpty (p.slots k) = false)).card : Int) ∧
    (∀ recPtr length rid, 0 ≤ length →
      ((InsertRecord P p recPtr length rid).status = Status.OK →
        GetNumOfRecords (InsertRecord P p recPtr length rid).page = GetNumOfRecords p + 1) ∧
      ((InsertRecord P p recPtr length rid).status = Status.DONE →
        GetNumOfRecords (InsertRecord P p recPtr length rid).page = GetNumOfRecords p)) ∧
    (∀ fuel rid res, DeleteRecord P fuel p rid = some res →
      (res.status = Status.OK → GetNumOfRecords res.page = GetNumOfRecords p - 1) ∧
      (res.status = Status.FAIL → GetNumOfRecords res.page = GetNumOfRecords p)) := by
  have hstep : ∀ q : HeapPage, 0 ≤ q.numOfSlots →
      (∀ recPtr length rid, 0 ≤ length →
        ((InsertRecord P q recPtr length rid).status = Status.OK →
          GetNumOfRecords (InsertRecord P q recPtr length rid).page = GetNumOfRecords q + 1) ∧
        ((InsertRecord P q recPtr length rid).status = Status.DONE →
          GetNumOfRecords (InsertRecord P q recPtr length rid).page = GetNumOfRecords q)) ∧
      (∀ fuel rid res, DeleteRecord P fuel q rid = some res →
        (res.status = Status.OK → GetNumOfRecords res.page = GetNumOfRecords q - 1) ∧
        (res.status = Status.FAIL → GetNumOfRecords res.page = GetNumOfRecords q)) := by
    intro q hq
    refine ⟨fun recPtr length rid hlen => ⟨fun hs => ?_, fun hs => ?_⟩,
      fun fuel rid res hd => ⟨fun hs => ?_, fun hs => ?_⟩⟩
    · exact insertRecord_count P q recPtr length rid hq hlen hs
    · rcases insertRecord_cases P q recPtr length rid with h | ⟨k, _, h⟩ | ⟨_, h⟩
      · rw [h]
      · rw [h] at hs; cases hs
      · rw [h] at hs; cases hs
    · exact deleteRecord_count P fuel q rid res hd hs
    · by_cases hv : ValidRid q rid
      · exfalso
        rw [deleteRecord_valid P fuel q rid hv] at hd
        cases hq : compactLoop fuel q rid.slotNo (q.slots rid.slotNo).offset 0 rid with
        | none => rw [hq] at hd; cases hd
        | some q' =>
          rw [hq] at hd
          simp only [Option.map_some', Option.some.injEq] at hd
          subst hd
          cases hs
      · rw [deleteRecord_invalid P fuel q rid hv] at hd
        cases hd
        rfl
  have hnn := reachable_numOfSlots_nonneg P 0 p (reachableCount_reachable P p c h)
  refine ⟨?_, getNumOfRecords_eq_card p, (hstep p hnn).1, (hstep p hnn).2⟩
  clear hnn
  induction h with
  | init p0 pageNo => simp [GetNumOfRecords, slotNumbers, Init]
  | insert p c recPtr length rid hp h0 h1 ih =>
    have hnn := reachable_numOfSlots_nonneg P 0 p (reachableCount_reachable P p c hp)
    obtain ⟨hi, _⟩ := hstep p hnn
    by_cases hs : (InsertRecord P p recPtr length rid).status = Status.OK
    · rw [if_pos hs, (hi recPtr length rid h0).1 hs, ih]
    · rw [if_neg hs]
      rcases insertRecord_cases P p recPtr length rid with h | ⟨k, _, h⟩ | ⟨_, h⟩
      · rw [h]
        exact ih
      · rw [h] at hs; exact absurd rfl hs
      · rw [h] at hs; exact absurd rfl hs
  | delete p c fuel rid res hp hd ih =>
    have hnn := reachable_numOfSlots_nonneg P 0 p (reachableCount_reachable P p c hp)
    obtain ⟨_, hdel⟩ := hstep p hnn
    by_cases hs : res.status = Status.OK
    · rw [if_pos hs, (hdel fuel rid res hd).1 hs, ih]
    · rw [if_neg hs]
      have hfail : res.status = Status.FAIL := by
        by_cases hv : ValidRid p rid
        · exfalso
          rw [deleteRecord_valid P fuel p rid hv] at hd
          cases hq : compactLoop fuel p rid.slotNo (p.slots rid.slotNo).offset 0 rid with
          | none => rw [hq] at hd; cases hd
          | some q' =>
            rw [hq] at hd
            simp only [Option.map_some', Option.some.injEq] at hd
            subst hd
            exact hs rfl
        · rw [deleteRecord_invalid P fuel p rid hv] at hd
          cases hd
          rfl
      rw [(hdel fuel rid res hd).2 hfail, ih]


/-! ## C11: the concrete scenario -/

/-- `InsertRecord` on a page without unoccupied slot, when the record and a new
directory entry fit: slot `numOfSlots + 1` is appended. -/
theorem insertRecord_append (P : Params) (hP : P.valid) (p : HeapPage)
    (recPtr : Int → Byte) (length : Int) (rid : RecordID)
    (hocc : ∀ j, 1 ≤ j → j ≤ p.numOfSlots → SlotIsEmpty (p.slots j) = false)
    (hfs : p.freeSpace ≤ INT_MAX) (hl0 : 0 ≤ length) (hl1 : length ≤ INT_MAX)
    (hfit : length + P.sizeofSlot ≤ p.freeSpace) :
    InsertRecord P p recPtr length rid =
      ⟨Status.OK,
        { p with
          numOfSlots := p.numOfSlots + 1
          slots := setSlot p.slots (p.numOfSlots + 1) ⟨p.freePtr, length⟩
          data := memcpy p.data p.freePtr recPtr 0 length
          freePtr := p.freePtr + length
          freeSpace := p.freeSpace - P.sizeofSlot - length },
        ⟨p.pid, p.numOfSlots + 1⟩⟩ := by
  obtain ⟨hP1, hP2⟩ := hP
  unfold INT_MAX at *
  have hnone := (find_empty_none p).mpr hocc
  have hok := insertRecord_ok_iff P p recPtr length rid
  rw [hnone] at hok
  simp only [Option.isSome_none, Bool.false_eq_true, if_false] at hok
  rw [toSizeT_eq _ (by omega) (by omega), toSizeT_eq _ (by omega) (by omega)] at hok
  rcases insertRecord_cases P p recPtr length rid with h | ⟨k, hk, _⟩ | ⟨_, h⟩
  · exfalso
    have := hok.mpr (by omega)
    rw [h] at this
    cases this
  · rw [hnone] at hk
    cases hk
  · exact h

/-- `InsertRecord` on a page whose lowest unoccupied slot is `k`, when the record
fits: slot `k` is refilled. -/
theorem insertRecord_reuse (P : Params) (p : HeapPage)
    (recPtr : Int → Byte) (length : Int) (rid : RecordID) (k : Int)
    (hk1 : 1 ≤ k) (hk2 : k ≤ p.numOfSlots) (hk3 : SlotIsEmpty (p.slots k) = true)
    (hk4 : ∀ j, 1 ≤ j → j < k → SlotIsEmpty (p.slots j) = false)
    (hfs : p.freeSpace ≤ INT_MAX) (hl0 : 0 ≤ length) (hfit : length ≤ p.freeSpace) :
    InsertRecord P p recPtr length rid =
      ⟨Status.OK,
        { p with
          slots := setSlot p.slots k ⟨p.freePtr, length⟩
          data := memcpy p.data p.freePtr recPtr 0 length
          freePtr := p.freePtr + length
          freeSpace := p.freeSpace - length },
        ⟨p.pid, k⟩⟩ := by
  unfold INT_MAX at *
  have hok := insertRecord_ok_iff P p recPtr length rid
  rcases insertRecord_cases P p recPtr length rid with h | ⟨k', hk', h⟩ | ⟨hnone, _⟩
  · exfalso
    have hsome : ((slotNumbers p).find? (fun k => SlotIsEmpty (p.slots k))).isSome = true := by
      rw [List.find?_isSome]
      exact ⟨k, (mem_slotNumbers p k).mpr ⟨hk1, hk2⟩, hk3⟩
    rw [hsome] at hok
    simp only [if_true, add_zero] at hok
    rw [toSizeT_eq _ (by omega) (by omega), toSizeT_eq _ (by omega) (by omega)] at hok
    have := hok.mpr (by omega)
    rw [h] at this
    cases this
  · obtain ⟨a1, a2, a3, a4⟩ := find_empty_lowest p k' hk'
    have : k' = k := by
      by_contra hne
      rcases lt_or_gt_of_ne hne with hlt | hgt
      · have := hk4 k' a1 hlt
        rw [a3] at this
        cases this
      · have := a4 k hk1 hgt
        rw [hk3] at this
        cases this
    rw [h, this]
  · exfalso
    have := (find_empty_none p).mp hnone k hk1 hk2
    rw [hk3] at this
    cases this

/-- `DeleteRecord` of a valid record whose followers in the data region are the
slots of `rest`, in this order: the call returns `OK`, the followers are moved down by
the deleted length, the other slots stay. -/
theorem deleteRecord_moves (P : Params) (p : HeapPage) (rid : RecordID) (rest : List Int)
    (e : Int) (hv : ValidRid p rid) (hL : 0 ≤ (p.slots rid.slotNo).length)
    (hdnot : rid.slotNo ∉ rest) (hnd : rest.Nodup)
    (hmem : ∀ k ∈ rest, k ∈ slotNumbers p ∧ SlotIsEmpty (p.slots k) = false ∧
      1 ≤ (p.slots k).length)
    (ht : Tiles p.slots rest ((p.slots rid.slotNo).offset + (p.slots rid.slotNo).length) e)
    (hbehind : ∀ k ∈ slotNumbers p, SlotIsEmpty (p.slots k) = false → k ∉ rest →
      (p.slots k).offset < (p.slots rid.slotNo).offset + (p.slots rid.slotNo).length)
    (fuel : Nat) (hf : rest.length < fuel) :
    ∃ res, DeleteRecord P fuel p rid = some res ∧ res.status = Status.OK ∧
      (∀ k, res.page.slots k =
        if k = rid.slotNo then ⟨(p.slots k).offset, -1⟩
        else if k ∈ rest then
          ⟨(p.slots k).offset - (p.slots rid.slotNo).length, (p.slots k).length⟩
        else p.slots k) ∧
      (∀ i, res.page.data i =
        if (p.slots rid.slotNo).offset ≤ i ∧ i < e - (p.slots rid.slotNo).length
        then p.data (i + (p.slots rid.slotNo).length) else p.data i) := by
  obtain ⟨s1, s2⟩ := compactLoop_spec rid.slotNo (p.slots rid.slotNo).offset
    (p.slots rid.slotNo).length hL rest fuel p 0 rid e rfl rfl (le_refl 0) hdnot hnd hmem
    (by rw [add_zero]; exact ht) (by rw [add_zero]; exact hbehind)
  obtain ⟨q, hq⟩ := s1 hf
  obtain ⟨_, _, _, _, q5, q6⟩ := s2 q hq
  have hqd : q.slots rid.slotNo = p.slots rid.slotNo := by
    rw [q5, if_neg hdnot]
  refine ⟨_, by rw [deleteRecord_valid P fuel p rid hv, hq]; rfl, rfl, fun k => ?_, fun i => ?_⟩
  · dsimp only
    simp only [setSlot]
    by_cases hk : k = rid.slotNo
    · rw [if_pos hk, if_pos hk, hqd, hk]
      rfl
    · rw [if_neg hk, if_neg hk, q5]
  · dsimp only
    rw [q6]
    simp only [add_zero]


/-- Scenario, after `"AAA"`: slot 1 at offset 0. -/
theorem scenA_spec (P : Params) (hP : P.valid)
    (hD : 9 + 3 * (P.sizeofSlot : Int) ≤ P.HEAPPAGE_DATA_SIZE) (p0 : HeapPage) (pageNo : Int) :
    (scenA P p0 pageNo).status = Status.OK ∧ (scenA P p0 pageNo).rid = ⟨pageNo, 1⟩ ∧
    (scenA P p0 pageNo).page.pid = pageNo ∧ (scenA P p0 pageNo).page.numOfSlots = 1 ∧
    (scenA P p0 pageNo).page.freePtr = 3 ∧
    (scenA P p0 pageNo).page.freeSpace = (P.HEAPPAGE_DATA_SIZE : Int) - 3 - P.sizeofSlot ∧
    (scenA P p0 pageNo).page.slots 1 = ⟨0, 3⟩ := by
  have hP' := hP
  obtain ⟨hP1, hP2⟩ := hP'
  unfold INT_MAX at hP1 hP2
  have h := insertRecord_append P hP (Init P p0 pageNo) recAAA 3 ⟨0, 0⟩
    (fun j j1 j2 => by simp only [Init] at j2; omega)
    (by simp only [Init, INT_MAX]; omega) (by omega) (by unfold INT_MAX; omega)
    (by simp only [Init]; omega)
  unfold scenA
  rw [h]
  refine ⟨rfl, rfl, rfl, rfl, rfl, ?_, ?_⟩
  · simp only [Init]
    omega
  · simp [Init, setSlot]

/-- Scenario, after `"BB"`: slot 2 at offset 3. -/
theorem scenB_spec (P : Params) (hP : P.valid)
    (hD : 9 + 3 * (P.sizeofSlot : Int) ≤ P.HEAPPAGE_DATA_SIZE) (p0 : HeapPage) (pageNo : Int) :
    (scenB P p0 pageNo).status = Status.OK ∧ (scenB P p0 pageNo).rid = ⟨pageNo, 2⟩ ∧
    (scenB P p0 pageNo).page.pid = pageNo ∧ (scenB P p0 pageNo).page.numOfSlots = 2 ∧
    (scenB P p0 pageNo).page.freePtr = 5 ∧
    (scenB P p0 pageNo).page.freeSpace =
      (P.HEAPPAGE_DATA_SIZE : Int) - 5 - 2 * P.sizeofSlot ∧
    (scenB P p0 pageNo).page.slots 1 = ⟨0, 3⟩ ∧
    (scenB P p0 pageNo).page.slots 2 = ⟨3, 2⟩ := by
  obtain ⟨_, _, a3, a4, a5, a6, a7⟩ := scenA_spec P hP hD p0 pageNo
  have hP' := hP
  obtain ⟨hP1, hP2⟩ := hP'
  unfold INT_MAX at hP1 hP2
  have h := insertRecord_append P hP (scenA P p0 pageNo).page recBB 2 ⟨0, 0⟩
    (fun j j1 j2 => by
      rw [a4] at j2
      have : j = 1 := by omega
      rw [this, a7]
      rfl)
    (by rw [a6]; unfold INT_MAX; omega) (by omega) (by unfold INT_MAX; omega)
    (by rw [a6]; omega)
  unfold scenB
  rw [h]
  dsimp only
  rw [a3, a4, a5, a6]
  refine ⟨rfl, rfl, rfl, rfl, rfl, by omega, ?_, ?_⟩
  · simp [setSlot, a7]
  · simp [setSlot]

/-- Scenario, after `"CCCC"`: slot 3 at offset 5, `freePtr = 9`. -/
theorem scenC_spec (P : Params) (hP : P.valid)
    (hD : 9 + 3 * (P.sizeofSlot : Int) ≤ P.HEAPPAGE_DATA_SIZE) (p0 : HeapPage) (pageNo : Int) :
    (scenC P p0 pageNo).status = Status.OK ∧ (scenC P p0 pageNo).rid = ⟨pageNo, 3⟩ ∧
    (scenC P p0 pageNo).page.pid = pageNo ∧ (scenC P p0 pageNo).page.numOfSlots = 3 ∧
    (scenC P p0 pageNo).page.freePtr = 9 ∧
    (scenC P p0 pageNo).page.freeSpace =
      (P.HEAPPAGE_DATA_SIZE : Int) - 9 - 3 * P.sizeofSlot ∧
    (scenC P p0 pageNo).page.slots 1 = ⟨0, 3⟩ ∧
    (scenC P p0 pageNo).page.slots 2 = ⟨3, 2⟩ ∧
    (scenC P p0 pageNo).page.slots 3 = ⟨5, 4⟩ ∧
    ∀ i, 5 ≤ i → i < 9 → (scenC P p0 pageNo).page.data i = 67 := by
  obtain ⟨_, _, a3, a4, a5, a6, a7, a8⟩ := scenB_spec P hP hD p0 pageNo
  have hP' := hP
  obtain ⟨hP1, hP2⟩ := hP'
  unfold INT_MAX at hP1 hP2
  have h := insertRecord_append P hP (scenB P p0 pageNo).page recCCCC 4 ⟨0, 0⟩
    (fun j j1 j2 => by
      rw [a4] at j2
      have : j = 1 ∨ j = 2 := by omega
      rcases this with rfl | rfl
      · rw [a7]; rfl
      · rw [a8]; rfl)
    (by rw [a6]; unfold INT_MAX; omega) (by omega) (by unfold INT_MAX; omega)
    (by rw [a6]; omega)
  unfold scenC
  rw [h]
  dsimp only
  rw [a3, a4, a5, a6]
  refine ⟨rfl, rfl, rfl, rfl, rfl, by omega, ?_, ?_, ?_, fun i i0 i1 => ?_⟩
  · simp [setSlot, a7]
  · simp [setSlot, a8]
  · simp [setSlot]
  · simp only [memcpy]
    rw [if_pos (by omega)]
    rfl

/-- Scenario, after the deletion of slot 2: `"CCCC"` has moved to offset 3. -/
theorem scenD_spec (P : Params) (hP : P.valid)
    (hD : 9 + 3 * (P.sizeofSlot : Int) ≤ P.HEAPPAGE_DATA_SIZE) (p0 : HeapPage) (pageNo : Int) :
    scenD P p0 pageNo = some ⟨Status.OK, scenDPage P p0 pageNo⟩ ∧
    (scenDPage P p0 pageNo).pid = pageNo ∧ (scenDPage P p0 pageNo).numOfSlots = 3 ∧
    (scenDPage P p0 pageNo).freePtr = 7 ∧
    (scenDPage P p0 pageNo).freeSpace =
      (P.HEAPPAGE_DATA_SIZE : Int) - 7 - 3 * P.sizeofSlot ∧
    (scenDPage P p0 pageNo).slots 1 = ⟨0, 3⟩ ∧
    (scenDPage P p0 pageNo).slots 2 = ⟨3, -1⟩ ∧
    (scenDPage P p0 pageNo).slots 3 = ⟨3, 4⟩ ∧
    ∀ i, 3 ≤ i → i < 7 → (scenDPage P p0 pageNo).data i = 67 := by
  obtain ⟨_, _, a3, a4, a5, a6, a7, a8, a9, a10⟩ := scenC_spec P hP hD p0 pageNo
  have hv : ValidRid (scenC P p0 pageNo).page ⟨pageNo, 2⟩ := by
    refine ⟨a3.symm, by dsimp only; omega, by dsimp only; rw [a4]; omega, ?_⟩
    dsimp only
    rw [a8]
    rfl
  have hsl : ∀ k ∈ slotNumbers (scenC P p0 pageNo).page, k = 1 ∨ k = 2 ∨ k = 3 := by
    intro k hk
    rw [mem_slotNumbers, a4] at hk
    omega
  obtain ⟨res, hres, hs, hslots, hdata⟩ := deleteRecord_moves P (scenC P p0 pageNo).page
    ⟨pageNo, 2⟩ [3] 9 hv (by dsimp only; rw [a8]; decide) (by dsimp only; decide)
    (by decide)
    (by
      intro k hk
      rw [List.mem_singleton] at hk
      subst hk
      refine ⟨(mem_slotNumbers _ _).mpr ⟨by decide, by rw [a4]⟩, ?_, ?_⟩
      · rw [a9]; rfl
      · rw [a9]; decide)
    (by
      dsimp only
      rw [a8]
      simp only [Tiles, a9]
      decide)
    (by
      intro k hk hocc hk3
      dsimp only
      rw [a8]
      rcases hsl k hk with rfl | rfl | rfl
      · rw [a7]; decide
      · rw [a8]; decide
      · exact absurd (List.mem_singleton.mpr rfl) hk3)
    4 (by decide)
  obtain ⟨_, b2, b3, b4, b5, _, _⟩ := deleteRecord_ok P 4 _ _ res hres hs
  dsimp only at b3 b4 b5 hslots hdata
  rw [a8] at b3 b5 hslots hdata
  rw [a4] at b4 b5
  dsimp only at b3 b5 hslots hdata
  have hpage : scenDPage P p0 pageNo = res.page := by
    unfold scenDPage scenD
    rw [hres]
  have hD' : scenD P p0 pageNo = some ⟨Status.OK, scenDPage P p0 pageNo⟩ := by
    rw [hpage]
    unfold scenD
    rw [hres, ← hs]
  rw [hpage]
  refine ⟨by rw [← hpage]; exact hD', by rw [b2, a3], ?_, ?_, ?_, ?_, ?_, ?_, fun i i0 i1 => ?_⟩
  · rw [b4]
    decide
  · rw [b3, a5]
    decide
  · rw [b5, a6]
    simp only [show ¬ ((2 : Int) = 3) by decide, if_false]
    omega
  · rw [hslots 1, a7]
    simp
  · rw [hslots 2, a8]
    simp
  · rw [hslots 3, a9]
    simp
  · rw [hdata i, if_pos (by omega)]
    exact a10 (i + 2) (by omega) (by omega)


/-- Scenario, after `"E"`: it reuses slot 2, at offset 7. -/
theorem scenE_spec (P : Params) (hP : P.valid)
    (hD : 9 + 3 * (P.sizeofSlot : Int) ≤ P.HEAPPAGE_DATA_SIZE) (p0 : HeapPage) (pageNo : Int) :
    (scenE P p0 pageNo).status = Status.OK ∧ (scenE P p0 pageNo).rid = ⟨pageNo, 2⟩ ∧
    (scenE P p0 pageNo).page.pid = pageNo ∧ (scenE P p0 pageNo).page.numOfSlots = 3 ∧
    (scenE P p0 pageNo).page.freePtr = 8 ∧
    (scenE P p0 pageNo).page.freeSpace =
      (P.HEAPPAGE_DATA_SIZE : Int) - 8 - 3 * P.sizeofSlot ∧
    (scenE P p0 pageNo).page.slots 1 = ⟨0, 3⟩ ∧
    (scenE P p0 pageNo).page.slots 2 = ⟨7, 1⟩ ∧
    (scenE P p0 pageNo).page.slots 3 = ⟨3, 4⟩ := by
  obtain ⟨_, a3, a4, a5, a6, a7, a8, a9, _⟩ := scenD_spec P hP hD p0 pageNo
  have hP' := hP
  obtain ⟨hP1, hP2⟩ := hP'
  unfold INT_MAX at hP1 hP2
  have h := insertRecord_reuse P (scenDPage P p0 pageNo) recE 1 ⟨0, 0⟩ 2 (by decide)
    (by rw [a4]; decide) (by rw [a8]; rfl)
    (fun j j1 j2 => by
      have : j = 1 := by omega
      rw [this, a7]
      rfl)
    (by rw [a6]; unfold INT_MAX; omega) (by decide) (by rw [a6]; omega)
  unfold scenE
  rw [h]
  dsimp only
  rw [a3, a4, a5, a6]
  refine ⟨rfl, rfl, rfl, rfl, rfl, by omega, ?_, ?_, ?_⟩
  · simp [setSlot, a7]
  · simp [setSlot]
  · simp [setSlot, a9]

/-- Scenario, after the deletion of slot 3: the directory is trimmed to two entries. -/
theorem scenF_spec (P : Params) (hP : P.valid)
    (hD : 9 + 3 * (P.sizeofSlot : Int) ≤ P.HEAPPAGE_DATA_SIZE) (p0 : HeapPage) (pageNo : Int) :
    scenF P p0 pageNo = some ⟨Status.OK, scenFPage P p0 pageNo⟩ ∧
    (scenFPage P p0 pageNo).numOfSlots = 2 ∧
    (scenFPage P p0 pageNo).freeSpace =
      (scenE P p0 pageNo).page.freeSpace + 4 + P.sizeofSlot := by
  obtain ⟨_, _, a3, a4, a5, a6, a7, a8, a9⟩ := scenE_spec P hP hD p0 pageNo
  have hv : ValidRid (scenE P p0 pageNo).page ⟨pageNo, 3⟩ := by
    refine ⟨a3.symm, by dsimp only; omega, by dsimp only; rw [a4], ?_⟩
    dsimp only
    rw [a9]
    rfl
  have hsl : ∀ k ∈ slotNumbers (scenE P p0 pageNo).page, k = 1 ∨ k = 2 ∨ k = 3 := by
    intro k hk
    rw [mem_slotNumbers, a4] at hk
    omega
  obtain ⟨res, hres, hs, _, _⟩ := deleteRecord_moves P (scenE P p0 pageNo).page
    ⟨pageNo, 3⟩ [2] 8 hv (by dsimp only; rw [a9]; decide) (by dsimp only; decide)
    (by decide)
    (by
      intro k hk
      rw [List.mem_singleton] at hk
      subst hk
      refine ⟨(mem_slotNumbers _ _).mpr ⟨by decide, by rw [a4]; decide⟩, ?_, ?_⟩
      · rw [a8]; rfl
      · rw [a8])
    (by
      dsimp only
      rw [a9]
      simp only [Tiles, a8]
      decide)
    (by
      intro k hk hocc hk2
      dsimp only
      rw [a9]
      rcases hsl k hk with rfl | rfl | rfl
      · rw [a7]; decide
      · exact absurd (List.mem_singleton.mpr rfl) hk2
      · rw [a9]; decide)
    4 (by decide)
  obtain ⟨_, _, _, b4, b5, _, _⟩ := deleteRecord_ok P 4 _ _ res hres hs
  dsimp only at b4 b5
  rw [a9] at b5
  rw [a4] at b4 b5
  dsimp only at b5
  have hpage : scenFPage P p0 pageNo = res.page := by
    unfold scenFPage scenF
    rw [hres]
  refine ⟨?_, ?_, ?_⟩
  · rw [hpage]
    unfold scenF
    rw [hres, ← hs]
  · rw [hpage, b4]
    decide
  · rw [hpage, b5]
    simp

/-- C11 (concrete scenario): on any frame reset by `Init`, with a data area that holds
the three records and their slots (`9 + 3 * sizeof(Slot) ≤ HEAPPAGE_DATA_SIZE`):
inserting `"AAA"`, `"BB"`, `"CCCC"` returns slot numbers 1, 2, 3 with slot offsets
0, 3, 5 and `freePtr = 9`; `DeleteRecord` of slot 2 returns `OK` and leaves `"CCCC"`
readable under slot 3 at offset 3, slot 2 unoccupied, `freePtr = 7` and
`GetNumOfRecords() = 2`; inserting `"E"` then returns slot number 2 with offset 7;
`DeleteRecord` of slot 3 then returns `OK`, leaves `numOfSlots = 2` and raises
`freeSpace` by `4 + sizeof(Slot)`. -/
theorem concrete_scenario (P : Params) (hP : P.valid)
    (hD : 9 + 3 * (P.sizeofSlot : Int) ≤ P.HEAPPAGE_DATA_SIZE) (p0 : HeapPage) (pageNo : Int) :
    ((scenA P p0 pageNo).status = Status.OK ∧ (scenA P p0 pageNo).rid = ⟨pageNo, 1⟩ ∧
      (scenB P p0 pageNo).status = Status.OK ∧ (scenB P p0 pageNo).rid = ⟨pageNo, 2⟩ ∧
      (scenC P p0 pageNo).status = Status.OK ∧ (scenC P p0 pageNo).rid = ⟨pageNo, 3⟩ ∧
      ((scenC P p0 pageNo).page.slots 1).offset = 0 ∧
      ((scenC P p0 pageNo).page.slots 2).offset = 3 ∧
      ((scenC P p0 pageNo).page.slots 3).offset = 5 ∧
      (scenC P p0 pageNo).page.freePtr = 9) ∧
    (scenD P p0 pageNo = some ⟨Status.OK, scenDPage P p0 pageNo⟩ ∧
      (∀ buf cap, 4 ≤ cap →
        (GetRecord (scenDPage P p0 pageNo) ⟨pageNo, 3⟩ buf cap).status = Status.OK ∧
        (GetRecord (scenDPage P p0 pageNo) ⟨pageNo, 3⟩ buf cap).len = 4 ∧
        ∀ i, 0 ≤ i → i < 4 →
          (GetRecord (scenDPage P p0 pageNo) ⟨pageNo, 3⟩ buf cap).recPtr i = recCCCC i) ∧
      ((scenDPage P p0 pageNo).slots 3).offset = 3 ∧
      SlotIsEmpty ((scenDPage P p0 pageNo).slots 2) = true ∧
      (scenDPage P p0 pageNo).freePtr = 7 ∧
      GetNumOfRecords (scenDPage P p0 pageNo) = 2) ∧
    ((scenE P p0 pageNo).status = Status.OK ∧ (scenE P p0 pageNo).rid = ⟨pageNo, 2⟩ ∧
      ((scenE P p0 pageNo).page.slots 2).offset = 7) ∧
    (scenF P p0 pageNo = some ⟨Status.OK, scenFPage P p0 pageNo⟩ ∧
      (scenFPage P p0 pageNo).numOfSlots = 2 ∧
      (scenFPage P p0 pageNo).freeSpace =
        (scenE P p0 pageNo).page.freeSpace + 4 + P.sizeofSlot) := by
  obtain ⟨a1, a2, _⟩ := scenA_spec P hP hD p0 pageNo
  obtain ⟨b1, b2, _⟩ := scenB_spec P hP hD p0 pageNo
  obtain ⟨c1, c2, _, _, c5, _, c7, c8, c9, _⟩ := scenC_spec P hP hD p0 pageNo
  obtain ⟨d1, d2, d3, d4, _, d6, d7, d8, d9⟩ := scenD_spec P hP hD p0 pageNo
  obtain ⟨e1, e2, _, _, _, _, _, e8, _⟩ := scenE_spec P hP hD p0 pageNo
  refine ⟨⟨a1, a2, b1, b2, c1, c2, by rw [c7], by rw [c8], by rw [c9], c5⟩,
    ⟨d1, fun buf cap hcap => ?_, by rw [d8], by rw [d7]; rfl, d4, ?_⟩,
    ⟨e1, e2, by rw [e8]⟩, scenF_spec P hP hD p0 pageNo⟩
  · have hv : ValidRid (scenDPage P p0 pageNo) ⟨pageNo, 3⟩ := by
      refine ⟨d2.symm, by dsimp only; omega, by dsimp only; rw [d3], ?_⟩
      dsimp only
      rw [d8]
      rfl
    rw [getRecord_valid _ _ buf cap hv]
    dsimp only
    rw [d8]
    dsimp only
    rw [if_neg (by omega)]
    refine ⟨rfl, rfl, fun i i0 i1 => ?_⟩
    simp only [memcpy]
    rw [if_pos (by omega), d9 _ (by omega) (by omega)]
    rfl
  · rw [getNumOfRecords_eq_sumTo, d3]
    have h3 : (3 : Int).toNat = 3 := by decide
    rw [h3]
    simp only [sumTo, Nat.cast_zero, Nat.cast_one, Nat.cast_ofNat, zero_add]
    norm_num [d6, d7, d8, slotCount, SlotIsEmpty, INVALID_SLOT]

/-- C11 witness: the scenario with a 100 byte data area and 4 byte slots. -/
theorem concrete_scenario_witness :
    scenD sampleParams rawPage 7 = some ⟨Status.OK, scenDPage sampleParams rawPage 7⟩ ∧
    GetNumOfRecords (scenDPage sampleParams rawPage 7) = 2 ∧
    (scenE sampleParams rawPage 7).rid = ⟨7, 2⟩ ∧
    (scenFPage sampleParams rawPage 7).numOfSlots = 2 :=
  ⟨(concrete_scenario sampleParams (by decide) (by decide) rawPage 7).2.1.1,
   (concrete_scenario sampleParams (by decide) (by decide) rawPage 7).2.1.2.2.2.2.2,
   (concrete_scenario sampleParams (by decide) (by decide) rawPage 7).2.2.1.2.1,
   (concrete_scenario sampleParams (by decide) (by decide) rawPage 7).2.2.2.2.1⟩

/-- The page with three records, with its count of records. -/
theorem pageABC_count : ReachableCount sampleParams pageABC 3 :=
  ReachableCount.insert pageAB 2 sampleRec 4 ⟨0, 0⟩
    (ReachableCount.insert pageA 1 sampleRec 2 ⟨0, 0⟩
      (ReachableCount.insert page0 0 sampleRec 3 ⟨0, 0⟩ (ReachableCount.init rawPage 7)
        (by decide) (by decide))
      (by decide) (by decide))
    (by decide) (by decide)

/-- C18 witness: three insertions and one deletion leave two records. -/
theorem record_count_witness : GetNumOfRecords pageAC = 2 :=
  (record_count sampleParams pageAC 2
    (ReachableCount.delete pageABC 3 4 ⟨7, 2⟩ ⟨Status.OK, pageAC⟩ pageABC_count
      delete_pageABC)).1

/-! ## Byte-level model: the sample slot layout -/

theorem word16_putWord16 (m : Int → Byte) (a v : Int) :
    word16 (putWord16 m a v) a = v % 65536 := by
  unfold word16 putWord16
  have h1 : ¬ (a + 1 = a) := by omega
  simp only [if_true, h1, if_false]
  omega

theorem word16_putWord16_of_ne (m : Int → Byte) (a b v : Int) (h1 : b ≠ a) (h2 : b ≠ a + 1)
    (h3 : b + 1 ≠ a) (h4 : b + 1 ≠ a + 1) :
    word16 (putWord16 m a v) b = word16 m b := by
  unfold word16 putWord16
  simp only [h1, h2, h3, h4, if_false]

theorem toInt16_mod (v : Int) (h1 : -32768 ≤ v) (h2 : v < 32768) :
    toInt16 (v % 65536) = v := by
  unfold toInt16
  split <;> omega

theorem toInt16_word16_range (m : Int → Byte) (a : Int) :
    -32768 ≤ toInt16 (word16 m a) ∧ toInt16 (word16 m a) < 32768 := by
  unfold toInt16 word16
  split <;> omega

/-- The sample slot layout satisfies what is assumed of a layout with 4-byte entries. -/
theorem sampleFields_lawful : sampleFields.Lawful 4 where
  size_pos := by decide
  getOffset_congr := by
    intro m m' a h
    dsimp only [sampleFields]
    unfold word16
    rw [h a (by omega) (by omega), h (a + 1) (by omega) (by omega)]
  getLength_congr := by
    intro m m' a h
    dsimp only [sampleFields]
    unfold word16
    rw [h (a + 2) (by omega) (by omega), h (a + 2 + 1) (by omega) (by omega)]
  setOffset_frame := by
    intro m a v i h
    dsimp only [sampleFields]
    unfold putWord16
    rw [if_neg (by omega), if_neg (by omega)]
  setLength_frame := by
    intro m a v i h
    dsimp only [sampleFields]
    unfold putWord16
    rw [if_neg (by omega), if_neg (by omega)]
  getOffset_setOffset := by
    intro m a v h
    dsimp only [sampleFields]
    rw [word16_putWord16]
    exact toInt16_mod v h.1 h.2
  getLength_setLength := by
    intro m a v h
    dsimp only [sampleFields]
    rw [word16_putWord16]
    exact toInt16_mod v h.1 h.2
  getLength_setOffset := by
    intro m a v
    dsimp only [sampleFields]
    rw [word16_putWord16_of_ne m a (a + 2) v (by omega) (by omega) (by omega) (by omega)]
  getOffset_setLength := by
    intro m a v
    dsimp only [sampleFields]
    rw [word16_putWord16_of_ne m (a + 2) a v (by omega) (by omega) (by omega) (by omega)]
  fitsLength_invalid := by
    dsimp only [sampleFields]
    unfold INVALID_SLOT
    constructor <;> decide
  fitsOffset_get := by
    intro m a
    dsimp only [sampleFields]
    exact toInt16_word16_range m a
  fitsOffset_down := by
    intro v w h1 h2 h3
    dsimp only [sampleFields] at h3 ⊢
    constructor <;> omega

/-! ## Byte-level model: basic facts -/

theorem mem_slotRange (n k : Int) : k ∈ slotRange n ↔ 1 ≤ k ∧ k ≤ n := by
  unfold slotRange
  simp only [List.mem_map, List.mem_range]
  constructor
  · rintro ⟨i, hi, rfl⟩
    omega
  · intro ⟨h1, h2⟩
    exact ⟨(k - 1).toNat, by omega, by omega⟩

/-- Directory entries of higher slot numbers start at lower addresses. -/
theorem slotEntryOffset_anti (P : Params) (j k : Int) (h : j ≤ k) :
    slotEntryOffset P k ≤ slotEntryOffset P j := by
  unfold slotEntryOffset
  have h0 : (0 : Int) ≤ (P.sizeofSlot : Int) := Int.ofNat_nonneg _
  have := mul_le_mul_of_nonneg_right h h0
  omega

/-- The entries of two slots do not overlap. -/
theorem slotEntryOffset_apart (P : Params) (j k : Int) (h : j < k) :
    slotEntryOffset P k + P.sizeofSlot ≤ slotEntryOffset P j := by
  unfold slotEntryOffset
  have h0 : (0 : Int) ≤ (P.sizeofSlot : Int) := Int.ofNat_nonneg _
  have h1 : (j + 1) * (P.sizeofSlot : Int) ≤ k * (P.sizeofSlot : Int) :=
    mul_le_mul_of_nonneg_right (by omega) h0
  rw [add_mul, one_mul] at h1
  omega

/-- An entry read from two memories that agree on the bytes of the entry. -/
theorem slotAt_congr (F : SlotFields) (P : Params) (hF : F.Lawful P.sizeofSlot)
    (m m' : Int → Byte) (k : Int)
    (h : ∀ i, slotEntryOffset P k ≤ i → i < slotEntryOffset P k + P.sizeofSlot → m i = m' i) :
    Bytes.slotAt F P m k = Bytes.slotAt F P m' k := by
  unfold Bytes.slotAt
  rw [hF.getOffset_congr m m' _ h, hF.getLength_congr m m' _ h]

/-! ## C15: where `InsertRecord` inserts -/

/-- The three ways the byte-level `InsertRecord` can end. -/
theorem bytes_insertRecord_cases (F : SlotFields) (P : Params) (p : Bytes.Page)
    (recPtr : Int → Byte) (length : Int) (rid : RecordID) :
    Bytes.InsertRecord F P p recPtr length rid = ⟨Status.DONE, p, rid⟩ ∨
    (∃ k, (slotRange p.numOfSlots).find?
        (fun k => SlotIsEmpty (Bytes.slotAt F P p.data k)) = some k ∧
      Bytes.InsertRecord F P p recPtr length rid =
        ⟨Status.OK,
          { p with
            data := memcpy
              (F.setOffset (F.setLength p.data (slotEntryOffset P k) length)
                (slotEntryOffset P k) p.freePtr)
              (F.getOffset
                (F.setOffset (F.setLength p.data (slotEntryOffset P k) length)
                  (slotEntryOffset P k) p.freePtr) (slotEntryOffset P k))
              recPtr 0 length
            freePtr := p.freePtr + length
            freeSpace := p.freeSpace - length },
          ⟨p.pid, k⟩⟩) ∨
    ((slotRange p.numOfSlots).find?
        (fun k => SlotIsEmpty (Bytes.slotAt F P p.data k)) = none ∧
      Bytes.InsertRecord F P p recPtr length rid =
        ⟨Status.OK,
          { p with
            numOfSlots := p.numOfSlots + 1
            data := memcpy
              (F.setOffset (F.setLength p.data (slotEntryOffset P (p.numOfSlots + 1)) length)
                (slotEntryOffset P (p.numOfSlots + 1)) p.freePtr)
              (F.getOffset
                (F.setOffset
                  (F.setLength p.data (slotEntryOffset P (p.numOfSlots + 1)) length)
                  (slotEntryOffset P (p.numOfSlots + 1)) p.freePtr)
                (slotEntryOffset P (p.numOfSlots + 1)))
              recPtr 0 length
            freePtr := p.freePtr + length
            freeSpace := p.freeSpace - P.sizeofSlot - length },
          ⟨p.pid, p.numOfSlots + 1⟩⟩) := by
  unfold Bytes.InsertRecord
  dsimp only
  by_cases hc : toSizeT p.freeSpace < toSizeT (length +
      (if ((slotRange p.numOfSlots).find?
        (fun k => SlotIsEmpty (Bytes.slotAt F P p.data k))).isSome then 0
        else (P.sizeofSlot : Int)))
  · left
    rw [if_pos hc]
  · right
    rw [if_neg hc]
    cases hf : (slotRange p.numOfSlots).find?
        (fun k => SlotIsEmpty (Bytes.slotAt F P p.data k)) with
    | none => right; exact ⟨rfl, rfl⟩
    | some k => left; exact ⟨k, rfl, rfl⟩

/-- Storing an entry in slot `k` and copying a record that ends at or before the first
byte of a directory of `n` slots, `k ≤ n`: slot `k` holds the entry, the other
slots among `1..n` and the bytes below the record are as before. -/
theorem store_entry_then_copy (F : SlotFields) (P : Params) (hF : F.Lawful P.sizeofSlot)
    (m : Int → Byte) (recPtr : Int → Byte) (k n freePtr length : Int)
    (hk2 : k ≤ n) (hlen : 0 ≤ length) (hfitO : F.fitsOffset freePtr)
    (hfitL : F.fitsLength length) (hbelow : freePtr + length ≤ slotEntryOffset P n) :
    Bytes.slotAt F P
      (memcpy (F.setOffset (F.setLength m (slotEntryOffset P k) length)
          (slotEntryOffset P k) freePtr)
        (F.getOffset (F.setOffset (F.setLength m (slotEntryOffset P k) length)
          (slotEntryOffset P k) freePtr) (slotEntryOffset P k)) recPtr 0 length) k =
      ⟨freePtr, length⟩ ∧
    (∀ j, 1 ≤ j → j ≤ n → j ≠ k →
      Bytes.slotAt F P
        (memcpy (F.setOffset (F.setLength m (slotEntryOffset P k) length)
            (slotEntryOffset P k) freePtr)
          (F.getOffset (F.setOffset (F.setLength m (slotEntryOffset P k) length)
            (slotEntryOffset P k) freePtr) (slotEntryOffset P k)) recPtr 0 length) j =
        Bytes.slotAt F P m j) ∧
    (∀ x, x < freePtr →
      memcpy (F.setOffset (F.setLength m (slotEntryOffset P k) length)
          (slotEntryOffset P k) freePtr)
        (F.getOffset (F.setOffset (F.setLength m (slotEntryOffset P k) length)
          (slotEntryOffset P k) freePtr) (slotEntryOffset P k)) recPtr 0 length x = m x) := by
  have hsz := hF.size_pos
  have hkn := slotEntryOffset_anti P k n hk2
  rw [hF.getOffset_setOffset _ _ _ hfitO]
  have hcopy : ∀ (d : Int → Byte) (i : Int), slotEntryOffset P n ≤ i →
      memcpy d freePtr recPtr 0 length i = d i := by
    intro d i hi
    unfold memcpy
    rw [if_neg (by omega)]
  refine ⟨?_, fun j j1 j2 hjk => ?_, fun x hx => ?_⟩
  · rw [slotAt_congr F P hF _
      (F.setOffset (F.setLength m (slotEntryOffset P k) length) (slotEntryOffset P k) freePtr)
      k (fun i hi _ => hcopy _ i (by omega))]
    unfold Bytes.slotAt
    rw [hF.getOffset_setOffset _ _ _ hfitO, hF.getLength_setOffset,
      hF.getLength_setLength _ _ _ hfitL]
  · have hjn := slotEntryOffset_anti P j n j2
    apply slotAt_congr F P hF
    intro i hi1 hi2
    have hout : ¬ (slotEntryOffset P k ≤ i ∧ i < slotEntryOffset P k + P.sizeofSlot) := by
      rcases lt_or_gt_of_ne hjk with hlt | hgt
      · have := slotEntryOffset_apart P j k hlt
        omega
      · have := slotEntryOffset_apart P k j hgt
        omega
    rw [hcopy _ i (by omega), hF.setOffset_frame _ _ _ _ hout, hF.setLength_frame _ _ _ _ hout]
  · have hout : ¬ (slotEntryOffset P k ≤ x ∧ x < slotEntryOffset P k + P.sizeofSlot) := by
      omega
    unfold memcpy
    rw [if_neg (by omega), hF.setOffset_frame _ _ _ _ hout, hF.setLength_frame _ _ _ _ hout]

/-- The first loop of the byte-level `InsertRecord` stops at the lowest unoccupied
slot. -/
theorem bytes_find_empty_lowest (F : SlotFields) (P : Params) (p : Bytes.Page) (k : Int)
    (h : (slotRange p.numOfSlots).find?
      (fun k => SlotIsEmpty (Bytes.slotAt F P p.data k)) = some k) :
    1 ≤ k ∧ k ≤ p.numOfSlots ∧ SlotIsEmpty (Bytes.slotAt F P p.data k) = true ∧
      ∀ j, 1 ≤ j → j < k → SlotIsEmpty (Bytes.slotAt F P p.data j) = false := by
  obtain ⟨h1, h2, h3, h4⟩ :=
    find?_oneTo (fun k => SlotIsEmpty (Bytes.slotAt F P p.data k)) _ k h
  exact ⟨h2, by omega, h1, h4⟩

/-- The first loop of the byte-level `InsertRecord` finds nothing exactly when no slot
among `1..numOfSlots` is unoccupied. -/
theorem bytes_find_empty_none (F : SlotFields) (P : Params) (p : Bytes.Page) :
    (slotRange p.numOfSlots).find?
      (fun k => SlotIsEmpty (Bytes.slotAt F P p.data k)) = none ↔
      ∀ j, 1 ≤ j → j ≤ p.numOfSlots → SlotIsEmpty (Bytes.slotAt F P p.data j) = false := by
  rw [List.find?_eq_none]
  constructor
  · intro h j j1 j2
    simpa using h j ((mem_slotRange _ j).mpr ⟨j1, j2⟩)
  · intro h j hj
    have := (mem_slotRange _ j).mp hj
    simp [h j this.1 this.2]

/-- C15 (insert placement, amended): on the bytes of the page, for every page state
and every record of length at least 0 for which `InsertRecord` returns `OK`, provided
the record ends at or before the first byte of the slot directory as it is after the
call (`0 ≤ numOfSlots`, `0 ≤ freePtr` and `freePtr + length ≤ HEAPPAGE_DATA_SIZE -
n * sizeof(Slot)`, with `n` the new `numOfSlots`) and `freePtr` and the length fit the
fields of a slot: the returned record identifier has `pageNo = pid`; its `slotNo` is
the lowest-numbered unoccupied slot among `1..numOfSlots` if there is one (`numOfSlots`
then unchanged) and the old `numOfSlots + 1` otherwise (`numOfSlots` then incremented
by one); that slot is set to offset = old `freePtr` and length = the record's length;
`freePtr` grows by the length; no other slot entry of the directory and no data byte
below the old `freePtr` changes. -/
theorem insert_placement_below_directory (F : SlotFields) (P : Params)
    (hF : F.Lawful P.sizeofSlot) (p : Bytes.Page) (recPtr : Int → Byte) (length : Int)
    (rid : RecordID) (hlen : 0 ≤ length)
    (hfitO : F.fitsOffset p.freePtr) (hfitL : F.fitsLength length)
    (hOK : (Bytes.InsertRecord F P p recPtr length rid).status = Status.OK)
    (hroom : 0 ≤ p.numOfSlots ∧ 0 ≤ p.freePtr ∧ p.freePtr + length ≤
      slotEntryOffset P (Bytes.InsertRecord F P p recPtr length rid).page.numOfSlots) :
    (Bytes.InsertRecord F P p recPtr length rid).rid.pageNo = p.pid ∧
    (((1 ≤ (Bytes.InsertRecord F P p recPtr length rid).rid.slotNo ∧
        (Bytes.InsertRecord F P p recPtr length rid).rid.slotNo ≤ p.numOfSlots ∧
        SlotIsEmpty (Bytes.slotAt F P p.data
          (Bytes.InsertRecord F P p recPtr length rid).rid.slotNo) = true ∧
        (∀ j, 1 ≤ j → j < (Bytes.InsertRecord F P p recPtr length rid).rid.slotNo →
          SlotIsEmpty (Bytes.slotAt F P p.data j) = false)) ∧
        (Bytes.InsertRecord F P p recPtr length rid).page.numOfSlots = p.numOfSlots) ∨
      ((∀ j, 1 ≤ j → j ≤ p.numOfSlots → SlotIsEmpty (Bytes.slotAt F P p.data j) = false) ∧
        (Bytes.InsertRecord F P p recPtr length rid).rid.slotNo = p.numOfSlots + 1 ∧
        (Bytes.InsertRecord F P p recPtr length rid).page.numOfSlots = p.numOfSlots + 1)) ∧
    Bytes.slotAt F P (Bytes.InsertRecord F P p recPtr length rid).page.data
      (Bytes.InsertRecord F P p recPtr length rid).rid.slotNo = ⟨p.freePtr, length⟩ ∧
    (Bytes.InsertRecord F P p recPtr length rid).page.freePtr = p.freePtr + length ∧
    (∀ j, 1 ≤ j → j ≤ (Bytes.InsertRecord F P p recPtr length rid).page.numOfSlots →
      j ≠ (Bytes.InsertRecord F P p recPtr length rid).rid.slotNo →
      Bytes.slotAt F P (Bytes.InsertRecord F P p recPtr length rid).page.data j =
        Bytes.slotAt F P p.data j) ∧
    (∀ x, x < p.freePtr →
      (Bytes.InsertRecord F P p recPtr length rid).page.data x = p.data x) := by
  have hbelow := hroom.2.2
  rcases bytes_insertRecord_cases F P p recPtr length rid with h | ⟨k, hk, h⟩ | ⟨hnone, h⟩
  · rw [h] at hOK
    cases hOK
  · rw [h] at hbelow ⊢
    dsimp only at hbelow ⊢
    obtain ⟨k1, k2, k3, k4⟩ := bytes_find_empty_lowest F P p k hk
    obtain ⟨s1, s2, s3⟩ := store_entry_then_copy F P hF p.data recPtr k p.numOfSlots
      p.freePtr length k2 hlen hfitO hfitL hbelow
    exact ⟨rfl, Or.inl ⟨⟨k1, k2, k3, k4⟩, rfl⟩, s1, rfl, s2, s3⟩
  · rw [h] at hbelow ⊢
    dsimp only at hbelow ⊢
    obtain ⟨s1, s2, s3⟩ := store_entry_then_copy F P hF p.data recPtr (p.numOfSlots + 1)
      (p.numOfSlots + 1) p.freePtr length (le_refl _) hlen hfitO hfitL hbelow
    exact ⟨rfl, Or.inr ⟨(bytes_find_empty_none F P p).mp hnone, rfl, rfl⟩, s1, rfl, s2, s3⟩

/-- C15 witness: a 3 byte record inserted in an empty 100-byte page goes to slot 1 at
offset 0, and the bytes of the record end below the entry stored at byte 96. -/
theorem insert_placement_below_directory_witness :
    (Bytes.InsertRecord sampleFields sampleParams bytesPage0 recAAA 3 ⟨0, 0⟩).status =
      Status.OK ∧
    (0 ≤ bytesPage0.numOfSlots ∧ 0 ≤ bytesPage0.freePtr ∧
      bytesPage0.freePtr + 3 ≤ slotEntryOffset sampleParams
        (Bytes.InsertRecord sampleFields sampleParams bytesPage0 recAAA 3
          ⟨0, 0⟩).page.numOfSlots) ∧
    (Bytes.InsertRecord sampleFields sampleParams bytesPage0 recAAA 3 ⟨0, 0⟩).rid = ⟨7, 1⟩ ∧
    Bytes.slotAt sampleFields sampleParams
      (Bytes.InsertRecord sampleFields sampleParams bytesPage0 recAAA 3 ⟨0, 0⟩).page.data
      (Bytes.InsertRecord sampleFields sampleParams bytesPage0 recAAA 3 ⟨0, 0⟩).rid.slotNo =
      ⟨bytesPage0.freePtr, 3⟩ :=
  ⟨by decide, by decide, by decide,
   (insert_placement_below_directory sampleFields sampleParams sampleFields_lawful bytesPage0
      recAAA 3 ⟨0, 0⟩ (by decide) (by constructor <;> decide) (by constructor <;> decide)
      (by decide) (by decide)).2.2.1⟩

/-- C15 counterexample: on a 100-byte page with 4-byte slots whose `freePtr` is 96,
next to the directory (one slot, `(0, 3)`, `freeSpace = 8`), `InsertRecord` of the
4 byte record `"XXXX"` returns `OK` with record identifier `(7, 2)`; the entry of slot
1, another slot, changes from `(0, 3)` to `(22616, 22616)`, and the byte at offset 92,
below the old `freePtr`, changes from 0 to 96. -/
theorem insert_placement_counterexample :
    overlapInsertPage.numOfSlots = 1 ∧ overlapInsertPage.freePtr = 96 ∧
    Bytes.slotAt sampleFields sampleParams overlapInsertPage.data 1 = ⟨0, 3⟩ ∧
    (Bytes.InsertRecord sampleFields sampleParams overlapInsertPage recX 4 ⟨0, 0⟩).status =
      Status.OK ∧
    (Bytes.InsertRecord sampleFields sampleParams overlapInsertPage recX 4 ⟨0, 0⟩).rid =
      ⟨7, 2⟩ ∧
    Bytes.slotAt sampleFields sampleParams
      (Bytes.InsertRecord sampleFields sampleParams overlapInsertPage recX 4 ⟨0, 0⟩).page.data
      1 = ⟨22616, 22616⟩ ∧
    overlapInsertPage.data 92 = 0 ∧
    (Bytes.InsertRecord sampleFields sampleParams overlapInsertPage recX 4 ⟨0, 0⟩).page.data
      92 = 96 := by
  decide

/-! ## C17: what a successful `DeleteRecord` does to the counters -/

end HeapPageModel
